import Mathlib

/-!
# Orderbook.cpp: a shallow embedding and its verified properties

The source is one C++ translation unit, `src/Orderbook.cpp`.  It is embedded as
follows.

* `Price` (`std::int32_t`) is `Int`; `Quantity` (`std::uint32_t`) and `OrderId`
  (`std::uint64_t`) are `Nat`, with explicit `% 2^32` / `% 2^64` where the source
  converts or can wrap.
* `OrderPointer` (`std::shared_ptr<Order>`) is an address into a `Memory` of `Order`
  objects.  `Order::Fill` mutates the object, so the level sequence and the order
  index, which share the pointer, see the same remaining quantity.
* `std::map<Price, OrderPointers, Compare>` is the list of its `(price, level)`
  entries in iteration order; `std::unordered_map<OrderId, OrderEntry>` is an
  association list (its iteration order is never observed by the source).
* `OrderPointers::iterator` is `Iterator`: the node holding a pointer, or the
  past-the-end position of the list.
* A call can end normally (`Run.done`), by an exception or a use of a container outside
  its precondition (`Run.fault`: `Order::Fill` throwing, `std::map::at` on a missing
  key, `std::list::erase` at the past-the-end iterator, `front()` of an empty list), or
  not at all (`Run.outOfFuel`, the loops are given fuel).
* Reads through a reference are reads of the value: after `bids_.erase(bidPrice)` the
  reference `bids` of `MatchOrders` reads as the empty level, and the order read through
  `existingOrder` in `MatchOrder` is the order that was in the index before the
  cancellation.

The source does not compile as written; identifiers that are ill-typed where they stand
are read as the only well-typed member of the same name: `bids` / `asks` at lines 194,
196, 197 and 220 are `bids_` / `asks_` (a map is needed there), `GetOrderId` at line 210
and 300 is `GetOrderId()`, `Order->GetPrice()` at line 257 is `order->GetPrice()`,
`Side::sell` is `Side::Sell`, `existingOrder.GetOrderId()` is
`existingOrder->GetOrderId()`, `OrderModify::GetSide` returns the side, the parameter
`Orders` of the lambda of line 315 is the `orders` its body reads, and the parenthesis that
closes after `orders.end()` at line 317 closes after the lambda, so that `(Quantity)0` and
the lambda are the third and fourth argument of `std::accumulate`.  Lines that
are well-typed are embedded as they stand, among them `std::next(orders.begin(),
orders.size())` (lines 264, 268) and `asks_.erase(price)` in the Buy branch of
`CancelOrder` (line 292).
-/

namespace OrderbookCpp

/-! ## Data model (lines 23-156) -/

inductive OrderType where
  | GoodTillCancel
  | FillAndKill
  deriving DecidableEq, Repr

inductive Side where
  | Buy
  | Sell
  deriving DecidableEq, Repr

abbrev Price := Int
abbrev Quantity := Nat
abbrev OrderId := Nat

structure LevelInfo where
  price_ : Price
  quantity_ : Quantity
  deriving DecidableEq, Repr

abbrev LevelInfos := List LevelInfo

structure OrderbookLevelInfos where
  bids_ : LevelInfos
  asks_ : LevelInfos
  deriving DecidableEq, Repr

def OrderbookLevelInfos.GetBids (i : OrderbookLevelInfos) : LevelInfos := i.bids_

def OrderbookLevelInfos.GetAsks (i : OrderbookLevelInfos) : LevelInfos := i.asks_

structure Order where
  orderType_ : OrderType
  orderId_ : OrderId
  side_ : Side
  price_ : Price
  initialQuantity_ : Quantity
  remainingQuantity_ : Quantity
  deriving DecidableEq, Repr

/-- The constructor `Order(orderType, orderId, side, price, quantity)` (lines 65-72). -/
def Order.new (orderType : OrderType) (orderId : OrderId) (side : Side) (price : Price)
    (quantity : Quantity) : Order :=
  { orderType_ := orderType, orderId_ := orderId, side_ := side, price_ := price,
    initialQuantity_ := quantity, remainingQuantity_ := quantity }

def Order.GetOrderId (o : Order) : OrderId := o.orderId_

def Order.GetSide (o : Order) : Side := o.side_

def Order.GetPrice (o : Order) : Price := o.price_

def Order.GetInitialQuantity (o : Order) : Quantity := o.initialQuantity_

def Order.GetRemainingQuantity (o : Order) : Quantity := o.remainingQuantity_

/-- Line 79: `initialQuantity_ - remainingQuantity_` in `std::uint32_t`. -/
def Order.GetFilledQuantity (o : Order) : Quantity :=
  (o.initialQuantity_ + 2 ^ 32 - o.remainingQuantity_ % 2 ^ 32) % 2 ^ 32

/-- Modelled from the spec: `Order::GetOrderType` is called at lines 236, 243, 257 and
304 but class `Order` (lines 62-99) does not declare it; the spec's Order carries a
"lifetime policy", so the getter returns the `orderType_` field like its siblings. -/
def Order.GetOrderType (o : Order) : OrderType := o.orderType_

def Order.IsFilled (o : Order) : Bool := o.GetRemainingQuantity == 0

/-- Lines 83-89: `Fill` throws (`none`) when asked for more than the remaining quantity. -/
def Order.Fill (o : Order) (quantity : Quantity) : Option Order :=
  if quantity > o.GetRemainingQuantity then none
  else some { o with remainingQuantity_ := o.remainingQuantity_ - quantity }

abbrev OrderPointer := Nat

abbrev OrderPointers := List OrderPointer

/-- The `Order` objects of the program, by address; `next` is the first address that
`std::make_shared` has not handed out. -/
structure Memory where
  cell : OrderPointer → Order
  next : OrderPointer

def Memory.write (h : Memory) (p : OrderPointer) (o : Order) : Memory :=
  { h with cell := fun q => if q = p then o else h.cell q }

/-- The effect of `std::make_shared<Order>(...)`: a new object at a new address. -/
def Memory.make_shared (h : Memory) (o : Order) : Memory × OrderPointer :=
  ({ cell := fun q => if q = h.next then o else h.cell q, next := h.next + 1 }, h.next)

structure TradeInfo where
  orderId_ : OrderId
  price_ : Price
  quantity_ : Quantity
  deriving DecidableEq, Repr

structure Trade where
  bidTrade_ : TradeInfo
  askTrade_ : TradeInfo
  deriving DecidableEq, Repr

def Trade.GetBidTrade (t : Trade) : TradeInfo := t.bidTrade_

def Trade.GetAskTrade (t : Trade) : TradeInfo := t.askTrade_

abbrev Trades := List Trade

/-- Conversion of a `Price` (`std::int32_t`) to `OrderId` (`std::uint64_t`). -/
def priceToOrderId (p : Price) : OrderId := (p % 2 ^ 64).toNat

/-- Conversion of an `OrderId` (`std::uint64_t`) to `Price` (`std::int32_t`). -/
def orderIdToPrice (n : OrderId) : Price :=
  if n % 2 ^ 32 < 2 ^ 31 then ((n % 2 ^ 32 : Nat) : Int) else ((n % 2 ^ 32 : Nat) : Int) - 2 ^ 32

/-- Conversion of an `OrderId` (`std::uint64_t`) to `Quantity` (`std::uint32_t`). -/
def orderIdToQuantity (n : OrderId) : Quantity := n % 2 ^ 32

/-- Lines 104-131.  The constructor takes `(orderId, side, price, quantity)`. -/
structure OrderModify where
  orderId_ : OrderId
  price_ : Price
  side_ : Side
  quantity_ : Quantity
  deriving DecidableEq, Repr

def OrderModify.GetOrderId (m : OrderModify) : OrderId := m.orderId_

/-- Line 115: declared to return `OrderId`. -/
def OrderModify.GetPrice (m : OrderModify) : OrderId := priceToOrderId m.price_

def OrderModify.GetSide (m : OrderModify) : Side := m.side_

/-- Line 117: declared to return `OrderId`. -/
def OrderModify.GetQuantity (m : OrderModify) : OrderId := m.quantity_ % 2 ^ 64

/-- Lines 119-123: the getters' `OrderId` results are converted to the constructor's
`Price` and `Quantity` parameters. -/
def OrderModify.ToOrderPointer (m : OrderModify) (h : Memory) (type : OrderType) :
    Memory × OrderPointer :=
  h.make_shared
    (Order.new type m.GetOrderId m.GetSide (orderIdToPrice m.GetPrice)
      (orderIdToQuantity m.GetQuantity))

/-! ## Containers -/

/-- A position of a `std::list<OrderPointer>`: the node that holds `p`, or past the end. -/
inductive Iterator where
  | node (p : OrderPointer)
  | pastEnd
  deriving DecidableEq, Repr

/-- The value of `std::next(l.begin(), n)` for `n ≤ l.size()`. -/
def stdNext (l : OrderPointers) (n : Nat) : Iterator :=
  match l.drop n with
  | p :: _ => Iterator.node p
  | [] => Iterator.pastEnd

/-- The effect of `l.erase(it)`: defined only when `it` designates an element of `l`. -/
def listErase (l : OrderPointers) (it : Iterator) : Option OrderPointers :=
  match it with
  | Iterator.node p => if p ∈ l then some (l.erase p) else none
  | Iterator.pastEnd => none

abbrev Level := Price × OrderPointers

/-- The entries of a `std::map<Price, OrderPointers, Compare>` in iteration order. -/
abbrev Ledger := List Level

/-- `std::greater<Price>`, the comparator of `bids_` (line 167). -/
def greaterPrice (a b : Price) : Bool := decide (a > b)

/-- `std::less<Price>`, the comparator of `asks_` (line 168). -/
def lessPrice (a b : Price) : Bool := decide (a < b)

/-- The effect of `m[k]` on the map: an empty level is inserted when `k` is absent. -/
def mapIndex (before : Price → Price → Bool) : Ledger → Price → Ledger
  | [], k => [(k, [])]
  | (k', l) :: rest, k =>
    if k' = k then (k', l) :: rest
    else if before k k' then (k, []) :: (k', l) :: rest
    else (k', l) :: mapIndex before rest k

/-- The level stored under `k`, if any (`find`, `at`). -/
def mapAt : Ledger → Price → Option OrderPointers
  | [], _ => none
  | (k', l) :: rest, k => if k' = k then some l else mapAt rest k

/-- Reading a level through a reference obtained from the map: the level stored under
`k`, the empty sequence once the entry has been erased. -/
def levelRef (m : Ledger) (k : Price) : OrderPointers := (mapAt m k).getD []

/-- Writing a level through a reference obtained from the map. -/
def mapAssign : Ledger → Price → OrderPointers → Ledger
  | [], _, _ => []
  | (k', l) :: rest, k, l' =>
    if k' = k then (k', l') :: rest else (k', l) :: mapAssign rest k l'

/-- The effect of `m.erase(k)`. -/
def mapErase : Ledger → Price → Ledger
  | [], _ => []
  | (k', l) :: rest, k => if k' = k then rest else (k', l) :: mapErase rest k

structure OrderEntry where
  order_ : OrderPointer
  location_ : Iterator
  deriving DecidableEq, Repr

/-- The entries of the `std::unordered_map<OrderId, OrderEntry>`. -/
abbrev OrderIndex := List (OrderId × OrderEntry)

def indexContains (m : OrderIndex) (k : OrderId) : Bool := m.any (fun e => e.1 == k)

def indexAt : OrderIndex → OrderId → Option OrderEntry
  | [], _ => none
  | (k', e) :: rest, k => if k' = k then some e else indexAt rest k

def indexErase : OrderIndex → OrderId → OrderIndex
  | [], _ => []
  | (k', e) :: rest, k => if k' = k then rest else (k', e) :: indexErase rest k

/-- The effect of `m.insert({k, e})`: nothing is inserted when `k` is present. -/
def indexInsert (m : OrderIndex) (k : OrderId) (e : OrderEntry) : OrderIndex :=
  if indexContains m k then m else m ++ [(k, e)]

/-! ## The order book (lines 158-333) -/

structure Orderbook where
  bids_ : Ledger
  asks_ : Ledger
  orders_ : OrderIndex
  deriving DecidableEq, Repr

/-- How a call ends. -/
inductive Run (α : Type) where
  | done (a : α)
  | fault
  | outOfFuel
  deriving DecidableEq, Repr

def Orderbook.empty : Orderbook := { bids_ := [], asks_ := [], orders_ := [] }

/-- Lines 171-187. -/
def Orderbook.CanMatch (b : Orderbook) (side : Side) (price : Price) : Bool :=
  if side = Side.Buy then
    match b.asks_ with
    | [] => false
    | (bestAsk, _) :: _ => decide (price ≥ bestAsk)
  else
    match b.bids_ with
    | [] => false
    | (bestBid, _) :: _ => decide (price ≤ bestBid)

/-- Modelled from the spec: `MatchOrders` uses `quantity` at lines 205, 206 and 223 but
its declaration is missing from the source; the spec (4.3, step 2) gives "execute
quantity = min(bid.remaining, ask.remaining)". -/
def matchQuantity (bid ask : Order) : Quantity :=
  min bid.GetRemainingQuantity ask.GetRemainingQuantity

/-- Lines 277-294. -/
def Orderbook.CancelOrder (h : Memory) (b : Orderbook) (orderId : OrderId) : Run Orderbook :=
  if !indexContains b.orders_ orderId then Run.done b
  else
    match indexAt b.orders_ orderId with
    | none => Run.fault
    | some entry =>
      let order := h.cell entry.order_
      let orderIterator := entry.location_
      let b1 : Orderbook := { b with orders_ := indexErase b.orders_ orderId }
      if order.GetSide = Side.Sell then
        let price := order.GetPrice
        match mapAt b1.asks_ price with
        | none => Run.fault
        | some orders =>
          match listErase orders orderIterator with
          | none => Run.fault
          | some orders' =>
            let b2 : Orderbook := { b1 with asks_ := mapAssign b1.asks_ price orders' }
            if orders'.isEmpty then Run.done { b2 with asks_ := mapErase b2.asks_ price }
            else Run.done b2
      else
        let price := order.GetPrice
        match mapAt b1.bids_ price with
        | none => Run.fault
        | some orders =>
          match listErase orders orderIterator with
          | none => Run.fault
          | some orders' =>
            let b2 : Orderbook := { b1 with bids_ := mapAssign b1.bids_ price orders' }
            if orders'.isEmpty then Run.done { b2 with asks_ := mapErase b2.asks_ price }
            else Run.done b2

/-- The loop of lines 201-226, with `bids` and `asks` the references to the levels stored
under `bidPrice` and `askPrice`. -/
def Orderbook.innerLoop : Nat → Memory → Orderbook → Price → Price → Trades →
    Run (Memory × Orderbook × Trades)
  | 0, _, _, _, _, _ => Run.outOfFuel
  | n + 1, h, b, bidPrice, askPrice, trades =>
    match levelRef b.bids_ bidPrice, levelRef b.asks_ askPrice with
    | bid :: bidsRest, ask :: asksRest =>
      let quantity := matchQuantity (h.cell bid) (h.cell ask)
      match (h.cell bid).Fill quantity with
      | none => Run.fault
      | some bidFilled =>
        let h1 := h.write bid bidFilled
        match (h1.cell ask).Fill quantity with
        | none => Run.fault
        | some askFilled =>
          let h2 := h1.write ask askFilled
          let b1 : Orderbook :=
            if (h2.cell bid).IsFilled then
              { b with bids_ := mapAssign b.bids_ bidPrice bidsRest,
                       orders_ := indexErase b.orders_ (h2.cell bid).GetOrderId }
            else b
          let b2 : Orderbook :=
            if (h2.cell ask).IsFilled then
              { b1 with asks_ := mapAssign b1.asks_ askPrice asksRest,
                        orders_ := indexErase b1.orders_ (h2.cell ask).GetOrderId }
            else b1
          let b3 : Orderbook :=
            if (levelRef b2.bids_ bidPrice).isEmpty then
              { b2 with bids_ := mapErase b2.bids_ bidPrice }
            else b2
          let b4 : Orderbook :=
            if (levelRef b3.asks_ askPrice).isEmpty then
              { b3 with asks_ := mapErase b3.asks_ askPrice }
            else b3
          Orderbook.innerLoop n h2 b4 bidPrice askPrice
            (trades ++
              [{ bidTrade_ := ⟨(h2.cell bid).GetOrderId, (h2.cell bid).GetPrice, quantity⟩,
                 askTrade_ := ⟨(h2.cell ask).GetOrderId, (h2.cell ask).GetPrice, quantity⟩ }])
    | _, _ => Run.done (h, b, trades)

/-- The loop of lines 193-228. -/
def Orderbook.outerLoop : Nat → Memory → Orderbook → Trades →
    Run (Memory × Orderbook × Trades)
  | 0, _, _, _ => Run.outOfFuel
  | n + 1, h, b, trades =>
    match b.bids_, b.asks_ with
    | (bidPrice, _) :: _, (askPrice, _) :: _ =>
      if bidPrice < askPrice then Run.done (h, b, trades)
      else
        match Orderbook.innerLoop (n + 1) h b bidPrice askPrice trades with
        | Run.done (h', b', trades') => Orderbook.outerLoop n h' b' trades'
        | Run.fault => Run.fault
        | Run.outOfFuel => Run.outOfFuel
    | _, _ => Run.done (h, b, trades)

/-- Lines 232-237 (for `bids_`) and 239-244 (for `asks_`): the front order of the best
level of `side` is cancelled when it is a `FillAndKill` order. -/
def Orderbook.cancelFrontFillAndKill (h : Memory) (b : Orderbook) (side : Side) :
    Run Orderbook :=
  match (if side = Side.Buy then b.bids_ else b.asks_) with
  | [] => Run.done b
  | (_, []) :: _ => Run.fault
  | (_, order :: _) :: _ =>
    if (h.cell order).GetOrderType = OrderType.FillAndKill then
      Orderbook.CancelOrder h b (h.cell order).GetOrderId
    else Run.done b

/-- The number of orders held in a ledger. -/
def ledgerSize (m : Ledger) : Nat := (m.map (fun l => l.2.length)).sum

/-- The number of orders held in the two ledgers. -/
def Orderbook.ledgerCount (b : Orderbook) : Nat := ledgerSize b.bids_ + ledgerSize b.asks_

/-- Lines 189-248.  The loop is run with `ledgerCount + 1` units of fuel. -/
def Orderbook.MatchOrders (h : Memory) (b : Orderbook) : Run (Memory × Orderbook × Trades) :=
  match Orderbook.outerLoop (b.ledgerCount + 1) h b [] with
  | Run.done (h', b', trades) =>
    match Orderbook.cancelFrontFillAndKill h' b' Side.Buy with
    | Run.done b1 =>
      match Orderbook.cancelFrontFillAndKill h' b1 Side.Sell with
      | Run.done b2 => Run.done (h', b2, trades)
      | Run.fault => Run.fault
      | Run.outOfFuel => Run.outOfFuel
    | Run.fault => Run.fault
    | Run.outOfFuel => Run.outOfFuel
  | Run.fault => Run.fault
  | Run.outOfFuel => Run.outOfFuel

/-- Lines 261-271: the order is appended to its level and entered in the index. -/
def Orderbook.insertOrder (h : Memory) (b : Orderbook) (order : OrderPointer) : Orderbook :=
  let o := h.cell order
  if o.GetSide = Side.Buy then
    let m := mapIndex greaterPrice b.bids_ o.GetPrice
    let orders := levelRef m o.GetPrice ++ [order]
    let iterator := stdNext orders orders.length
    { b with bids_ := mapAssign m o.GetPrice orders,
             orders_ := indexInsert b.orders_ o.GetOrderId ⟨order, iterator⟩ }
  else
    let m := mapIndex lessPrice b.asks_ o.GetPrice
    let orders := levelRef m o.GetPrice ++ [order]
    let iterator := stdNext orders orders.length
    { b with asks_ := mapAssign m o.GetPrice orders,
             orders_ := indexInsert b.orders_ o.GetOrderId ⟨order, iterator⟩ }

/-- Lines 252-275. -/
def Orderbook.AddOrder (h : Memory) (b : Orderbook) (order : OrderPointer) :
    Run (Memory × Orderbook × Trades) :=
  let o := h.cell order
  if indexContains b.orders_ o.GetOrderId then Run.done (h, b, [])
  else if o.GetOrderType = OrderType.FillAndKill ∧ b.CanMatch o.GetSide o.GetPrice = false then
    Run.done (h, b, [])
  else Orderbook.MatchOrders h (b.insertOrder h order)

/-- Lines 296-305. -/
def Orderbook.MatchOrder (h : Memory) (b : Orderbook) (order : OrderModify) :
    Run (Memory × Orderbook × Trades) :=
  if !indexContains b.orders_ order.GetOrderId then Run.done (h, b, [])
  else
    match indexAt b.orders_ order.GetOrderId with
    | none => Run.fault
    | some entry =>
      let existingOrder := h.cell entry.order_
      match Orderbook.CancelOrder h b existingOrder.GetOrderId with
      | Run.done b1 =>
        let (h1, p) := order.ToOrderPointer h existingOrder.GetOrderType
        Orderbook.AddOrder h1 b1 p
      | Run.fault => Run.fault
      | Run.outOfFuel => Run.outOfFuel

/-- Line 307. -/
def Orderbook.Size (b : Orderbook) : Nat := b.orders_.length

/-- Lines 315-322: `std::accumulate` from `(Quantity)0` with a `std::size_t` running sum;
each step's `std::size_t` result is stored back into the `Quantity` accumulator. -/
def CreateLevelInfos (h : Memory) (price : Price) (orders : OrderPointers) : LevelInfo :=
  { price_ := price,
    quantity_ := orders.foldl
      (fun runningSum order =>
        ((runningSum + (h.cell order).GetRemainingQuantity) % 2 ^ 64) % 2 ^ 32) 0 }

/-- Lines 309-331. -/
def Orderbook.GetOrderInfos (h : Memory) (b : Orderbook) : OrderbookLevelInfos :=
  { bids_ := b.bids_.map (fun l => CreateLevelInfos h l.1 l.2),
    asks_ := b.asks_.map (fun l => CreateLevelInfos h l.1 l.2) }

/-! ## Auxiliary definitions: invariants, relations and example states -/

def Memory.init : Memory :=
  { cell := fun _ => Order.new OrderType.GoodTillCancel 0 Side.Buy 0 0, next := 0 }

def ledgerKeys (m : Ledger) : List Price := m.map Prod.fst

def ledgerPtrs : Ledger → List OrderPointer
  | [] => []
  | (_, l) :: rest => l ++ ledgerPtrs rest

def Orderbook.ptrs (b : Orderbook) : List OrderPointer := ledgerPtrs b.bids_ ++ ledgerPtrs b.asks_

/-- The order `o` with its remaining quantity set to `r`. -/
def Order.withRemaining (o : Order) (r : Quantity) : Order := { o with remainingQuantity_ := r }

def popFront : Ledger → Ledger
  | (k, _ :: l) :: rest => if l.isEmpty then rest else (k, l) :: rest
  | m => m

def Orderbook.matchFront (h : Memory) (b : Orderbook) : Option (Memory × Orderbook × Trade) :=
  match b.bids_, b.asks_ with
  | (_, bid :: _) :: _, (_, ask :: _) :: _ =>
    let quantity := matchQuantity (h.cell bid) (h.cell ask)
    let h1 := h.write bid ((h.cell bid).withRemaining ((h.cell bid).remainingQuantity_ - quantity))
    let h2 := h1.write ask ((h.cell ask).withRemaining ((h.cell ask).remainingQuantity_ - quantity))
    let b1 : Orderbook :=
      if (h2.cell bid).IsFilled then
        { b with bids_ := popFront b.bids_,
                 orders_ := indexErase b.orders_ (h2.cell bid).GetOrderId }
      else b
    let b2 : Orderbook :=
      if (h2.cell ask).IsFilled then
        { b1 with asks_ := popFront b1.asks_,
                  orders_ := indexErase b1.orders_ (h2.cell ask).GetOrderId }
      else b1
    some (h2, b2,
      { bidTrade_ := ⟨(h2.cell bid).GetOrderId, (h2.cell bid).GetPrice, quantity⟩,
        askTrade_ := ⟨(h2.cell ask).GetOrderId, (h2.cell ask).GetPrice, quantity⟩ })
  | _, _ => none

/-- The best bid is strictly below the best ask, or one of the ledgers is empty. -/
def Orderbook.NotCrossed (b : Orderbook) : Prop :=
  match b.bids_, b.asks_ with
  | (bidPrice, _) :: _, (askPrice, _) :: _ => bidPrice < askPrice
  | _, _ => True

/-- The key `k` is the first key of the ledger or is no key of it. -/
def HeadOrAbsent (k : Price) (m : Ledger) : Prop :=
  (∃ l rest, m = (k, l) :: rest ∧ k ∉ ledgerKeys rest) ∨ k ∉ ledgerKeys m

/-- The orders of a ledger in priority order, each with the price of its level. -/
def ledgerTagged : Ledger → List (Price × OrderPointer)
  | [] => []
  | (k, l) :: rest => l.map (fun p => (k, p)) ++ ledgerTagged rest

def indexKeys (m : OrderIndex) : List OrderId := m.map Prod.fst

/-- The fields of an order that `Fill` never changes agree in the two memories. -/
def Static (h h2 : Memory) : Prop :=
  h2.next = h.next ∧
  ∀ p, (h2.cell p).orderType_ = (h.cell p).orderType_ ∧
    (h2.cell p).orderId_ = (h.cell p).orderId_ ∧
    (h2.cell p).side_ = (h.cell p).side_ ∧
    (h2.cell p).price_ = (h.cell p).price_ ∧
    (h2.cell p).initialQuantity_ = (h.cell p).initialQuantity_

/-- The structural invariant of the book. -/
structure Base (h : Memory) (b : Orderbook) : Prop where
  bidsSorted : (ledgerKeys b.bids_).Pairwise (fun x y => x > y)
  asksSorted : (ledgerKeys b.asks_).Pairwise (fun x y => x < y)
  bidsNonempty : ∀ l ∈ b.bids_, l.2 ≠ []
  asksNonempty : ∀ l ∈ b.asks_, l.2 ≠ []
  bidsOwn : ∀ x ∈ ledgerTagged b.bids_, (h.cell x.2).side_ = Side.Buy ∧ (h.cell x.2).price_ = x.1
  asksOwn : ∀ x ∈ ledgerTagged b.asks_, (h.cell x.2).side_ = Side.Sell ∧ (h.cell x.2).price_ = x.1
  handles : ∀ e ∈ b.orders_, e.2.location_ = Iterator.pastEnd
  indexed : ∀ p ∈ b.ptrs, indexContains b.orders_ (h.cell p).orderId_ = true
  idsNodup : (b.ptrs.map (fun p => (h.cell p).orderId_)).Nodup
  allocated : ∀ p ∈ b.ptrs, p < h.next
  keysNodup : (indexKeys b.orders_).Nodup
  live : ∀ e ∈ b.orders_, e.2.order_ ∈ b.ptrs ∧ (h.cell e.2.order_).orderId_ = e.1

/-- Repeated passes of the loop body, each from a crossed book, with the trades they
append. -/
inductive Steps : Memory → Orderbook → Trades → Memory → Orderbook → Trades → Prop
  | refl (h : Memory) (b : Orderbook) (tr : Trades) : Steps h b tr h b tr
  | step {h : Memory} {b : Orderbook} {tr : Trades} {h2 : Memory} {b2 : Orderbook} {t : Trade}
      {h' : Memory} {b' : Orderbook} {tr' : Trades} :
      ¬ b.NotCrossed → b.matchFront h = some (h2, b2, t) → Steps h2 b2 (tr ++ [t]) h' b' tr' →
      Steps h b tr h' b' tr'

/-- The ledger after `m[k].push_back(p)`. -/
def ledgerPush (before : Price → Price → Bool) : Ledger → Price → OrderPointer → Ledger
  | [], k, p => [(k, [p])]
  | (k', l) :: rest, k, p =>
    if k' = k then (k', l ++ [p]) :: rest
    else if before k k' then (k, [p]) :: (k', l) :: rest
    else (k', l) :: ledgerPush before rest k p

/-- The states that calls of `AddOrder`, `CancelOrder` and `MatchOrder` that end normally
reach from the empty book; the caller creates `Order` objects with `std::make_shared`. -/
inductive Reachable : Memory → Orderbook → Prop
  | empty (h : Memory) : Reachable h Orderbook.empty
  | make_shared {h : Memory} {b : Orderbook} (o : Order) :
      Reachable h b → Reachable (h.make_shared o).1 b
  | AddOrder {h : Memory} {b : Orderbook} {order : OrderPointer} {h' : Memory} {b' : Orderbook}
      {trades : Trades} :
      Reachable h b → order < h.next → Orderbook.AddOrder h b order = Run.done (h', b', trades) →
      Reachable h' b'
  | CancelOrder {h : Memory} {b : Orderbook} {orderId : OrderId} {b' : Orderbook} :
      Reachable h b → Orderbook.CancelOrder h b orderId = Run.done b' → Reachable h b'
  | MatchOrder {h : Memory} {b : Orderbook} {order : OrderModify} {h' : Memory} {b' : Orderbook}
      {trades : Trades} :
      Reachable h b → Orderbook.MatchOrder h b order = Run.done (h', b', trades) →
      Reachable h' b'

/-- The front order of the best level of `side`, if any, is not a `FillAndKill` order. -/
def Orderbook.FrontRests (h : Memory) (b : Orderbook) (side : Side) : Prop :=
  ∀ k p l rest, (if side = Side.Buy then b.bids_ else b.asks_) = (k, p :: l) :: rest →
    (h.cell p).orderType_ ≠ OrderType.FillAndKill

/-- `AddOrder` rejects the order (lines 254 and 257). -/
def Orderbook.Rejects (h : Memory) (b : Orderbook) (order : OrderPointer) : Prop :=
  indexContains b.orders_ (h.cell order).GetOrderId = true ∨
    ((h.cell order).GetOrderType = OrderType.FillAndKill ∧
      b.CanMatch (h.cell order).GetSide (h.cell order).GetPrice = false)

/-- Every `FillAndKill` order held in the ledgers is the front order of the best bid level
or of the best ask level. -/
def Orderbook.KillAtFront (h : Memory) (b : Orderbook) : Prop :=
  ∀ p ∈ b.ptrs, (h.cell p).orderType_ = OrderType.FillAndKill →
    (∃ k l rest, b.bids_ = (k, p :: l) :: rest) ∨ (∃ k l rest, b.asks_ = (k, p :: l) :: rest)

/-- No `FillAndKill` order is held in the ledgers. -/
def Orderbook.NoKill (h : Memory) (b : Orderbook) : Prop :=
  ∀ p ∈ b.ptrs, (h.cell p).orderType_ ≠ OrderType.FillAndKill

/-- Memory after `make_shared<Order>(GoodTillCancel, 1, Buy, 10, 5)`. -/
def exMemBuy : Memory :=
  (Memory.init.make_shared (Order.new OrderType.GoodTillCancel 1 Side.Buy 10 5)).1

/-- The book after `AddOrder` of that order to the empty book. -/
def exBookBuy : Orderbook :=
  { bids_ := [(10, [0])], asks_ := [], orders_ := [(1, ⟨0, Iterator.pastEnd⟩)] }

/-- Memory after a further `make_shared<Order>(GoodTillCancel, 2, Sell, 11, 3)`. -/
def exMemBuySell : Memory :=
  (exMemBuy.make_shared (Order.new OrderType.GoodTillCancel 2 Side.Sell 11 3)).1

/-- The book after `AddOrder` of the second order to `exBookBuy`. -/
def exBookBuySell : Orderbook :=
  { bids_ := [(10, [0])], asks_ := [(11, [1])],
    orders_ := [(1, ⟨0, Iterator.pastEnd⟩), (2, ⟨1, Iterator.pastEnd⟩)] }

/-- Memory after `make_shared<Order>(GoodTillCancel, 1, Sell, 10, 5)` and
`make_shared<Order>(FillAndKill, 2, Buy, 10, 10)`. -/
def exMemSellKill : Memory :=
  ((Memory.init.make_shared (Order.new OrderType.GoodTillCancel 1 Side.Sell 10 5)).1.make_shared
    (Order.new OrderType.FillAndKill 2 Side.Buy 10 10)).1

/-- Memory after `make_shared<Order>(FillAndKill, 3, Buy, 10, 10)`. -/
def exMemKill : Memory :=
  (Memory.init.make_shared (Order.new OrderType.FillAndKill 3 Side.Buy 10 10)).1

/-- Memory after `make_shared<Order>(GoodTillCancel, 1, Sell, 10, 5)` and
`make_shared<Order>(FillAndKill, 2, Buy, 10, 3)`. -/
def exMemSellKill3 : Memory :=
  ((Memory.init.make_shared (Order.new OrderType.GoodTillCancel 1 Side.Sell 10 5)).1.make_shared
    (Order.new OrderType.FillAndKill 2 Side.Buy 10 3)).1

/-- That memory after the two `Fill(3)` calls of the match. -/
def exMemSellKill3After : Memory :=
  (exMemSellKill3.write 1 ((Order.new OrderType.FillAndKill 2 Side.Buy 10 3).withRemaining 0)).write 0
    ((Order.new OrderType.GoodTillCancel 1 Side.Sell 10 5).withRemaining 2)

/-- The book `exBookBuy` with the handle of order 1 designating the order's own node. -/
def exBookBuyNode : Orderbook :=
  { bids_ := [(10, [0])], asks_ := [], orders_ := [(1, ⟨0, Iterator.node 0⟩)] }

/-- A book whose bid ledger holds an empty level at 10 and whose ask ledger holds one
order at 10. -/
def exBookEmptyLevel : Orderbook :=
  { bids_ := [(10, [])], asks_ := [(10, [0])], orders_ := [(1, ⟨0, Iterator.pastEnd⟩)] }

/-- The book in which the first of these two orders rests. -/
def exBookSell : Orderbook :=
  { bids_ := [], asks_ := [(10, [0])], orders_ := [(1, ⟨0, Iterator.pastEnd⟩)] }

/-- The result of a call, seen through `f`. -/
def Run.map {α β : Type} (f : α → β) : Run α → Run β
  | Run.done a => Run.done (f a)
  | Run.fault => Run.fault
  | Run.outOfFuel => Run.outOfFuel

/-- The spec's reading of a modification (4.5): `CancelOrder(orderId)` immediately followed
by `AddOrder` of a new order `(type, orderId, side, price, quantity)`. -/
def cancelThenAdd (h : Memory) (b : Orderbook) (type : OrderType) (orderId : OrderId)
    (side : Side) (price : Price) (quantity : Quantity) : Run (Memory × Orderbook × Trades) :=
  match Orderbook.CancelOrder h b orderId with
  | Run.done b1 =>
    Orderbook.AddOrder (h.make_shared (Order.new type orderId side price quantity)).1 b1
      (h.make_shared (Order.new type orderId side price quantity)).2
  | Run.fault => Run.fault
  | Run.outOfFuel => Run.outOfFuel

/-- The book after `AddOrder` of a `GoodTillCancel` Buy order `a` at `p` held at address
`ptr`. -/
def bookOneBid (a : OrderId) (p : Price) (ptr : OrderPointer) : Orderbook :=
  { bids_ := [(p, [ptr])], asks_ := [], orders_ := [(a, ⟨ptr, Iterator.pastEnd⟩)] }

/-- The quantity a trade executes for the order `orderId` on `side`. -/
def Trade.quantityFor (t : Trade) (side : Side) (orderId : OrderId) : Quantity :=
  match side with
  | Side.Buy => if t.bidTrade_.orderId_ = orderId then t.bidTrade_.quantity_ else 0
  | Side.Sell => if t.askTrade_.orderId_ = orderId then t.askTrade_.quantity_ else 0

/-- The sum of the quantities of the trades in which `orderId` appears on `side`. -/
def tradedQuantity (trades : Trades) (side : Side) (orderId : OrderId) : Quantity :=
  (trades.map (fun t => t.quantityFor side orderId)).sum

/-- The calls of `AddOrder` and `CancelOrder` that end normally, from the empty book and
an empty memory, in which no identity is accepted twice; with the trades returned so far and
the orders accepted so far. The caller creates orders with the constructor. -/
inductive Trace : Memory → Orderbook → Trades → List OrderPointer → Prop
  | empty : Trace Memory.init Orderbook.empty [] []
  | make_shared {h : Memory} {b : Orderbook} {T : Trades} {A : List OrderPointer}
      (type : OrderType) (orderId : OrderId) (side : Side) (price : Price) (quantity : Quantity) :
      Trace h b T A → quantity < 2 ^ 32 →
      Trace (h.make_shared (Order.new type orderId side price quantity)).1 b T A
  | rejected {h : Memory} {b : Orderbook} {T : Trades} {A : List OrderPointer}
      {order : OrderPointer} {h' : Memory} {b' : Orderbook} {trades : Trades} :
      Trace h b T A → order < h.next → b.Rejects h order →
      Orderbook.AddOrder h b order = Run.done (h', b', trades) → Trace h' b' (T ++ trades) A
  | accepted {h : Memory} {b : Orderbook} {T : Trades} {A : List OrderPointer}
      {order : OrderPointer} {h' : Memory} {b' : Orderbook} {trades : Trades} :
      Trace h b T A → order < h.next → ¬ b.Rejects h order →
      (h.cell order).orderId_ ∉ A.map (fun p => (h.cell p).orderId_) →
      Orderbook.AddOrder h b order = Run.done (h', b', trades) →
      Trace h' b' (T ++ trades) (order :: A)
  | CancelOrder {h : Memory} {b : Orderbook} {T : Trades} {A : List OrderPointer}
      {orderId : OrderId} {b' : Orderbook} :
      Trace h b T A → Orderbook.CancelOrder h b orderId = Run.done b' → Trace h b' T A

/-- The bookkeeping invariant behind the filled quantities. -/
structure Accounts (h : Memory) (b : Orderbook) (T : Trades) (A : List OrderPointer) : Prop where
  held : ∀ p ∈ b.ptrs, p ∈ A
  distinct : (A.map (fun p => (h.cell p).orderId_)).Nodup
  balance : ∀ o ∈ A, tradedQuantity T (h.cell o).side_ (h.cell o).orderId_ +
    (h.cell o).remainingQuantity_ = (h.cell o).initialQuantity_
  named : ∀ t ∈ T, t.bidTrade_.orderId_ ∈ A.map (fun p => (h.cell p).orderId_) ∧
    t.askTrade_.orderId_ ∈ A.map (fun p => (h.cell p).orderId_)
  untouched : ∀ p, p < h.next → p ∉ A → (h.cell p).remainingQuantity_ = (h.cell p).initialQuantity_
  bounded : ∀ p, p < h.next → (h.cell p).initialQuantity_ < 2 ^ 32
  allocated : ∀ o ∈ A, o < h.next

/-- The ledger of a side. -/
def Orderbook.ledger (b : Orderbook) (side : Side) : Ledger :=
  match side with
  | Side.Buy => b.bids_
  | Side.Sell => b.asks_

/-- Memory with the orders of scenario 3 of the spec: Buy 1 and Buy 4 at 10 for 5 each, and
Sell 5 at 10 for 5. -/
def exMemTwoBids : Memory :=
  (((Memory.init.make_shared (Order.new OrderType.GoodTillCancel 1 Side.Buy 10 5)).1.make_shared
    (Order.new OrderType.GoodTillCancel 4 Side.Buy 10 5)).1.make_shared
    (Order.new OrderType.GoodTillCancel 5 Side.Sell 10 5)).1

/-- The book with Buy 1 and Buy 4 resting at 10, admitted in that order. -/
def exBookTwoBids : Orderbook :=
  { bids_ := [(10, [0, 1])], asks_ := [],
    orders_ := [(1, ⟨0, Iterator.pastEnd⟩), (4, ⟨1, Iterator.pastEnd⟩)] }

/-- The memory of scenario 3 after the trade of Sell 5 with Buy 1. -/
def exMemTwoBidsAfter : Memory :=
  (exMemTwoBids.write 0 ((Order.new OrderType.GoodTillCancel 1 Side.Buy 10 5).withRemaining 0)).write 2
    ((Order.new OrderType.GoodTillCancel 5 Side.Sell 10 5).withRemaining 0)

/-- The book of scenario 3 after that trade. -/
def exBookTwoBidsAfter : Orderbook :=
  { bids_ := [(10, [1])], asks_ := [], orders_ := [(4, ⟨1, Iterator.pastEnd⟩)] }

/-- A caller's sequence of `Fill` calls on one order, with the sum of the quantities of the
calls that did not throw; a call that throws leaves the order as it was (lines 84-86). -/
def Order.fills : Order → List Quantity → Order × Nat
  | o, [] => (o, 0)
  | o, q :: qs =>
    match o.Fill q with
    | none => Order.fills o qs
    | some o' => ((Order.fills o' qs).1, q + (Order.fills o' qs).2)

/-- The arithmetic sum of the remaining quantities of the orders of a level. -/
def levelSum (h : Memory) (orders : OrderPointers) : Nat :=
  (orders.map (fun p => (h.cell p).GetRemainingQuantity)).sum

/-- Memory after `make_shared<Order>(GoodTillCancel, 1, Buy, 10, 2147483648)` and
`make_shared<Order>(GoodTillCancel, 2, Buy, 10, 2147483648)`. -/
def exMemLarge : Memory :=
  ((Memory.init.make_shared (Order.new OrderType.GoodTillCancel 1 Side.Buy 10 2147483648)).1.make_shared
    (Order.new OrderType.GoodTillCancel 2 Side.Buy 10 2147483648)).1

/-- The book after `AddOrder` of these two orders to the empty book. -/
def exBookLarge : Orderbook :=
  { bids_ := [(10, [0, 1])], asks_ := [],
    orders_ := [(1, ⟨0, Iterator.pastEnd⟩), (2, ⟨1, Iterator.pastEnd⟩)] }

/-- Memory with Buy 1 at -5 for 5, Buy 2 at -3 for 2 and Sell 3 at -1 for 4. -/
def exMemNegative : Memory :=
  (((Memory.init.make_shared (Order.new OrderType.GoodTillCancel 1 Side.Buy (-5) 5)).1.make_shared
    (Order.new OrderType.GoodTillCancel 2 Side.Buy (-3) 2)).1.make_shared
    (Order.new OrderType.GoodTillCancel 3 Side.Sell (-1) 4)).1

/-- The book after `AddOrder` of these three orders to the empty book. -/
def exBookNegative : Orderbook :=
  { bids_ := [(-3, [1]), (-5, [0])], asks_ := [(-1, [2])],
    orders_ := [(1, ⟨0, Iterator.pastEnd⟩), (2, ⟨1, Iterator.pastEnd⟩), (3, ⟨2, Iterator.pastEnd⟩)] }

/-- A crossed book, not reachable through the interface, whose handles designate the
orders' own nodes: Sell 1 and Buy 2 both at 10 (the orders of `exMemSellKill`). -/
def exBookCrossedNode : Orderbook :=
  { bids_ := [(10, [1])], asks_ := [(10, [0])],
    orders_ := [(1, ⟨0, Iterator.node 0⟩), (2, ⟨1, Iterator.node 1⟩)] }

/-- Memory after `make_shared<Order>(GoodTillCancel, 1, Buy, 10, 0)` and
`make_shared<Order>(GoodTillCancel, 2, Buy, 9, 5)`. -/
def exMemZero : Memory :=
  ((Memory.init.make_shared (Order.new OrderType.GoodTillCancel 1 Side.Buy 10 0)).1.make_shared
    (Order.new OrderType.GoodTillCancel 2 Side.Buy 9 5)).1

/-- The book after `AddOrder` of the first of these orders to the empty book. -/
def exBookZero : Orderbook :=
  { bids_ := [(10, [0])], asks_ := [], orders_ := [(1, ⟨0, Iterator.pastEnd⟩)] }

/-- The book after `AddOrder` of the second order to `exBookZero`. -/
def exBookZeroNext : Orderbook :=
  { bids_ := [(10, [0]), (9, [1])], asks_ := [],
    orders_ := [(1, ⟨0, Iterator.pastEnd⟩), (2, ⟨1, Iterator.pastEnd⟩)] }

theorem mapAt_eq_none {m : Ledger} {k : Price} (hk : k ∉ ledgerKeys m) : mapAt m k = none := by
  induction m with
  | nil => rfl
  | cons x rest ih =>
    obtain ⟨k', l⟩ := x
    simp [ledgerKeys] at hk
    simp only [mapAt]
    rw [if_neg (fun h => hk.1 h.symm)]
    exact ih (by simpa [ledgerKeys] using hk.2)

theorem levelRef_absent {m : Ledger} {k : Price} (hk : k ∉ ledgerKeys m) : levelRef m k = [] := by
  simp [levelRef, mapAt_eq_none hk]

theorem levelRef_head (k : Price) (l : OrderPointers) (rest : Ledger) :
    levelRef ((k, l) :: rest) k = l := by
  simp [levelRef, mapAt]

theorem mapAssign_head (k : Price) (l l' : OrderPointers) (rest : Ledger) :
    mapAssign ((k, l) :: rest) k l' = (k, l') :: rest := by
  simp [mapAssign]

theorem mapErase_head (k : Price) (l : OrderPointers) (rest : Ledger) :
    mapErase ((k, l) :: rest) k = rest := by
  simp [mapErase]

theorem ledgerPtrs_eq_map (m : Ledger) : ledgerPtrs m = (ledgerTagged m).map Prod.snd := by
  induction m with
  | nil => rfl
  | cons x rest ih =>
    obtain ⟨k, l⟩ := x
    simp [ledgerPtrs, ledgerTagged, ih, Function.comp_def]

theorem Static.refl (h : Memory) : Static h h := ⟨rfl, fun _ => ⟨rfl, rfl, rfl, rfl, rfl⟩⟩

theorem Static.trans {h1 h2 h3 : Memory} (a : Static h1 h2) (c : Static h2 h3) : Static h1 h3 := by
  refine ⟨c.1.trans a.1, fun p => ?_⟩
  obtain ⟨a1, a2, a3, a4, a5⟩ := a.2 p
  obtain ⟨c1, c2, c3, c4, c5⟩ := c.2 p
  exact ⟨c1.trans a1, c2.trans a2, c3.trans a3, c4.trans a4, c5.trans a5⟩

theorem Static.of_write (h : Memory) (p : OrderPointer) (r : Quantity) :
    Static h (h.write p ((h.cell p).withRemaining r)) := by
  refine ⟨rfl, fun q => ?_⟩
  by_cases hq : q = p
  · subst hq; simp [Memory.write, Order.withRemaining]
  · simp [Memory.write, hq]

theorem Static.write_of {h0 h : Memory} (s : Static h0 h) (p : OrderPointer) (o : Order) (r : Quantity)
    (ho : o = h0.cell p ∨ o = h.cell p) :
    Static h0 (h.write p (o.withRemaining r)) := by
  refine ⟨s.1, fun q => ?_⟩
  by_cases hq : q = p
  · subst hq
    rcases ho with ho | ho
    · subst ho; simp [Memory.write, Order.withRemaining]
    · subst ho; simpa [Memory.write, Order.withRemaining] using s.2 q
  · simpa [Memory.write, hq] using s.2 q

theorem Base.of_static {h h2 : Memory} {b : Orderbook} (s : Static h h2) (v : Base h b) :
    Base h2 b where
  bidsSorted := v.bidsSorted
  asksSorted := v.asksSorted
  bidsNonempty := v.bidsNonempty
  asksNonempty := v.asksNonempty
  bidsOwn := fun x hx => by
    obtain ⟨_, _, s3, s4, _⟩ := s.2 x.2
    rw [s3, s4]; exact v.bidsOwn x hx
  asksOwn := fun x hx => by
    obtain ⟨_, _, s3, s4, _⟩ := s.2 x.2
    rw [s3, s4]; exact v.asksOwn x hx
  handles := v.handles
  indexed := fun p hp => by
    rw [(s.2 p).2.1]; exact v.indexed p hp
  idsNodup := by
    have : (fun p => (h2.cell p).orderId_) = (fun p => (h.cell p).orderId_) := by
      funext p; exact (s.2 p).2.1
    rw [this]; exact v.idsNodup
  allocated := fun p hp => by rw [s.1]; exact v.allocated p hp
  keysNodup := v.keysNodup
  live := fun e he => by
    rw [(s.2 e.2.order_).2.1]; exact v.live e he

theorem indexContains_iff (m : OrderIndex) (k : OrderId) :
    indexContains m k = true ↔ k ∈ indexKeys m := by
  simp [indexContains, indexKeys]

theorem mem_indexErase {m : OrderIndex} {k : OrderId} {x : OrderId × OrderEntry}
    (hx : x ∈ indexErase m k) : x ∈ m := by
  induction m with
  | nil => simp [indexErase] at hx
  | cons y rest ih =>
    obtain ⟨k', e⟩ := y
    simp only [indexErase] at hx
    split at hx
    · exact List.mem_cons_of_mem _ hx
    · rcases List.mem_cons.mp hx with h1 | h1
      · exact h1 ▸ List.mem_cons_self _ _
      · exact List.mem_cons_of_mem _ (ih h1)

theorem indexKeys_indexErase_sublist (m : OrderIndex) (k : OrderId) :
    (indexKeys (indexErase m k)).Sublist (indexKeys m) := by
  induction m with
  | nil => simp [indexErase]
  | cons y rest ih =>
    obtain ⟨k', e⟩ := y
    simp only [indexErase]
    split
    · simp [indexKeys]
    · simpa [indexKeys] using ih

theorem mem_indexKeys_indexErase {m : OrderIndex} {k k' : OrderId} (hne : k' ≠ k) :
    k' ∈ indexKeys (indexErase m k) ↔ k' ∈ indexKeys m := by
  induction m with
  | nil => simp [indexErase]
  | cons y rest ih =>
    obtain ⟨k2, e⟩ := y
    simp only [indexErase]
    split
    · rename_i h; subst h
      simp [indexKeys, hne]
    · simp only [indexKeys, List.map_cons, List.mem_cons] at ih ⊢
      rw [ih]

theorem not_mem_indexKeys_indexErase {m : OrderIndex} {k : OrderId}
    (hn : (indexKeys m).Nodup) : k ∉ indexKeys (indexErase m k) := by
  induction m with
  | nil => simp [indexErase, indexKeys]
  | cons y rest ih =>
    obtain ⟨k2, e⟩ := y
    simp only [indexKeys, List.map_cons, List.nodup_cons] at hn
    simp only [indexErase]
    split
    · rename_i h; subst h; exact hn.1
    · rename_i h
      simp only [indexKeys, List.map_cons, List.mem_cons, not_or]
      exact ⟨fun h' => h h'.symm, ih hn.2⟩

theorem ledgerTagged_popFront (k : Price) (p : OrderPointer) (l : OrderPointers) (rest : Ledger) :
    ledgerTagged (popFront ((k, p :: l) :: rest)) = l.map (fun q => (k, q)) ++ ledgerTagged rest := by
  cases l <;> simp [popFront, ledgerTagged]

theorem ledgerKeys_popFront_sublist (m : Ledger) : (ledgerKeys (popFront m)).Sublist (ledgerKeys m) := by
  match m with
  | [] => simp [popFront]
  | (k, []) :: rest => simp [popFront]
  | (k, p :: l) :: rest =>
    cases l <;> simp [popFront, ledgerKeys]

theorem mem_popFront {m : Ledger} {x : Level} (hx : x ∈ popFront m)
    (hne : ∀ l ∈ m, l.2 ≠ []) : x.2 ≠ [] := by
  match m, hx, hne with
  | [], hx, _ => simp [popFront] at hx
  | (k, []) :: rest, hx, hne => exact absurd rfl (hne (k, []) (List.mem_cons_self _ _))
  | (k, p :: l) :: rest, hx, hne =>
    cases l with
    | nil =>
      simp [popFront] at hx
      exact hne x (List.mem_cons_of_mem _ hx)
    | cons q l =>
      simp [popFront] at hx
      rcases hx with h1 | h1
      · subst h1; simp
      · exact hne x (List.mem_cons_of_mem _ h1)

theorem Base.remove {h : Memory} {b : Orderbook} (v : Base h b) (b' : Orderbook) (p : OrderPointer)
    (hk1 : (ledgerKeys b'.bids_).Sublist (ledgerKeys b.bids_))
    (hk2 : (ledgerKeys b'.asks_).Sublist (ledgerKeys b.asks_))
    (hn1 : ∀ l ∈ b'.bids_, l.2 ≠ []) (hn2 : ∀ l ∈ b'.asks_, l.2 ≠ [])
    (ht1 : ∀ x ∈ ledgerTagged b'.bids_, x ∈ ledgerTagged b.bids_)
    (ht2 : ∀ x ∈ ledgerTagged b'.asks_, x ∈ ledgerTagged b.asks_)
    (hp : b.ptrs.Perm (p :: b'.ptrs))
    (ho : b'.orders_ = indexErase b.orders_ (h.cell p).orderId_) : Base h b' := by
  have hnd : ((p :: b'.ptrs).map (fun q => (h.cell q).orderId_)).Nodup :=
    (List.Perm.nodup_iff (hp.map _)).mp v.idsNodup
  have hsub : ∀ q ∈ b'.ptrs, q ∈ b.ptrs := fun q hq =>
    hp.symm.subset (List.mem_cons_of_mem _ hq)
  have hid : ∀ q ∈ b'.ptrs, (h.cell q).orderId_ ≠ (h.cell p).orderId_ := by
    intro q hq heq
    simp only [List.map_cons, List.nodup_cons, List.mem_map, not_exists, not_and] at hnd
    exact hnd.1 q hq heq
  refine ⟨v.bidsSorted.sublist hk1, v.asksSorted.sublist hk2, hn1, hn2,
    fun x hx => v.bidsOwn x (ht1 x hx), fun x hx => v.asksOwn x (ht2 x hx), ?_, ?_, ?_, ?_, ?_, ?_⟩
  · intro e he
    rw [ho] at he
    exact v.handles e (mem_indexErase he)
  · intro q hq
    rw [ho, indexContains_iff, mem_indexKeys_indexErase (hid q hq), ← indexContains_iff]
    exact v.indexed q (hsub q hq)
  · simp only [List.map_cons, List.nodup_cons] at hnd
    exact hnd.2
  · exact fun q hq => v.allocated q (hsub q hq)
  · rw [ho]
    exact v.keysNodup.sublist (indexKeys_indexErase_sublist _ _)
  · intro e he
    rw [ho] at he
    have he' := mem_indexErase he
    obtain ⟨l1, l2⟩ := v.live e he'
    refine ⟨?_, l2⟩
    rcases List.mem_cons.mp (hp.subset l1) with h1 | h1
    · exfalso
      have hk : e.1 ∈ indexKeys (indexErase b.orders_ (h.cell p).orderId_) :=
        List.mem_map_of_mem Prod.fst he
      rw [← l2, h1] at hk
      exact not_mem_indexKeys_indexErase v.keysNodup hk
    · exact h1

theorem Base.popBid {h : Memory} {b : Orderbook} (v : Base h b) {bp : Price} {bid : OrderPointer}
    {bl : OrderPointers} {brest : Ledger} (hb : b.bids_ = (bp, bid :: bl) :: brest) :
    Base h { b with bids_ := popFront b.bids_,
                    orders_ := indexErase b.orders_ (h.cell bid).orderId_ } := by
  apply v.remove _ bid
  · exact ledgerKeys_popFront_sublist _
  · exact List.Sublist.refl _
  · exact fun l hl => mem_popFront hl v.bidsNonempty
  · exact v.asksNonempty
  · intro x hx
    simp only [hb, ledgerTagged_popFront] at hx
    rw [hb]
    simp only [ledgerTagged, List.map_cons, List.cons_append, List.mem_cons]
    exact Or.inr hx
  · exact fun x hx => hx
  · simp only [Orderbook.ptrs, hb, ledgerPtrs_eq_map, ledgerTagged_popFront]
    simp [ledgerTagged]
  · rfl

theorem Base.popAsk {h : Memory} {b : Orderbook} (v : Base h b) {ap : Price} {ask : OrderPointer}
    {al : OrderPointers} {arest : Ledger} (ha : b.asks_ = (ap, ask :: al) :: arest) :
    Base h { b with asks_ := popFront b.asks_,
                    orders_ := indexErase b.orders_ (h.cell ask).orderId_ } := by
  apply v.remove _ ask
  · exact List.Sublist.refl _
  · exact ledgerKeys_popFront_sublist _
  · exact v.bidsNonempty
  · exact fun l hl => mem_popFront hl v.asksNonempty
  · exact fun x hx => hx
  · intro x hx
    simp only [ha, ledgerTagged_popFront] at hx
    rw [ha]
    simp only [ledgerTagged, List.map_cons, List.cons_append, List.mem_cons]
    exact Or.inr hx
  · simp only [Orderbook.ptrs, ha, ledgerPtrs_eq_map, ledgerTagged_popFront]
    simp only [ledgerTagged, List.map_cons, List.cons_append, List.map_append, List.map_map]
    exact List.perm_middle
  · rfl

/-- What one pass of the loop body does, read off `matchFront`. -/
theorem matchFront_eq {h : Memory} {b : Orderbook} {h2 : Memory} {b2 : Orderbook} {t : Trade}
    (hm : b.matchFront h = some (h2, b2, t)) :
    ∃ bp bid bl brest ap ask al arest,
      b.bids_ = (bp, bid :: bl) :: brest ∧ b.asks_ = (ap, ask :: al) :: arest ∧
      h2 = (h.write bid ((h.cell bid).withRemaining
              ((h.cell bid).remainingQuantity_ - matchQuantity (h.cell bid) (h.cell ask)))).write ask
            ((h.cell ask).withRemaining
              ((h.cell ask).remainingQuantity_ - matchQuantity (h.cell bid) (h.cell ask))) ∧
      b2 = (let b1 : Orderbook :=
              if (h2.cell bid).IsFilled then
                { b with bids_ := popFront b.bids_,
                         orders_ := indexErase b.orders_ (h2.cell bid).GetOrderId }
              else b
            if (h2.cell ask).IsFilled then
              { b1 with asks_ := popFront b1.asks_,
                        orders_ := indexErase b1.orders_ (h2.cell ask).GetOrderId }
            else b1) ∧
      t = { bidTrade_ := ⟨(h2.cell bid).GetOrderId, (h2.cell bid).GetPrice,
              matchQuantity (h.cell bid) (h.cell ask)⟩,
            askTrade_ := ⟨(h2.cell ask).GetOrderId, (h2.cell ask).GetPrice,
              matchQuantity (h.cell bid) (h.cell ask)⟩ } := by
  unfold Orderbook.matchFront at hm
  split at hm
  · rename_i bp bid bl brest ap ask al arest hb ha
    simp only [Option.some.injEq, Prod.mk.injEq] at hm
    obtain ⟨e1, e2, e3⟩ := hm
    exact ⟨bp, bid, bl, brest, ap, ask, al, arest, hb, ha, e1.symm, by rw [← e2, ← e1], by rw [← e3, ← e1]⟩
  · simp at hm

theorem matchFront_static {h : Memory} {b : Orderbook} {h2 : Memory} {b2 : Orderbook} {t : Trade}
    (hm : b.matchFront h = some (h2, b2, t)) : Static h h2 := by
  obtain ⟨bp, bid, bl, brest, ap, ask, al, arest, hb, ha, e1, -, -⟩ := matchFront_eq hm
  rw [e1]
  exact Static.write_of (Static.of_write h bid _) ask _ _ (Or.inl rfl)

theorem Base.of_matchFront {h : Memory} {b : Orderbook} (v : Base h b) {h2 : Memory} {b2 : Orderbook}
    {t : Trade} (hm : b.matchFront h = some (h2, b2, t)) : Base h2 b2 := by
  have hs := matchFront_static hm
  have v2 := v.of_static hs
  obtain ⟨bp, bid, bl, brest, ap, ask, al, arest, hb, ha, -, e2, -⟩ := matchFront_eq hm
  rw [e2]
  simp only [Order.GetOrderId]
  by_cases c1 : (h2.cell bid).IsFilled = true <;> by_cases c2 : (h2.cell ask).IsFilled = true
  · simp only [c1, c2, if_true]
    exact (v2.popBid hb).popAsk ha
  · simp only [c1, c2, if_true, if_false]
    exact v2.popBid hb
  · simp only [c1, c2, if_true, if_false]
    exact v2.popAsk ha
  · simp only [c1, c2, if_false]
    exact v2

theorem Steps.append {h1 h2 h3 : Memory} {b1 b2 b3 : Orderbook} {t1 t2 t3 : Trades}
    (a : Steps h1 b1 t1 h2 b2 t2) (c : Steps h2 b2 t2 h3 b3 t3) : Steps h1 b1 t1 h3 b3 t3 := by
  induction a with
  | refl => exact c
  | step hx hm _ ih => exact Steps.step hx hm (ih c)

theorem Fill_min_left (o o' : Order) :
    o.Fill (matchQuantity o o') =
      some (o.withRemaining (o.remainingQuantity_ - matchQuantity o o')) := by
  unfold Order.Fill matchQuantity Order.GetRemainingQuantity
  rw [if_neg]
  · rfl
  · exact Nat.not_lt.mpr (Nat.min_le_left _ _)

theorem Fill_min_right (o o' : Order) :
    o'.Fill (matchQuantity o o') =
      some (o'.withRemaining (o'.remainingQuantity_ - matchQuantity o o')) := by
  unfold Order.Fill matchQuantity Order.GetRemainingQuantity
  rw [if_neg]
  · rfl
  · exact Nat.not_lt.mpr (Nat.min_le_right _ _)

theorem write_cell_same (h : Memory) (p : OrderPointer) (o : Order) : (h.write p o).cell p = o := by
  simp [Memory.write]

theorem write_cell_other (h : Memory) {p q : OrderPointer} (o : Order) (hq : q ≠ p) :
    (h.write p o).cell q = h.cell q := by
  simp [Memory.write, hq]

theorem innerLoop_front (n : Nat) (h : Memory) (b : Orderbook) (bp ap : Price)
    (bid ask : OrderPointer) (bl al : OrderPointers) (brest arest : Ledger) (tr : Trades)
    (hb : b.bids_ = (bp, bid :: bl) :: brest) (ha : b.asks_ = (ap, ask :: al) :: arest)
    (hne : bid ≠ ask) :
    Orderbook.innerLoop (n + 1) h b bp ap tr =
      match b.matchFront h with
      | some (h2, b2, t) => Orderbook.innerLoop n h2 b2 bp ap (tr ++ [t])
      | none => Run.done (h, b, tr) := by
  obtain ⟨bids, asks, orders⟩ := b
  simp only at hb ha
  subst hb ha
  simp only [Orderbook.innerLoop, Orderbook.matchFront, levelRef_head, Fill_min_left,
    write_cell_other _ _ (Ne.symm hne), Fill_min_right, mapAssign_head, popFront]
  by_cases h1 : ((((h.write bid ((h.cell bid).withRemaining
      ((h.cell bid).remainingQuantity_ - matchQuantity (h.cell bid) (h.cell ask)))).write ask
      ((h.cell ask).withRemaining
      ((h.cell ask).remainingQuantity_ - matchQuantity (h.cell bid) (h.cell ask)))).cell bid).IsFilled) = true <;>
  by_cases h2 : ((((h.write bid ((h.cell bid).withRemaining
      ((h.cell bid).remainingQuantity_ - matchQuantity (h.cell bid) (h.cell ask)))).write ask
      ((h.cell ask).withRemaining
      ((h.cell ask).remainingQuantity_ - matchQuantity (h.cell bid) (h.cell ask)))).cell ask).IsFilled) = true <;>
  cases bl <;> cases al <;>
  simp [h1, h2, levelRef_head, mapAssign_head, mapErase_head]

theorem innerLoop_absent_bid (n : Nat) (h : Memory) (b : Orderbook) (bp ap : Price) (tr : Trades)
    (hb : bp ∉ ledgerKeys b.bids_) :
    Orderbook.innerLoop (n + 1) h b bp ap tr = Run.done (h, b, tr) := by
  simp [Orderbook.innerLoop, levelRef_absent hb]

theorem innerLoop_absent_ask (n : Nat) (h : Memory) (b : Orderbook) (bp ap : Price) (tr : Trades)
    (ha : ap ∉ ledgerKeys b.asks_) :
    Orderbook.innerLoop (n + 1) h b bp ap tr = Run.done (h, b, tr) := by
  simp only [Orderbook.innerLoop, levelRef_absent ha]
  cases levelRef b.bids_ bp <;> rfl

theorem ledgerCount_popFront (k : Price) (p : OrderPointer) (l : OrderPointers) (rest : Ledger) :
    ledgerSize (popFront ((k, p :: l) :: rest)) + 1 = ledgerSize ((k, p :: l) :: rest) := by
  cases l with
  | nil => simp [popFront, ledgerSize]; omega
  | cons q l => simp [popFront, ledgerSize]; omega

theorem HeadOrAbsent.of_popFront {k : Price} {m : Ledger} (hm : HeadOrAbsent k m) :
    HeadOrAbsent k (popFront m) := by
  rcases hm with ⟨l, rest, rfl, hk⟩ | hk
  · match l with
    | [] => exact Or.inl ⟨[], rest, rfl, hk⟩
    | p :: l =>
      cases l with
      | nil => exact Or.inr (by simpa [OrderbookCpp.popFront] using hk)
      | cons q l => exact Or.inl ⟨q :: l, rest, by simp [OrderbookCpp.popFront], hk⟩
  · exact Or.inr (fun hc => hk ((ledgerKeys_popFront_sublist m).subset hc))

theorem HeadOrAbsent.of_sorted_gt {k : Price} {l : OrderPointers} {rest : Ledger}
    (hs : (ledgerKeys ((k, l) :: rest)).Pairwise (fun x y => x > y)) :
    HeadOrAbsent k ((k, l) :: rest) := by
  refine Or.inl ⟨l, rest, rfl, fun hc => ?_⟩
  simp only [ledgerKeys, List.map_cons, List.pairwise_cons] at hs
  exact lt_irrefl _ (hs.1 k hc)

theorem HeadOrAbsent.of_sorted_lt {k : Price} {l : OrderPointers} {rest : Ledger}
    (hs : (ledgerKeys ((k, l) :: rest)).Pairwise (fun x y => x < y)) :
    HeadOrAbsent k ((k, l) :: rest) := by
  refine Or.inl ⟨l, rest, rfl, fun hc => ?_⟩
  simp only [ledgerKeys, List.map_cons, List.pairwise_cons] at hs
  exact lt_irrefl _ (hs.1 k hc)

/-- The ledgers after one pass: each is unchanged or has lost its front order. -/
theorem matchFront_ledgers {h : Memory} {b : Orderbook} {h2 : Memory} {b2 : Orderbook} {t : Trade}
    (hm : b.matchFront h = some (h2, b2, t)) :
    (b2.bids_ = b.bids_ ∨ b2.bids_ = popFront b.bids_) ∧
    (b2.asks_ = b.asks_ ∨ b2.asks_ = popFront b.asks_) := by
  obtain ⟨bp, bid, bl, brest, ap, ask, al, arest, hb, ha, -, e2, -⟩ := matchFront_eq hm
  rw [e2]
  by_cases c1 : (h2.cell bid).IsFilled = true <;> by_cases c2 : (h2.cell ask).IsFilled = true <;>
    simp [c1, c2]

theorem matchFront_count {h : Memory} {b : Orderbook} (v : Base h b) {h2 : Memory} {b2 : Orderbook}
    {t : Trade} (hm : b.matchFront h = some (h2, b2, t)) : b2.ledgerCount < b.ledgerCount := by
  obtain ⟨bp, bid, bl, brest, ap, ask, al, arest, hb, ha, e1, e2, -⟩ := matchFront_eq hm
  have hne : bid ≠ ask := by
    intro heq
    have s1 := (v.bidsOwn (bp, bid) (by simp [hb, ledgerTagged])).1
    have s2 := (v.asksOwn (ap, ask) (by simp [ha, ledgerTagged])).1
    rw [heq] at s1
    simp only at s1 s2
    rw [s1] at s2
    cases s2
  have cb := ledgerCount_popFront bp bid bl brest
  have ca := ledgerCount_popFront ap ask al arest
  have hbid : (h2.cell bid).remainingQuantity_ =
      (h.cell bid).remainingQuantity_ - matchQuantity (h.cell bid) (h.cell ask) := by
    rw [e1, write_cell_other _ _ hne, write_cell_same]; rfl
  have hask : (h2.cell ask).remainingQuantity_ =
      (h.cell ask).remainingQuantity_ - matchQuantity (h.cell bid) (h.cell ask) := by
    rw [e1, write_cell_same]; rfl
  have hor : (h2.cell bid).IsFilled = true ∨ (h2.cell ask).IsFilled = true := by
    simp only [Order.IsFilled, Order.GetRemainingQuantity, hbid, hask, matchQuantity, beq_iff_eq]
    rcases Nat.le_total (h.cell bid).remainingQuantity_ (h.cell ask).remainingQuantity_ with c | c
    · left; rw [Nat.min_eq_left c]; exact Nat.sub_self _
    · right; rw [Nat.min_eq_right c]; exact Nat.sub_self _
  rw [e2]
  by_cases c1 : (h2.cell bid).IsFilled = true <;> by_cases c2 : (h2.cell ask).IsFilled = true
  · simp only [c1, c2, if_true, Orderbook.ledgerCount, hb, ha]
    linarith
  · simp only [c1, c2, if_true, if_false, Bool.false_eq_true, Orderbook.ledgerCount, hb, ha]
    linarith
  · simp only [c1, c2, if_true, if_false, Bool.false_eq_true, Orderbook.ledgerCount, hb, ha]
    linarith
  · rcases hor with h' | h'
    · exact absurd h' c1
    · exact absurd h' c2

theorem Base.of_steps {h : Memory} {b : Orderbook} {tr : Trades} {h' : Memory} {b' : Orderbook}
    {tr' : Trades} (s : Steps h b tr h' b' tr') (v : Base h b) :
    Base h' b' ∧ b'.ledgerCount ≤ b.ledgerCount ∧ Static h h' := by
  induction s with
  | refl => exact ⟨v, Nat.le_refl _, Static.refl _⟩
  | step _ hm _ ih =>
    obtain ⟨v', c, s'⟩ := ih (v.of_matchFront hm)
    exact ⟨v', Nat.le_trans c (Nat.le_of_lt (matchFront_count v hm)),
      Static.trans (matchFront_static hm) s'⟩

theorem Base.front_ne {h : Memory} {b : Orderbook} (v : Base h b) {bp ap : Price}
    {bid ask : OrderPointer} {bl al : OrderPointers} {brest arest : Ledger}
    (hb : b.bids_ = (bp, bid :: bl) :: brest) (ha : b.asks_ = (ap, ask :: al) :: arest) :
    bid ≠ ask := by
  intro heq
  have s1 := (v.bidsOwn (bp, bid) (by simp [hb, ledgerTagged])).1
  have s2 := (v.asksOwn (ap, ask) (by simp [ha, ledgerTagged])).1
  rw [heq] at s1
  simp only at s1 s2
  rw [s1] at s2
  cases s2

theorem innerLoop_total (bp ap : Price) :
    ∀ (n : Nat) (h : Memory) (b : Orderbook) (tr : Trades), Base h b →
      HeadOrAbsent bp b.bids_ → HeadOrAbsent ap b.asks_ → ¬ bp < ap → b.ledgerCount < n →
      ∃ h' b' tr', Orderbook.innerLoop n h b bp ap tr = Run.done (h', b', tr') ∧
        Steps h b tr h' b' tr' ∧
        ((bp ∈ ledgerKeys b.bids_ ∧ ap ∈ ledgerKeys b.asks_) → b'.ledgerCount < b.ledgerCount) := by
  intro n
  induction n with
  | zero => intro h b tr _ _ _ _ hc; exact absurd hc (Nat.not_lt_zero _)
  | succ n ih =>
    intro h b tr v hob hoa hx hc
    rcases hob with ⟨l, brest, hb, hbn⟩ | hb
    · rcases hoa with ⟨l', arest, ha, han⟩ | ha
      · cases l with
        | nil => exact absurd rfl (v.bidsNonempty (bp, []) (by simp [hb]))
        | cons bid bl =>
          cases l' with
          | nil => exact absurd rfl (v.asksNonempty (ap, []) (by simp [ha]))
          | cons ask al =>
            rw [innerLoop_front n h b bp ap bid ask bl al brest arest tr hb ha (v.front_ne hb ha)]
            have hsome : ∃ r, b.matchFront h = some r := by
              simp [Orderbook.matchFront, hb, ha]
            obtain ⟨⟨h2, b2, t⟩, hm⟩ := hsome
            rw [hm]
            have v2 := v.of_matchFront hm
            have c2 := matchFront_count v hm
            obtain ⟨lb, la⟩ := matchFront_ledgers hm
            have hob2 : HeadOrAbsent bp b2.bids_ := by
              have hh : HeadOrAbsent bp b.bids_ := Or.inl ⟨_, _, hb, hbn⟩
              rcases lb with e | e
              · rw [e]; exact hh
              · rw [e]; exact hh.of_popFront
            have hoa2 : HeadOrAbsent ap b2.asks_ := by
              have hh : HeadOrAbsent ap b.asks_ := Or.inl ⟨_, _, ha, han⟩
              rcases la with e | e
              · rw [e]; exact hh
              · rw [e]; exact hh.of_popFront
            obtain ⟨h', b', tr', e, s, -⟩ := ih h2 b2 (tr ++ [t]) v2 hob2 hoa2 hx (by omega)
            have hcr : ¬ b.NotCrossed := by simpa [Orderbook.NotCrossed, hb, ha] using hx
            refine ⟨h', b', tr', e, Steps.step hcr hm s, fun _ => ?_⟩
            exact Nat.lt_of_le_of_lt (v2.of_steps s).2.1 c2
      · exact ⟨h, b, tr, innerLoop_absent_ask n h b bp ap tr ha, Steps.refl _ _ _,
          fun hk => absurd hk.2 ha⟩
    · exact ⟨h, b, tr, innerLoop_absent_bid n h b bp ap tr hb, Steps.refl _ _ _,
        fun hk => absurd hk.1 hb⟩

theorem outerLoop_total :
    ∀ (n : Nat) (h : Memory) (b : Orderbook) (tr : Trades), Base h b → b.ledgerCount < n →
      ∃ h' b' tr', Orderbook.outerLoop n h b tr = Run.done (h', b', tr') ∧
        Steps h b tr h' b' tr' := by
  intro n
  induction n with
  | zero => intro h b tr _ hc; exact absurd hc (Nat.not_lt_zero _)
  | succ n ih =>
    intro h b tr v hc
    cases hb : b.bids_ with
    | nil => exact ⟨h, b, tr, by simp [Orderbook.outerLoop, hb], Steps.refl _ _ _⟩
    | cons x brest =>
      obtain ⟨bp, bl⟩ := x
      cases ha : b.asks_ with
      | nil => exact ⟨h, b, tr, by simp [Orderbook.outerLoop, hb, ha], Steps.refl _ _ _⟩
      | cons y arest =>
        obtain ⟨ap, al⟩ := y
        by_cases hlt : bp < ap
        · exact ⟨h, b, tr, by simp [Orderbook.outerLoop, hb, ha, hlt], Steps.refl _ _ _⟩
        · have hob : HeadOrAbsent bp b.bids_ := by
            rw [hb]; exact HeadOrAbsent.of_sorted_gt (hb ▸ v.bidsSorted)
          have hoa : HeadOrAbsent ap b.asks_ := by
            rw [ha]; exact HeadOrAbsent.of_sorted_lt (ha ▸ v.asksSorted)
          obtain ⟨h1, b1, tr1, e1, s1, c1⟩ := innerLoop_total bp ap (n + 1) h b tr v hob hoa hlt hc
          have c1' := c1 ⟨by simp [hb, ledgerKeys], by simp [ha, ledgerKeys]⟩
          obtain ⟨h', b', tr', e2, s2⟩ := ih h1 b1 tr1 (v.of_steps s1).1 (by omega)
          refine ⟨h', b', tr', ?_, s1.append s2⟩
          simp only [Orderbook.outerLoop, hb, ha, hlt, if_false, e1]
          exact e2

theorem outerLoop_notCrossed :
    ∀ (n : Nat) (h : Memory) (b : Orderbook) (tr : Trades) (h' : Memory) (b' : Orderbook)
      (tr' : Trades), Orderbook.outerLoop n h b tr = Run.done (h', b', tr') → b'.NotCrossed := by
  intro n
  induction n with
  | zero => intro h b tr h' b' tr' e; simp [Orderbook.outerLoop] at e
  | succ n ih =>
    intro h b tr h' b' tr' e
    cases hb : b.bids_ with
    | nil =>
      simp [Orderbook.outerLoop, hb] at e
      obtain ⟨-, rfl, -⟩ := e
      simp [Orderbook.NotCrossed, hb]
    | cons x brest =>
      obtain ⟨bp, bl⟩ := x
      cases ha : b.asks_ with
      | nil =>
        simp [Orderbook.outerLoop, hb, ha] at e
        obtain ⟨-, rfl, -⟩ := e
        simp [Orderbook.NotCrossed, hb, ha]
      | cons y arest =>
        obtain ⟨ap, al⟩ := y
        by_cases hlt : bp < ap
        · simp [Orderbook.outerLoop, hb, ha, hlt] at e
          obtain ⟨-, rfl, -⟩ := e
          simp [Orderbook.NotCrossed, hb, ha, hlt]
        · simp only [Orderbook.outerLoop, hb, ha, hlt, if_false] at e
          cases hi : Orderbook.innerLoop (n + 1) h b bp ap tr with
          | done r =>
            obtain ⟨h1, b1, tr1⟩ := r
            rw [hi] at e
            exact ih h1 b1 tr1 h' b' tr' e
          | fault => rw [hi] at e; cases e
          | outOfFuel => rw [hi] at e; cases e

theorem ledgerPush_eq (before : Price → Price → Bool) (m : Ledger) (k : Price) (p : OrderPointer) :
    mapAssign (mapIndex before m k) k (levelRef (mapIndex before m k) k ++ [p]) =
      ledgerPush before m k p := by
  induction m with
  | nil => simp [mapIndex, mapAssign, levelRef, mapAt, ledgerPush]
  | cons x rest ih =>
    obtain ⟨k', l⟩ := x
    by_cases h1 : k' = k
    · subst h1
      simp [mapIndex, mapAssign, levelRef, mapAt, ledgerPush]
    · by_cases h2 : before k k' = true
      · simp [mapIndex, mapAssign, levelRef, mapAt, ledgerPush, h1, h2]
      · have h2' : before k k' = false := by simpa using h2
        simp only [mapIndex, h1, h2', if_false, Bool.false_eq_true, ledgerPush, mapAssign]
        have e : levelRef ((k', l) :: mapIndex before rest k) k = levelRef (mapIndex before rest k) k := by
          simp [levelRef, mapAt, h1]
        rw [e, ih]

theorem stdNext_length (l : OrderPointers) : stdNext l l.length = Iterator.pastEnd := by
  simp [stdNext]

theorem insertOrder_eq (h : Memory) (b : Orderbook) (order : OrderPointer) :
    b.insertOrder h order =
      if (h.cell order).side_ = Side.Buy then
        { b with bids_ := ledgerPush greaterPrice b.bids_ (h.cell order).price_ order,
                 orders_ := indexInsert b.orders_ (h.cell order).orderId_ ⟨order, Iterator.pastEnd⟩ }
      else
        { b with asks_ := ledgerPush lessPrice b.asks_ (h.cell order).price_ order,
                 orders_ := indexInsert b.orders_ (h.cell order).orderId_ ⟨order, Iterator.pastEnd⟩ } := by
  simp only [Orderbook.insertOrder, Order.GetSide, Order.GetPrice, Order.GetOrderId, ledgerPush_eq,
    stdNext_length]

theorem mem_ledgerKeys_ledgerPush {before : Price → Price → Bool} {m : Ledger} {k : Price}
    {p : OrderPointer} {x : Price} (hx : x ∈ ledgerKeys (ledgerPush before m k p)) :
    x = k ∨ x ∈ ledgerKeys m := by
  induction m with
  | nil => simp [ledgerPush, ledgerKeys] at hx; exact Or.inl hx
  | cons y rest ih =>
    obtain ⟨k', l⟩ := y
    simp only [ledgerPush] at hx
    split at hx
    · exact Or.inr (by simpa [ledgerKeys] using hx)
    · split at hx
      · simp only [ledgerKeys, List.map_cons, List.mem_cons] at hx ⊢
        rcases hx with h1 | h1 | h1
        · exact Or.inl h1
        · exact Or.inr (Or.inl h1)
        · exact Or.inr (Or.inr h1)
      · simp only [ledgerKeys, List.map_cons, List.mem_cons] at hx ih ⊢
        rcases hx with h1 | h1
        · exact Or.inr (Or.inl h1)
        · rcases ih h1 with h2 | h2
          · exact Or.inl h2
          · exact Or.inr (Or.inr h2)

theorem ledgerPush_sorted {before : Price → Price → Bool} {r : Price → Price → Prop}
    (hbr : ∀ a c, before a c = true ↔ r a c) (htri : ∀ a c, ¬ r a c → a ≠ c → r c a)
    (htr : ∀ a c d, r a c → r c d → r a d)
    {m : Ledger} (k : Price) (p : OrderPointer) (hs : (ledgerKeys m).Pairwise r) :
    (ledgerKeys (ledgerPush before m k p)).Pairwise r := by
  induction m with
  | nil => simp [ledgerPush, ledgerKeys]
  | cons y rest ih =>
    obtain ⟨k', l⟩ := y
    simp only [ledgerKeys, List.map_cons, List.pairwise_cons] at hs
    simp only [ledgerPush]
    split
    · simpa [ledgerKeys] using hs
    · rename_i hne
      split
      · rename_i hb
        have hr := (hbr k k').mp hb
        simp only [ledgerKeys, List.map_cons, List.pairwise_cons, List.mem_cons]
        refine ⟨?_, hs⟩
        rintro a (rfl | ha)
        · exact hr
        · exact htr _ _ _ hr (hs.1 a ha)
      · rename_i hb
        have hr : r k' k := htri k k' (fun hc => hb ((hbr k k').mpr hc)) (fun e => hne e.symm)
        simp only [ledgerKeys, List.map_cons, List.pairwise_cons]
        refine ⟨fun a ha => ?_, ih hs.2⟩
        rcases mem_ledgerKeys_ledgerPush ha with e | e
        · rw [e]; exact hr
        · exact hs.1 a e

theorem ledgerPush_nonempty {before : Price → Price → Bool} {m : Ledger} {k : Price}
    {p : OrderPointer} (hn : ∀ l ∈ m, l.2 ≠ []) : ∀ l ∈ ledgerPush before m k p, l.2 ≠ [] := by
  induction m with
  | nil => simp [ledgerPush]
  | cons y rest ih =>
    obtain ⟨k', l⟩ := y
    simp only [ledgerPush]
    split
    · intro x hx
      rcases List.mem_cons.mp hx with e | e
      · subst e; simp
      · exact hn x (List.mem_cons_of_mem _ e)
    · split
      · intro x hx
        rcases List.mem_cons.mp hx with e | e
        · subst e; simp
        · exact hn x e
      · intro x hx
        rcases List.mem_cons.mp hx with e | e
        · subst e; exact hn _ (List.mem_cons_self _ _)
        · exact ih (fun l hl => hn l (List.mem_cons_of_mem _ hl)) x e

theorem ledgerTagged_ledgerPush_perm (before : Price → Price → Bool) (m : Ledger) (k : Price)
    (p : OrderPointer) :
    (ledgerTagged (ledgerPush before m k p)).Perm ((k, p) :: ledgerTagged m) := by
  induction m with
  | nil => simp [ledgerPush, ledgerTagged]
  | cons y rest ih =>
    obtain ⟨k', l⟩ := y
    simp only [ledgerPush]
    split
    · rename_i e; subst e
      simp only [ledgerTagged, List.map_append, List.map_cons, List.map_nil, List.append_assoc,
        List.singleton_append]
      exact List.perm_middle
    · split
      · simp [ledgerTagged]
      · simp only [ledgerTagged]
        refine (List.Perm.append_left _ ih).trans ?_
        exact List.perm_middle

theorem indexKeys_indexInsert {m : OrderIndex} {k : OrderId} (e : OrderEntry)
    (hk : indexContains m k = false) : indexInsert m k e = m ++ [(k, e)] := by
  simp [indexInsert, hk]

theorem Base.of_insertOrder {h : Memory} {b : Orderbook} (v : Base h b) {order : OrderPointer}
    (hk : indexContains b.orders_ (h.cell order).orderId_ = false) (ha : order < h.next) :
    Base h (b.insertOrder h order) := by
  have hkn : (h.cell order).orderId_ ∉ indexKeys b.orders_ := by
    rw [← indexContains_iff]; simp [hk]
  have hfresh : ∀ q ∈ b.ptrs, (h.cell q).orderId_ ≠ (h.cell order).orderId_ := by
    intro q hq e
    have := v.indexed q hq
    rw [e, hk] at this
    cases this
  rw [insertOrder_eq, indexKeys_indexInsert _ hk]
  by_cases hs : (h.cell order).side_ = Side.Buy
  · rw [if_pos hs]
    have hperm := ledgerTagged_ledgerPush_perm greaterPrice b.bids_ (h.cell order).price_ order
    have hp : (Orderbook.ptrs { b with
        bids_ := ledgerPush greaterPrice b.bids_ (h.cell order).price_ order,
        orders_ := b.orders_ ++ [((h.cell order).orderId_, ⟨order, Iterator.pastEnd⟩)] }).Perm
        (order :: b.ptrs) := by
      simp only [Orderbook.ptrs, ledgerPtrs_eq_map]
      have := (hperm.map Prod.snd).append_right ((ledgerTagged b.asks_).map Prod.snd)
      simpa using this
    refine ⟨?_, v.asksSorted, ledgerPush_nonempty v.bidsNonempty, v.asksNonempty, ?_, v.asksOwn,
      ?_, ?_, ?_, ?_, ?_, ?_⟩
    · exact ledgerPush_sorted (r := fun x y => x > y) (by simp [greaterPrice])
        (fun a c h1 h2 => lt_of_le_of_ne (not_lt.mp h1) h2)
        (fun a c d h1 h2 => lt_trans h2 h1) _ _ v.bidsSorted
    · intro x hx
      rcases List.mem_cons.mp (hperm.subset hx) with e | e
      · subst e; exact ⟨hs, rfl⟩
      · exact v.bidsOwn x e
    · intro e he
      rcases List.mem_append.mp he with h1 | h1
      · exact v.handles e h1
      · simp only [List.mem_singleton] at h1; subst h1; rfl
    · intro q hq
      rw [indexContains_iff]
      simp only [indexKeys, List.map_append, List.map_cons, List.map_nil, List.mem_append,
        List.mem_singleton]
      rcases List.mem_cons.mp (hp.subset hq) with e | e
      · subst e; exact Or.inr rfl
      · exact Or.inl ((indexContains_iff _ _).mp (v.indexed q e))
    · refine (List.Perm.nodup_iff (hp.map _)).mpr ?_
      simp only [List.map_cons, List.nodup_cons, List.mem_map, not_exists, not_and]
      exact ⟨fun q hq => hfresh q hq, v.idsNodup⟩
    · intro q hq
      rcases List.mem_cons.mp (hp.subset hq) with e | e
      · subst e; exact ha
      · exact v.allocated q e
    · simp only [indexKeys, List.map_append, List.map_cons, List.map_nil]
      refine List.Nodup.append v.keysNodup (List.nodup_singleton _) ?_
      intro x hx1 hx2
      simp only [List.mem_singleton] at hx2
      subst hx2
      exact hkn hx1
    · intro e he
      rcases List.mem_append.mp he with h1 | h1
      · obtain ⟨l1, l2⟩ := v.live e h1
        exact ⟨hp.symm.subset (List.mem_cons_of_mem _ l1), l2⟩
      · simp only [List.mem_singleton] at h1; subst h1
        exact ⟨hp.symm.subset (List.mem_cons_self _ _), rfl⟩
  · rw [if_neg hs]
    have hs' : (h.cell order).side_ = Side.Sell := by
      cases hc : (h.cell order).side_ with
      | Buy => exact absurd hc hs
      | Sell => rfl
    have hperm := ledgerTagged_ledgerPush_perm lessPrice b.asks_ (h.cell order).price_ order
    have hp : (Orderbook.ptrs { b with
        asks_ := ledgerPush lessPrice b.asks_ (h.cell order).price_ order,
        orders_ := b.orders_ ++ [((h.cell order).orderId_, ⟨order, Iterator.pastEnd⟩)] }).Perm
        (order :: b.ptrs) := by
      simp only [Orderbook.ptrs, ledgerPtrs_eq_map]
      have := (hperm.map Prod.snd).append_left ((ledgerTagged b.bids_).map Prod.snd)
      refine this.trans ?_
      simp only [List.map_cons]
      exact List.perm_middle
    refine ⟨v.bidsSorted, ?_, v.bidsNonempty, ledgerPush_nonempty v.asksNonempty, v.bidsOwn, ?_,
      ?_, ?_, ?_, ?_, ?_, ?_⟩
    · exact ledgerPush_sorted (r := fun x y => x < y) (by simp [lessPrice])
        (fun a c h1 h2 => lt_of_le_of_ne (not_lt.mp h1) (Ne.symm h2))
        (fun a c d h1 h2 => lt_trans h1 h2) _ _ v.asksSorted
    · intro x hx
      rcases List.mem_cons.mp (hperm.subset hx) with e | e
      · subst e; exact ⟨hs', rfl⟩
      · exact v.asksOwn x e
    · intro e he
      rcases List.mem_append.mp he with h1 | h1
      · exact v.handles e h1
      · simp only [List.mem_singleton] at h1; subst h1; rfl
    · intro q hq
      rw [indexContains_iff]
      simp only [indexKeys, List.map_append, List.map_cons, List.map_nil, List.mem_append,
        List.mem_singleton]
      rcases List.mem_cons.mp (hp.subset hq) with e | e
      · subst e; exact Or.inr rfl
      · exact Or.inl ((indexContains_iff _ _).mp (v.indexed q e))
    · refine (List.Perm.nodup_iff (hp.map _)).mpr ?_
      simp only [List.map_cons, List.nodup_cons, List.mem_map, not_exists, not_and]
      exact ⟨fun q hq => hfresh q hq, v.idsNodup⟩
    · intro q hq
      rcases List.mem_cons.mp (hp.subset hq) with e | e
      · subst e; exact ha
      · exact v.allocated q e
    · simp only [indexKeys, List.map_append, List.map_cons, List.map_nil]
      refine List.Nodup.append v.keysNodup (List.nodup_singleton _) ?_
      intro x hx1 hx2
      simp only [List.mem_singleton] at hx2
      subst hx2
      exact hkn hx1
    · intro e he
      rcases List.mem_append.mp he with h1 | h1
      · obtain ⟨l1, l2⟩ := v.live e h1
        exact ⟨hp.symm.subset (List.mem_cons_of_mem _ l1), l2⟩
      · simp only [List.mem_singleton] at h1; subst h1
        exact ⟨hp.symm.subset (List.mem_cons_self _ _), rfl⟩

theorem indexAt_mem {m : OrderIndex} {k : OrderId} {e : OrderEntry} (he : indexAt m k = some e) :
    (k, e) ∈ m := by
  induction m with
  | nil => simp [indexAt] at he
  | cons x rest ih =>
    obtain ⟨k', e'⟩ := x
    simp only [indexAt] at he
    split at he
    · rename_i hk
      simp only [Option.some.injEq] at he
      subst hk he
      exact List.mem_cons_self _ _
    · exact List.mem_cons_of_mem _ (ih he)

/-- With every stored handle past the end, `CancelOrder` of an identity in the index ends
in the fault of `erase`, and of any other identity changes nothing. -/
theorem CancelOrder_of_handles (h : Memory) (b : Orderbook) (orderId : OrderId)
    (hh : ∀ e ∈ b.orders_, e.2.location_ = Iterator.pastEnd) :
    Orderbook.CancelOrder h b orderId =
      if indexContains b.orders_ orderId = true then Run.fault else Run.done b := by
  unfold Orderbook.CancelOrder
  by_cases hc : indexContains b.orders_ orderId = true
  · simp only [hc, Bool.not_true, Bool.false_eq_true, if_false, if_true]
    cases he : indexAt b.orders_ orderId with
    | none => rfl
    | some entry =>
      have hl : entry.location_ = Iterator.pastEnd := hh _ (indexAt_mem he)
      simp only [hl, listErase]
      split
      · split <;> rfl
      · split <;> rfl
  · simp [hc]

theorem cancelFront_done {h : Memory} {b : Orderbook} {side : Side} {b' : Orderbook}
    (v : Base h b) (e : b.cancelFrontFillAndKill h side = Run.done b') :
    b' = b ∧ ∀ k p l rest, (if side = Side.Buy then b.bids_ else b.asks_) = (k, p :: l) :: rest →
      (h.cell p).orderType_ ≠ OrderType.FillAndKill := by
  unfold Orderbook.cancelFrontFillAndKill at e
  split at e
  · rename_i hl
    simp only [Run.done.injEq] at e
    exact ⟨e.symm, fun k p l rest hk => by rw [hl] at hk; cases hk⟩
  · cases e
  · rename_i k0 p0 l0 rest0 hl
    have hp : p0 ∈ b.ptrs := by
      by_cases hs : side = Side.Buy
      · rw [if_pos hs] at hl
        simp [Orderbook.ptrs, hl, ledgerPtrs]
      · rw [if_neg hs] at hl
        simp [Orderbook.ptrs, hl, ledgerPtrs]
    split at e
    · rw [CancelOrder_of_handles h b _ v.handles, Order.GetOrderId, if_pos (v.indexed p0 hp)] at e
      cases e
    · rename_i ht
      simp only [Run.done.injEq] at e
      refine ⟨e.symm, fun k p l rest hk => ?_⟩
      rw [hl] at hk
      simp only [List.cons.injEq, Prod.mk.injEq] at hk
      obtain ⟨⟨-, hp', -⟩, -⟩ := hk
      rw [← hp']
      exact ht

theorem MatchOrders_total {h : Memory} {b : Orderbook} (v : Base h b) :
    ∃ h' b' tr, Orderbook.outerLoop (b.ledgerCount + 1) h b [] = Run.done (h', b', tr) ∧
      Steps h b [] h' b' tr ∧ b'.NotCrossed ∧ Base h' b' ∧
      (Orderbook.MatchOrders h b = Run.fault ∨
        (Orderbook.MatchOrders h b = Run.done (h', b', tr) ∧
          b'.FrontRests h' Side.Buy ∧ b'.FrontRests h' Side.Sell)) := by
  obtain ⟨h', b', tr, e, s⟩ := outerLoop_total (b.ledgerCount + 1) h b [] v (Nat.lt_succ_self _)
  have v' := (v.of_steps s).1
  refine ⟨h', b', tr, e, s, outerLoop_notCrossed _ _ _ _ _ _ _ e, v', ?_⟩
  unfold Orderbook.MatchOrders
  rw [e]
  simp only
  cases e1 : b'.cancelFrontFillAndKill h' Side.Buy with
  | fault => exact Or.inl rfl
  | outOfFuel =>
    exfalso
    unfold Orderbook.cancelFrontFillAndKill at e1
    split at e1
    · cases e1
    · cases e1
    · split at e1
      · rw [CancelOrder_of_handles h' b' _ v'.handles] at e1
        split at e1 <;> cases e1
      · cases e1
  | done b1 =>
    obtain ⟨hb1, f1⟩ := cancelFront_done v' e1
    subst hb1
    simp only
    cases e2 : b1.cancelFrontFillAndKill h' Side.Sell with
    | fault => exact Or.inl rfl
    | outOfFuel =>
      exfalso
      unfold Orderbook.cancelFrontFillAndKill at e2
      split at e2
      · cases e2
      · cases e2
      · split at e2
        · rw [CancelOrder_of_handles h' b1 _ v'.handles] at e2
          split at e2 <;> cases e2
        · cases e2
    | done b2 =>
      obtain ⟨hb2, f2⟩ := cancelFront_done v' e2
      subst hb2
      exact Or.inr ⟨rfl, f1, f2⟩

theorem AddOrder_rejects {h : Memory} {b : Orderbook} {order : OrderPointer}
    (hr : b.Rejects h order) : Orderbook.AddOrder h b order = Run.done (h, b, []) := by
  unfold Orderbook.AddOrder
  rcases hr with hr | hr
  · simp [hr]
  · by_cases hc : indexContains b.orders_ (h.cell order).GetOrderId = true
    · simp [hc]
    · simp [hc, hr.1, hr.2]

theorem AddOrder_accepts {h : Memory} {b : Orderbook} {order : OrderPointer}
    (hr : ¬ b.Rejects h order) :
    Orderbook.AddOrder h b order = Orderbook.MatchOrders h (b.insertOrder h order) := by
  unfold Orderbook.AddOrder
  simp only [Orderbook.Rejects, not_or, not_and] at hr
  obtain ⟨h1, h2⟩ := hr
  simp only [h1, Bool.false_eq_true, if_false]
  rw [if_neg]
  exact fun hc => h2 hc.1 hc.2

theorem Base.of_make_shared {h : Memory} {b : Orderbook} (v : Base h b) (o : Order) :
    Base (h.make_shared o).1 b := by
  have hcell : ∀ p ∈ b.ptrs, (h.make_shared o).1.cell p = h.cell p := by
    intro p hp
    have := v.allocated p hp
    simp only [Memory.make_shared]
    rw [if_neg (Nat.ne_of_lt this)]
  have hfun : b.ptrs.map (fun p => ((h.make_shared o).1.cell p).orderId_) =
      b.ptrs.map (fun p => (h.cell p).orderId_) :=
    List.map_congr_left (fun p hp => by rw [hcell p hp])
  have hb : ∀ x ∈ ledgerTagged b.bids_, x.2 ∈ b.ptrs := fun x hx => by
    simp only [Orderbook.ptrs, ledgerPtrs_eq_map, List.mem_append, List.mem_map]
    exact Or.inl ⟨x, hx, rfl⟩
  have ha : ∀ x ∈ ledgerTagged b.asks_, x.2 ∈ b.ptrs := fun x hx => by
    simp only [Orderbook.ptrs, ledgerPtrs_eq_map, List.mem_append, List.mem_map]
    exact Or.inr ⟨x, hx, rfl⟩
  refine ⟨v.bidsSorted, v.asksSorted, v.bidsNonempty, v.asksNonempty, ?_, ?_, v.handles, ?_, ?_,
    ?_, v.keysNodup, ?_⟩
  · intro x hx; rw [hcell _ (hb x hx)]; exact v.bidsOwn x hx
  · intro x hx; rw [hcell _ (ha x hx)]; exact v.asksOwn x hx
  · intro p hp; rw [hcell p hp]; exact v.indexed p hp
  · rw [hfun]; exact v.idsNodup
  · intro p hp
    have := v.allocated p hp
    simp only [Memory.make_shared]
    exact Nat.lt_succ_of_lt this
  · intro e he
    obtain ⟨l1, l2⟩ := v.live e he
    rw [hcell _ l1]
    exact ⟨l1, l2⟩

theorem Base.of_empty (h : Memory) : Base h Orderbook.empty := by
  refine ⟨?_, ?_, ?_, ?_, ?_, ?_, ?_, ?_, ?_, ?_, ?_, ?_⟩ <;>
    simp [Orderbook.empty, ledgerKeys, ledgerTagged, Orderbook.ptrs, ledgerPtrs, indexKeys]

theorem Base.of_AddOrder {h : Memory} {b : Orderbook} (v : Base h b) (hn : b.NotCrossed)
    {order : OrderPointer} (ha : order < h.next) {h' : Memory} {b' : Orderbook} {tr : Trades}
    (e : Orderbook.AddOrder h b order = Run.done (h', b', tr)) :
    Base h' b' ∧ b'.NotCrossed := by
  by_cases hr : b.Rejects h order
  · rw [AddOrder_rejects hr] at e
    simp only [Run.done.injEq, Prod.mk.injEq] at e
    obtain ⟨rfl, rfl, -⟩ := e
    exact ⟨v, hn⟩
  · rw [AddOrder_accepts hr] at e
    have hk : indexContains b.orders_ (h.cell order).orderId_ = false := by
      simp only [Orderbook.Rejects, not_or] at hr
      simpa [Order.GetOrderId] using hr.1
    obtain ⟨h1, b1, tr1, -, -, hn1, v1, hm⟩ := MatchOrders_total (v.of_insertOrder hk ha)
    rcases hm with hm | ⟨hm, -, -⟩
    · rw [hm] at e; cases e
    · rw [hm] at e
      simp only [Run.done.injEq, Prod.mk.injEq] at e
      obtain ⟨rfl, rfl, -⟩ := e
      exact ⟨v1, hn1⟩

theorem Reachable.base {h : Memory} {b : Orderbook} (r : Reachable h b) :
    Base h b ∧ b.NotCrossed := by
  induction r with
  | empty h => exact ⟨Base.of_empty h, by simp [Orderbook.NotCrossed, Orderbook.empty]⟩
  | make_shared o _ ih => exact ⟨ih.1.of_make_shared o, ih.2⟩
  | AddOrder _ ha e ih => exact ih.1.of_AddOrder ih.2 ha e
  | CancelOrder _ e ih =>
    rw [CancelOrder_of_handles _ _ _ ih.1.handles] at e
    split at e
    · cases e
    · simp only [Run.done.injEq] at e
      subst e
      exact ih
  | MatchOrder _ e ih =>
    rename_i h0 b0 m h1 b1 tr _
    unfold Orderbook.MatchOrder at e
    by_cases hc : indexContains b0.orders_ m.GetOrderId = true
    · exfalso
      simp only [hc, Bool.not_true, Bool.false_eq_true, if_false] at e
      cases he : indexAt b0.orders_ m.GetOrderId with
      | none => rw [he] at e; cases e
      | some entry =>
        rw [he] at e
        simp only at e
        have hl := ih.1.live _ (indexAt_mem he)
        simp only at hl
        rw [CancelOrder_of_handles _ _ _ ih.1.handles, Order.GetOrderId, hl.2, if_pos hc] at e
        cases e
    · simp only [hc, Bool.not_false, if_true, Run.done.injEq, Prod.mk.injEq] at e
      obtain ⟨rfl, rfl, -⟩ := e
      exact ih

theorem innerLoop_mono (bp ap : Price) :
    ∀ (n : Nat) (h : Memory) (b : Orderbook) (tr : Trades) (r : Memory × Orderbook × Trades),
      Orderbook.innerLoop n h b bp ap tr = Run.done r →
      Orderbook.innerLoop (n + 1) h b bp ap tr = Run.done r := by
  intro n
  induction n with
  | zero => intro h b tr r e; simp [Orderbook.innerLoop] at e
  | succ n ih =>
    intro h b tr r e
    rw [Orderbook.innerLoop] at e ⊢
    cases hb : levelRef b.bids_ bp with
    | nil => rw [hb] at e; exact e
    | cons bid bidsRest =>
      cases ha : levelRef b.asks_ ap with
      | nil => rw [hb, ha] at e; exact e
      | cons ask asksRest =>
        rw [hb, ha] at e
        dsimp only at e ⊢
        cases hf1 : (h.cell bid).Fill (matchQuantity (h.cell bid) (h.cell ask)) with
        | none => rw [hf1] at e; cases e
        | some bidFilled =>
          rw [hf1] at e
          dsimp only at e ⊢
          cases hf2 : ((h.write bid bidFilled).cell ask).Fill
              (matchQuantity (h.cell bid) (h.cell ask)) with
          | none => rw [hf2] at e; cases e
          | some askFilled =>
            rw [hf2] at e
            exact ih _ _ _ _ e

theorem innerLoop_mono_le (bp ap : Price) {n m : Nat} (hnm : n ≤ m) {h : Memory} {b : Orderbook}
    {tr : Trades} {r : Memory × Orderbook × Trades}
    (e : Orderbook.innerLoop n h b bp ap tr = Run.done r) :
    Orderbook.innerLoop m h b bp ap tr = Run.done r := by
  induction hnm with
  | refl => exact e
  | step _ ih => exact innerLoop_mono bp ap _ _ _ _ _ ih

theorem outerLoop_mono :
    ∀ (n : Nat) (h : Memory) (b : Orderbook) (tr : Trades) (r : Memory × Orderbook × Trades),
      Orderbook.outerLoop n h b tr = Run.done r → Orderbook.outerLoop (n + 1) h b tr = Run.done r := by
  intro n
  induction n with
  | zero => intro h b tr r e; simp [Orderbook.outerLoop] at e
  | succ n ih =>
    intro h b tr r e
    rw [Orderbook.outerLoop] at e ⊢
    cases hb : b.bids_ with
    | nil => rw [hb] at e; exact e
    | cons x brest =>
      obtain ⟨bidPrice, bl⟩ := x
      cases ha : b.asks_ with
      | nil => rw [hb, ha] at e; exact e
      | cons y arest =>
        obtain ⟨askPrice, al⟩ := y
        rw [hb, ha] at e
        dsimp only at e ⊢
        by_cases hlt : bidPrice < askPrice
        · rw [if_pos hlt] at e ⊢; exact e
        · rw [if_neg hlt] at e ⊢
          cases hi : Orderbook.innerLoop (n + 1) h b bidPrice askPrice tr with
          | done x =>
            obtain ⟨h1, b1, tr1⟩ := x
            rw [hi] at e
            rw [innerLoop_mono _ _ _ _ _ _ _ hi]
            exact ih _ _ _ _ e
          | fault => rw [hi] at e; cases e
          | outOfFuel => rw [hi] at e; cases e

theorem outerLoop_mono_le {n m : Nat} (hnm : n ≤ m) {h : Memory} {b : Orderbook}
    {tr : Trades} {r : Memory × Orderbook × Trades}
    (e : Orderbook.outerLoop n h b tr = Run.done r) :
    Orderbook.outerLoop m h b tr = Run.done r := by
  induction hnm with
  | refl => exact e
  | step _ ih => exact outerLoop_mono _ _ _ _ _ ih

theorem Base.ptrsNodup {h : Memory} {b : Orderbook} (v : Base h b) : b.ptrs.Nodup :=
  List.Nodup.of_map _ v.idsNodup

theorem ledgerPtrs_popFront (k : Price) (p : OrderPointer) (l : OrderPointers) (rest : Ledger) :
    ledgerPtrs (popFront ((k, p :: l) :: rest)) = l ++ ledgerPtrs rest := by
  cases l <;> simp [popFront, ledgerPtrs]

theorem ledgerPtrs_popFront_subset (m : Ledger) : ∀ q ∈ ledgerPtrs (popFront m), q ∈ ledgerPtrs m := by
  match m with
  | [] => simp [popFront]
  | (k, []) :: rest => simp [popFront]
  | (k, p :: l) :: rest =>
    intro q hq
    rw [ledgerPtrs_popFront] at hq
    simp only [ledgerPtrs, List.cons_append, List.mem_cons]
    exact Or.inr hq

theorem matchFront_ptrs_subset {h : Memory} {b : Orderbook} {h2 : Memory} {b2 : Orderbook} {t : Trade}
    (hm : b.matchFront h = some (h2, b2, t)) :
    (∀ q ∈ ledgerPtrs b2.bids_, q ∈ ledgerPtrs b.bids_) ∧
    (∀ q ∈ ledgerPtrs b2.asks_, q ∈ ledgerPtrs b.asks_) := by
  obtain ⟨lb, la⟩ := matchFront_ledgers hm
  constructor
  · rcases lb with e | e
    · rw [e]; exact fun q hq => hq
    · rw [e]; exact ledgerPtrs_popFront_subset _
  · rcases la with e | e
    · rw [e]; exact fun q hq => hq
    · rw [e]; exact ledgerPtrs_popFront_subset _

theorem killAtFront_matchFront {h : Memory} {b : Orderbook} (v : Base h b) (j : b.KillAtFront h)
    {h2 : Memory} {b2 : Orderbook} {t : Trade} (hm : b.matchFront h = some (h2, b2, t)) :
    b2.KillAtFront h2 := by
  intro p hp ht
  have hs := matchFront_static hm
  rw [(hs.2 p).1] at ht
  obtain ⟨sb, sa⟩ := matchFront_ptrs_subset hm
  obtain ⟨lb, la⟩ := matchFront_ledgers hm
  have hnd := v.ptrsNodup
  have hp0 : p ∈ b.ptrs := by
    rcases List.mem_append.mp hp with h1 | h1
    · exact List.mem_append.mpr (Or.inl (sb p h1))
    · exact List.mem_append.mpr (Or.inr (sa p h1))
  simp only [Orderbook.ptrs] at hnd hp
  rcases j p hp0 ht with ⟨k, l, rest, hb⟩ | ⟨k, l, rest, ha⟩
  · rcases lb with e | e
    · exact Or.inl ⟨k, l, rest, by rw [e, hb]⟩
    · exfalso
      rw [hb, ledgerPtrs] at hnd
      simp only [List.cons_append, List.nodup_cons, List.mem_append, not_or] at hnd
      rcases List.mem_append.mp hp with h1 | h1
      · rw [e, hb, ledgerPtrs_popFront] at h1
        rcases List.mem_append.mp h1 with h2 | h2
        · exact hnd.1.1.1 h2
        · exact hnd.1.1.2 h2
      · exact hnd.1.2 (sa p h1)
  · rcases la with e | e
    · exact Or.inr ⟨k, l, rest, by rw [e, ha]⟩
    · exfalso
      rw [ha, ledgerPtrs] at hnd
      rw [List.nodup_append] at hnd
      obtain ⟨-, hn2, hdis⟩ := hnd
      simp only [List.cons_append, List.nodup_cons, List.mem_append, not_or] at hn2
      rcases List.mem_append.mp hp with h1 | h1
      · exact hdis (sb p h1) (by simp)
      · rw [e, ha, ledgerPtrs_popFront] at h1
        rcases List.mem_append.mp h1 with h2 | h2
        · exact hn2.1.1 h2
        · exact hn2.1.2 h2

theorem killAtFront_steps {h : Memory} {b : Orderbook} {tr : Trades} {h' : Memory} {b' : Orderbook}
    {tr' : Trades} (s : Steps h b tr h' b' tr') (v : Base h b) (j : b.KillAtFront h) :
    b'.KillAtFront h' := by
  induction s with
  | refl => exact j
  | step _ hm _ ih => exact ih (v.of_matchFront hm) (killAtFront_matchFront v j hm)

theorem ledgerPush_head {before : Price → Price → Bool} {m : Ledger} {k : Price} (p : OrderPointer)
    (hk : ∀ k' ∈ ledgerKeys m, before k k' = true ∧ k' ≠ k) :
    ledgerPush before m k p = (k, [p]) :: m := by
  cases m with
  | nil => rfl
  | cons x rest =>
    obtain ⟨k', l⟩ := x
    obtain ⟨h1, h2⟩ := hk k' (by simp [ledgerKeys])
    simp [ledgerPush, h1, h2]

theorem ledgerPtrs_ledgerPush_perm (before : Price → Price → Bool) (m : Ledger) (k : Price)
    (p : OrderPointer) : (ledgerPtrs (ledgerPush before m k p)).Perm (p :: ledgerPtrs m) := by
  simp only [ledgerPtrs_eq_map]
  simpa using (ledgerTagged_ledgerPush_perm before m k p).map Prod.snd

theorem insertOrder_mem_ptrs {h : Memory} {b : Orderbook} {order q : OrderPointer}
    (hq : q ∈ (b.insertOrder h order).ptrs) : q = order ∨ q ∈ b.ptrs := by
  rw [insertOrder_eq] at hq
  split at hq
  · simp only [Orderbook.ptrs, List.mem_append] at hq ⊢
    rcases hq with h1 | h1
    · rcases List.mem_cons.mp ((ledgerPtrs_ledgerPush_perm _ _ _ _).subset h1) with e | e
      · exact Or.inl e
      · exact Or.inr (Or.inl e)
    · exact Or.inr (Or.inr h1)
  · simp only [Orderbook.ptrs, List.mem_append] at hq ⊢
    rcases hq with h1 | h1
    · exact Or.inr (Or.inl h1)
    · rcases List.mem_cons.mp ((ledgerPtrs_ledgerPush_perm _ _ _ _).subset h1) with e | e
      · exact Or.inl e
      · exact Or.inr (Or.inr e)

/-- In a book that is not crossed, an order that can match is inserted as the only order
of a new best level of its side. -/
theorem insertOrder_canMatch {h : Memory} {b : Orderbook} (v : Base h b) (hn : b.NotCrossed)
    {order : OrderPointer}
    (hc : b.CanMatch (h.cell order).GetSide (h.cell order).GetPrice = true) :
    ((h.cell order).side_ = Side.Buy ∧
      (b.insertOrder h order).bids_ = ((h.cell order).price_, [order]) :: b.bids_ ∧
      (b.insertOrder h order).asks_ = b.asks_) ∨
    ((h.cell order).side_ = Side.Sell ∧
      (b.insertOrder h order).asks_ = ((h.cell order).price_, [order]) :: b.asks_ ∧
      (b.insertOrder h order).bids_ = b.bids_) := by
  rw [insertOrder_eq]
  simp only [Orderbook.CanMatch, Order.GetSide, Order.GetPrice] at hc
  by_cases hs : (h.cell order).side_ = Side.Buy
  · left
    rw [if_pos hs] at hc ⊢
    refine ⟨hs, ?_, rfl⟩
    cases ha : b.asks_ with
    | nil => rw [ha] at hc; cases hc
    | cons y arest =>
      obtain ⟨ap, al⟩ := y
      rw [ha] at hc
      simp only [ge_iff_le, decide_eq_true_eq] at hc
      apply ledgerPush_head
      intro k' hk'
      cases hb : b.bids_ with
      | nil => rw [hb] at hk'; simp [ledgerKeys] at hk'
      | cons x brest =>
        obtain ⟨bp, bl⟩ := x
        have hlt : bp < ap := by simpa [Orderbook.NotCrossed, hb, ha] using hn
        have hs := v.bidsSorted
        rw [hb] at hk' hs
        simp only [ledgerKeys, List.map_cons, List.mem_cons, List.pairwise_cons] at hk' hs
        have hle : k' ≤ bp := by
          rcases hk' with e | e
          · exact le_of_eq e
          · exact le_of_lt (hs.1 k' e)
        have : k' < (h.cell order).price_ := lt_of_le_of_lt hle (lt_of_lt_of_le hlt hc)
        exact ⟨by simpa [greaterPrice] using this, ne_of_lt this⟩
  · right
    have hs' : (h.cell order).side_ = Side.Sell := by
      cases hc' : (h.cell order).side_ with
      | Buy => exact absurd hc' hs
      | Sell => rfl
    rw [if_neg hs] at hc ⊢
    refine ⟨hs', ?_, rfl⟩
    cases hb : b.bids_ with
    | nil => rw [hb] at hc; cases hc
    | cons x brest =>
      obtain ⟨bp, bl⟩ := x
      rw [hb] at hc
      simp only [decide_eq_true_eq] at hc
      apply ledgerPush_head
      intro k' hk'
      cases ha : b.asks_ with
      | nil => rw [ha] at hk'; simp [ledgerKeys] at hk'
      | cons y arest =>
        obtain ⟨ap, al⟩ := y
        have hlt : bp < ap := by simpa [Orderbook.NotCrossed, hb, ha] using hn
        have hs := v.asksSorted
        rw [ha] at hk' hs
        simp only [ledgerKeys, List.map_cons, List.mem_cons, List.pairwise_cons] at hk' hs
        have hle : ap ≤ k' := by
          rcases hk' with e | e
          · exact le_of_eq e.symm
          · exact le_of_lt (hs.1 k' e)
        have : (h.cell order).price_ < k' := lt_of_lt_of_le (lt_of_le_of_lt hc hlt) hle
        exact ⟨by simpa [lessPrice] using this, (ne_of_lt this).symm⟩

theorem killAtFront_insertOrder {h : Memory} {b : Orderbook} (v : Base h b) (hn : b.NotCrossed)
    (nk : b.NoKill h) {order : OrderPointer} (hr : ¬ b.Rejects h order) :
    (b.insertOrder h order).KillAtFront h := by
  intro p hp ht
  rcases insertOrder_mem_ptrs hp with e | e
  · subst e
    simp only [Orderbook.Rejects, not_or, not_and, Order.GetOrderType] at hr
    have hc := hr.2 ht
    simp only [Bool.not_eq_false] at hc
    rcases insertOrder_canMatch v hn hc with ⟨-, e1, -⟩ | ⟨-, e1, -⟩
    · exact Or.inl ⟨_, _, _, e1⟩
    · exact Or.inr ⟨_, _, _, e1⟩
  · exact absurd ht (nk p e)

theorem noKill_of_front {h : Memory} {b : Orderbook} (j : b.KillAtFront h)
    (f1 : b.FrontRests h Side.Buy) (f2 : b.FrontRests h Side.Sell) : b.NoKill h := by
  intro p hp ht
  rcases j p hp ht with ⟨k, l, rest, e⟩ | ⟨k, l, rest, e⟩
  · exact f1 k p l rest (by simpa using e) ht
  · exact f2 k p l rest (by simpa using e) ht

theorem noKill_AddOrder {h : Memory} {b : Orderbook} (v : Base h b) (hn : b.NotCrossed)
    (nk : b.NoKill h) {order : OrderPointer} (ha : order < h.next) {h' : Memory} {b' : Orderbook}
    {tr : Trades} (e : Orderbook.AddOrder h b order = Run.done (h', b', tr)) : b'.NoKill h' := by
  by_cases hr : b.Rejects h order
  · rw [AddOrder_rejects hr] at e
    simp only [Run.done.injEq, Prod.mk.injEq] at e
    obtain ⟨rfl, rfl, -⟩ := e
    exact nk
  · rw [AddOrder_accepts hr] at e
    have hk : indexContains b.orders_ (h.cell order).orderId_ = false := by
      simp only [Orderbook.Rejects, not_or] at hr
      simpa [Order.GetOrderId] using hr.1
    have v0 := v.of_insertOrder hk ha
    obtain ⟨h1, b1, tr1, -, s, -, -, hm⟩ := MatchOrders_total v0
    rcases hm with hm | ⟨hm, f1, f2⟩
    · rw [hm] at e; cases e
    · rw [hm] at e
      simp only [Run.done.injEq, Prod.mk.injEq] at e
      obtain ⟨rfl, rfl, -⟩ := e
      exact noKill_of_front (killAtFront_steps s v0 (killAtFront_insertOrder v hn nk hr)) f1 f2

theorem Reachable.noKill {h : Memory} {b : Orderbook} (r : Reachable h b) : b.NoKill h := by
  induction r with
  | empty h => intro p hp; simp [Orderbook.empty, Orderbook.ptrs, ledgerPtrs] at hp
  | make_shared o r0 ih =>
    intro p hp
    have := r0.base.1.allocated p hp
    simp only [Memory.make_shared]
    rw [if_neg (Nat.ne_of_lt this)]
    exact ih p hp
  | AddOrder r0 ha e ih => exact noKill_AddOrder r0.base.1 r0.base.2 ih ha e
  | CancelOrder r0 e ih =>
    rw [CancelOrder_of_handles _ _ _ r0.base.1.handles] at e
    split at e
    · cases e
    · simp only [Run.done.injEq] at e
      subst e
      exact ih
  | MatchOrder r0 e ih =>
    rename_i h0 b0 m h1 b1 tr
    unfold Orderbook.MatchOrder at e
    by_cases hc : indexContains b0.orders_ m.GetOrderId = true
    · exfalso
      simp only [hc, Bool.not_true, Bool.false_eq_true, if_false] at e
      cases he : indexAt b0.orders_ m.GetOrderId with
      | none => rw [he] at e; cases e
      | some entry =>
        rw [he] at e
        simp only at e
        have hl := r0.base.1.live _ (indexAt_mem he)
        simp only at hl
        rw [CancelOrder_of_handles _ _ _ r0.base.1.handles, Order.GetOrderId, hl.2, if_pos hc] at e
        cases e
    · simp only [hc, Bool.not_false, if_true, Run.done.injEq, Prod.mk.injEq] at e
      obtain ⟨rfl, rfl, -⟩ := e
      exact ih

theorem exBuy_add : Orderbook.AddOrder exMemBuy Orderbook.empty 0 = Run.done (exMemBuy, exBookBuy, []) :=
  rfl

theorem exBuy_reachable : Reachable exMemBuy exBookBuy :=
  Reachable.AddOrder (Reachable.make_shared _ (Reachable.empty Memory.init)) (by decide) exBuy_add

theorem exBuySell_add :
    Orderbook.AddOrder exMemBuySell exBookBuy 1 = Run.done (exMemBuySell, exBookBuySell, []) :=
  rfl

theorem exSell_reachable : Reachable exMemSellKill exBookSell :=
  Reachable.make_shared _
    (@Reachable.AddOrder (Memory.init.make_shared
        (Order.new OrderType.GoodTillCancel 1 Side.Sell 10 5)).1 Orderbook.empty 0 _ _ []
      (Reachable.make_shared _ (Reachable.empty Memory.init)) (by decide) rfl)

/-- C1. For every reachable state and every order object passed to `AddOrder`, the book
left when `AddOrder` returns is not crossed: the bid ledger is empty, or the ask ledger is
empty, or the first bid level carries the highest bid price, the first ask level the lowest
ask price, and the former is strictly below the latter. -/
theorem C1_AddOrder_leaves_book_uncrossed {h : Memory} {b : Orderbook} (r : Reachable h b)
    {order : OrderPointer} (ha : order < h.next) {h' : Memory} {b' : Orderbook} {trades : Trades}
    (e : Orderbook.AddOrder h b order = Run.done (h', b', trades)) :
    b'.bids_ = [] ∨ b'.asks_ = [] ∨
      ∃ bestBid bids brest bestAsk asks arest,
        b'.bids_ = (bestBid, bids) :: brest ∧ b'.asks_ = (bestAsk, asks) :: arest ∧
        (∀ p ∈ ledgerKeys b'.bids_, p ≤ bestBid) ∧ (∀ p ∈ ledgerKeys b'.asks_, bestAsk ≤ p) ∧
        bestBid < bestAsk := by
  obtain ⟨v', hn'⟩ := r.base.1.of_AddOrder r.base.2 ha e
  cases hb : b'.bids_ with
  | nil => exact Or.inl rfl
  | cons x brest =>
    obtain ⟨bp, bl⟩ := x
    cases hk : b'.asks_ with
    | nil => exact Or.inr (Or.inl rfl)
    | cons y arest =>
      obtain ⟨ap, al⟩ := y
      refine Or.inr (Or.inr ⟨bp, bl, brest, ap, al, arest, rfl, rfl, ?_, ?_, ?_⟩)
      · have hs := v'.bidsSorted
        rw [hb] at hs
        simp only [ledgerKeys, List.map_cons, List.pairwise_cons, List.mem_cons] at hs ⊢
        rintro p (rfl | hp)
        · exact le_refl _
        · exact le_of_lt (hs.1 p hp)
      · have hs := v'.asksSorted
        rw [hk] at hs
        simp only [ledgerKeys, List.map_cons, List.pairwise_cons, List.mem_cons] at hs ⊢
        rintro p (rfl | hp)
        · exact le_refl _
        · exact le_of_lt (hs.1 p hp)
      · simpa [Orderbook.NotCrossed, hb, hk] using hn'

theorem C1_witness :
    exBookBuySell.bids_ = [] ∨ exBookBuySell.asks_ = [] ∨
      ∃ bestBid bids brest bestAsk asks arest,
        exBookBuySell.bids_ = (bestBid, bids) :: brest ∧
        exBookBuySell.asks_ = (bestAsk, asks) :: arest ∧
        (∀ p ∈ ledgerKeys exBookBuySell.bids_, p ≤ bestBid) ∧
        (∀ p ∈ ledgerKeys exBookBuySell.asks_, bestAsk ≤ p) ∧ bestBid < bestAsk :=
  C1_AddOrder_leaves_book_uncrossed (Reachable.make_shared _ exBuy_reachable)
    (show (1 : Nat) < exMemBuySell.next by decide) exBuySell_add

/-- C4. `FillAndKill` orders never rest: in every reachable state no order of type
`FillAndKill` is held in a price level of either ledger or referred to by the order index;
and in the book that the matching loop of an `AddOrder` call leaves for the clean-up, every
`FillAndKill` order is the front order of the best bid level or of the best ask level, which
are the two orders the clean-up inspects. -/
theorem C4_FillAndKill_never_rests {h : Memory} {b : Orderbook} (r : Reachable h b) :
    (∀ p ∈ b.ptrs, (h.cell p).GetOrderType ≠ OrderType.FillAndKill) ∧
    (∀ e ∈ b.orders_, (h.cell e.2.order_).GetOrderType ≠ OrderType.FillAndKill) ∧
    (∀ order, order < h.next → ¬ b.Rejects h order →
      ∃ h' b' trades,
        Orderbook.outerLoop ((b.insertOrder h order).ledgerCount + 1) h (b.insertOrder h order) [] =
          Run.done (h', b', trades) ∧
        ∀ p ∈ b'.ptrs, (h'.cell p).GetOrderType = OrderType.FillAndKill →
          (∃ k l rest, b'.bids_ = (k, p :: l) :: rest) ∨
            (∃ k l rest, b'.asks_ = (k, p :: l) :: rest)) := by
  refine ⟨r.noKill, fun e he => r.noKill _ (r.base.1.live e he).1, ?_⟩
  intro order ha hr
  have hk : indexContains b.orders_ (h.cell order).orderId_ = false := by
    simp only [Orderbook.Rejects, not_or] at hr
    simpa [Order.GetOrderId] using hr.1
  have v0 := r.base.1.of_insertOrder hk ha
  obtain ⟨h1, b1, tr1, e1, s, -, -, -⟩ := MatchOrders_total v0
  exact ⟨h1, b1, tr1, e1, killAtFront_steps s v0 (killAtFront_insertOrder r.base.1 r.base.2 r.noKill hr)⟩

theorem exSellKill3_reachable : Reachable exMemSellKill3After exBookSell :=
  @Reachable.AddOrder exMemSellKill3 exBookSell 1 exMemSellKill3After exBookSell
    [{ bidTrade_ := ⟨2, 10, 3⟩, askTrade_ := ⟨1, 10, 3⟩ }]
    (Reachable.make_shared _
      (@Reachable.AddOrder (Memory.init.make_shared
          (Order.new OrderType.GoodTillCancel 1 Side.Sell 10 5)).1 Orderbook.empty 0 _ _ []
        (Reachable.make_shared _ (Reachable.empty Memory.init)) (by decide) rfl))
    (by decide) rfl

theorem C4_witness :
    Reachable exMemSellKill3After exBookSell ∧
    (∀ p ∈ exBookSell.ptrs, (exMemSellKill3After.cell p).GetOrderType ≠ OrderType.FillAndKill) :=
  ⟨exSellKill3_reachable, (C4_FillAndKill_never_rests exSellKill3_reachable).1⟩

/-- C5. For every book and every `FillAndKill` order whose side and price do not satisfy
`CanMatch` on that book, `AddOrder` returns the empty trade list and leaves the ledgers,
the order index and the order objects unchanged. -/
theorem C5_unmatchable_FillAndKill_rejected (h : Memory) (b : Orderbook) (order : OrderPointer)
    (hType : (h.cell order).GetOrderType = OrderType.FillAndKill)
    (hCan : b.CanMatch (h.cell order).GetSide (h.cell order).GetPrice = false) :
    Orderbook.AddOrder h b order = Run.done (h, b, []) := by
  unfold Orderbook.AddOrder
  by_cases hc : indexContains b.orders_ (h.cell order).GetOrderId = true
  · simp [hc]
  · simp [hc, hType, hCan]

theorem C5_witness :
    (exMemKill.cell 0).GetOrderType = OrderType.FillAndKill ∧
    Orderbook.empty.CanMatch (exMemKill.cell 0).GetSide (exMemKill.cell 0).GetPrice = false ∧
    Orderbook.AddOrder exMemKill Orderbook.empty 0 = Run.done (exMemKill, Orderbook.empty, []) :=
  ⟨by decide, by decide, C5_unmatchable_FillAndKill_rejected exMemKill Orderbook.empty 0
    (by decide) (by decide)⟩

/-- C6. For every book and every order whose identity is already in the order index,
`AddOrder` returns the empty trade list and leaves the bid ledger, the ask ledger, the
order index and the order objects unchanged, whatever the order's side, type, price and
quantity. -/
theorem C6_duplicate_identity_rejected (h : Memory) (b : Orderbook) (order : OrderPointer)
    (hc : indexContains b.orders_ (h.cell order).GetOrderId = true) :
    Orderbook.AddOrder h b order = Run.done (h, b, []) := by
  unfold Orderbook.AddOrder
  simp [hc]

theorem C6_witness :
    indexContains exBookSell.orders_ (exMemSellKill.cell 0).GetOrderId = true ∧
    Orderbook.AddOrder exMemSellKill exBookSell 0 = Run.done (exMemSellKill, exBookSell, []) :=
  ⟨by decide, C6_duplicate_identity_rejected exMemSellKill exBookSell 0 (by decide)⟩

/-- C7 (the code at the claim's own input). After `AddOrder` of the `GoodTillCancel` Buy
order 1 at price 10 for 5 to the empty book, `CancelOrder(1)` does not remove the level: the
handle stored for the order is the past-the-end iterator, and the call ends in the fault
of `erase`. -/
theorem C7_cancel_of_only_bid_faults :
    Orderbook.AddOrder exMemBuy Orderbook.empty 0 = Run.done (exMemBuy, exBookBuy, []) ∧
    Orderbook.CancelOrder exMemBuy exBookBuy 1 = Run.fault :=
  ⟨rfl, by decide⟩

/-- Were the stored handle the order's own node, `CancelOrder` of the only Buy order at a
price would still leave the emptied level in the bid ledger: line 292 erases the price from
`asks_`. -/
theorem CancelOrder_buy_keeps_emptied_level :
    Orderbook.CancelOrder exMemBuy exBookBuyNode 1 =
      Run.done { bids_ := [(10, [])], asks_ := [], orders_ := [] } := by
  decide

/-- The loop of `MatchOrders` ends normally on every book that satisfies the structural
invariant, with the same result for every amount of fuel of at least `ledgerCount + 1`. -/
theorem matching_loop_terminates {h : Memory} {b : Orderbook} (v : Base h b) :
    ∃ h' b' trades, ∀ n, b.ledgerCount + 1 ≤ n →
      Orderbook.outerLoop n h b [] = Run.done (h', b', trades) := by
  obtain ⟨h', b', tr, e, -⟩ := outerLoop_total (b.ledgerCount + 1) h b [] v (Nat.lt_succ_self _)
  exact ⟨h', b', tr, fun n hn => outerLoop_mono_le hn e⟩

/-- One iteration of the outer loop from a book that satisfies the structural invariant and
whose best bid is not below its best ask ends normally and leaves strictly fewer orders in
the ledgers. -/
theorem outer_iteration_decreases {h : Memory} {b : Orderbook} (v : Base h b)
    {bp ap : Price} {bl al : OrderPointers} {brest arest : Ledger}
    (hb : b.bids_ = (bp, bl) :: brest) (ha : b.asks_ = (ap, al) :: arest) (hx : ¬ bp < ap)
    (tr : Trades) {n : Nat} (hn : b.ledgerCount < n) :
    ∃ h' b' tr', Orderbook.innerLoop n h b bp ap tr = Run.done (h', b', tr') ∧
      b'.ledgerCount < b.ledgerCount := by
  have hob : HeadOrAbsent bp b.bids_ := by
    rw [hb]; exact HeadOrAbsent.of_sorted_gt (hb ▸ v.bidsSorted)
  have hoa : HeadOrAbsent ap b.asks_ := by
    rw [ha]; exact HeadOrAbsent.of_sorted_lt (ha ▸ v.asksSorted)
  obtain ⟨h1, b1, tr1, e1, -, c1⟩ := innerLoop_total bp ap n h b tr v hob hoa hx hn
  exact ⟨h1, b1, tr1, e1, c1 ⟨by simp [hb, ledgerKeys], by simp [ha, ledgerKeys]⟩⟩

/-- `AddOrder` never runs forever from a reachable state. -/
theorem AddOrder_not_outOfFuel {h : Memory} {b : Orderbook} (r : Reachable h b)
    {order : OrderPointer} (ha : order < h.next) :
    Orderbook.AddOrder h b order ≠ Run.outOfFuel := by
  by_cases hr : b.Rejects h order
  · rw [AddOrder_rejects hr]; exact fun hc => by cases hc
  · rw [AddOrder_accepts hr]
    have hk : indexContains b.orders_ (h.cell order).orderId_ = false := by
      simp only [Orderbook.Rejects, not_or] at hr
      simpa [Order.GetOrderId] using hr.1
    obtain ⟨h1, b1, tr1, -, -, -, -, hm⟩ := MatchOrders_total (r.base.1.of_insertOrder hk ha)
    rcases hm with hm | ⟨hm, -, -⟩ <;> rw [hm] <;> exact fun hc => by cases hc

/-- On a book with an empty level at the best bid and a best ask that it crosses, the outer
loop of `MatchOrders` makes no progress, whatever the fuel. -/
theorem outerLoop_spins_on_empty_level (h : Memory) (tr : Trades) :
    ∀ n, Orderbook.outerLoop n h exBookEmptyLevel tr = Run.outOfFuel := by
  intro n
  induction n with
  | zero => rfl
  | succ n ih =>
    rw [Orderbook.outerLoop]
    simp only [exBookEmptyLevel, lt_self_iff_false, if_false]
    have : Orderbook.innerLoop (n + 1) h exBookEmptyLevel 10 10 tr =
        Run.done (h, exBookEmptyLevel, tr) := by
      simp [Orderbook.innerLoop, exBookEmptyLevel, levelRef, mapAt]
    simp only [exBookEmptyLevel] at this ih
    rw [this]
    exact ih

/-- C9 (the code at a failing input). With the `GoodTillCancel` Sell order 1 at 10 for 5
resting, `AddOrder` of the `FillAndKill` Buy order 2 at 10 for 10 does not return: the
loop ends after one trade, and the clean-up's `CancelOrder(2)` ends in the fault of
`erase` at the past-the-end handle. -/
theorem C9_AddOrder_of_leftover_FillAndKill_faults :
    Reachable exMemSellKill exBookSell ∧ 1 < exMemSellKill.next ∧
    Orderbook.AddOrder exMemSellKill exBookSell 1 = Run.fault :=
  ⟨exSell_reachable, by decide, rfl⟩

theorem int_wrap_roundtrip (p : Int) (h1 : -2147483648 ≤ p) (h2 : p < 2147483648) :
    (if (p % 18446744073709551616).toNat % 4294967296 < 2147483648
      then (((p % 18446744073709551616).toNat % 4294967296 : Nat) : Int)
      else (((p % 18446744073709551616).toNat % 4294967296 : Nat) : Int) - 4294967296) = p := by
  split <;> omega

theorem price_roundtrip (p : Int) (h1 : -2 ^ 31 ≤ p) (h2 : p < 2 ^ 31) :
    orderIdToPrice (priceToOrderId p) = p :=
  int_wrap_roundtrip p h1 h2

theorem nat_wrap_roundtrip (q : Nat) (hq : q < 4294967296) :
    q % 18446744073709551616 % 4294967296 = q := by
  omega

theorem quantity_roundtrip (q : Nat) (hq : q < 2 ^ 32) : orderIdToQuantity (q % 2 ^ 64) = q :=
  nat_wrap_roundtrip q hq

theorem addOrder_first_bid (h0 : Memory) (a : OrderId) (p : Price) (q1 : Nat) (hq1 : q1 < 2 ^ 32) :
    Orderbook.AddOrder (h0.make_shared (Order.new OrderType.GoodTillCancel a Side.Buy p q1)).1
        Orderbook.empty h0.next =
      Run.done ((h0.make_shared (Order.new OrderType.GoodTillCancel a Side.Buy p q1)).1,
        bookOneBid a p h0.next, []) ∧
    Orderbook.GetOrderInfos (h0.make_shared (Order.new OrderType.GoodTillCancel a Side.Buy p q1)).1
      (bookOneBid a p h0.next) = { bids_ := [⟨p, q1⟩], asks_ := [] } := by
  constructor
  · simp [Orderbook.AddOrder, Memory.make_shared, Order.new, Orderbook.empty, indexContains,
      Order.GetOrderId, Order.GetOrderType, Orderbook.MatchOrders, Orderbook.insertOrder,
      Order.GetSide, Order.GetPrice, mapIndex, levelRef, mapAt, mapAssign, stdNext, indexInsert,
      Orderbook.outerLoop, Orderbook.ledgerCount, ledgerSize, Orderbook.cancelFrontFillAndKill,
      bookOneBid]
  · simp only [Orderbook.GetOrderInfos, CreateLevelInfos, Memory.make_shared, Order.new,
      Order.GetRemainingQuantity, bookOneBid, List.map_cons, List.map_nil, List.foldl_cons,
      List.foldl_nil, if_true, Nat.zero_add]
    rw [show q1 % 2 ^ 64 % 2 ^ 32 = q1 from nat_wrap_roundtrip q1 hq1]

theorem addOrder_crossing_ask (h0 : Memory) (a b : OrderId) (p s : Price) (q1 q2 : Nat)
    (hab : a ≠ b) (hsp : s ≤ p) (hq1 : q1 < 2 ^ 32) (hq2 : q2 < 2 ^ 32) :
    Run.map (fun r => (r.2.2, Orderbook.GetOrderInfos r.1 r.2.1)) (Orderbook.AddOrder
      ((h0.make_shared (Order.new OrderType.GoodTillCancel a Side.Buy p q1)).1.make_shared
        (Order.new OrderType.GoodTillCancel b Side.Sell s q2)).1
        (bookOneBid a p h0.next) (h0.next + 1)) =
      Run.done ([{ bidTrade_ := ⟨a, p, min q1 q2⟩, askTrade_ := ⟨b, s, min q1 q2⟩ }],
        { bids_ := if q2 < q1 then [⟨p, q1 - q2⟩] else [],
          asks_ := if q1 < q2 then [⟨s, q2 - q1⟩] else [] }) := by
  have hne : ¬ (p < s) := not_lt.mpr hsp
  rcases Nat.lt_trichotomy q1 q2 with hlt | heq | hgt
  · have hm : min q1 q2 = q1 := Nat.min_eq_left (Nat.le_of_lt hlt)
    have h2 : ¬ (q2 - q1 = 0) := by omega
    have h3 : ¬ (q2 < q1) := by omega
    have h4 : (q2 - q1) % 18446744073709551616 % 4294967296 = q2 - q1 := by omega
    simp [Orderbook.AddOrder, Memory.make_shared, Order.new, indexContains,
      Order.GetOrderId, Order.GetOrderType, Orderbook.MatchOrders, Orderbook.insertOrder,
      Order.GetSide, Order.GetPrice, mapIndex, levelRef, mapAt, mapAssign, stdNext, indexInsert,
      Orderbook.outerLoop, Orderbook.ledgerCount, ledgerSize, Orderbook.cancelFrontFillAndKill,
      Orderbook.innerLoop, hab, hne, matchQuantity, Order.Fill, Order.GetRemainingQuantity,
      Memory.write, Order.IsFilled, indexErase, mapErase, Run.map, hm, h2, h3, hlt,
      Orderbook.GetOrderInfos, CreateLevelInfos, h4, bookOneBid]
  · subst heq
    have h4 : ¬ (q1 < q1) := by omega
    simp [Orderbook.AddOrder, Memory.make_shared, Order.new, indexContains,
      Order.GetOrderId, Order.GetOrderType, Orderbook.MatchOrders, Orderbook.insertOrder,
      Order.GetSide, Order.GetPrice, mapIndex, levelRef, mapAt, mapAssign, stdNext, indexInsert,
      Orderbook.outerLoop, Orderbook.ledgerCount, ledgerSize, Orderbook.cancelFrontFillAndKill,
      Orderbook.innerLoop, hab, hne, matchQuantity, Order.Fill, Order.GetRemainingQuantity,
      Memory.write, Order.IsFilled, indexErase, mapErase, Run.map,
      Orderbook.GetOrderInfos, CreateLevelInfos, bookOneBid]
  · have hm : min q1 q2 = q2 := Nat.min_eq_right (Nat.le_of_lt hgt)
    have h2 : ¬ (q1 - q2 = 0) := by omega
    have h3 : ¬ (q1 < q2) := by omega
    have h4 : (q1 - q2) % 18446744073709551616 % 4294967296 = q1 - q2 := by omega
    simp [Orderbook.AddOrder, Memory.make_shared, Order.new, indexContains,
      Order.GetOrderId, Order.GetOrderType, Orderbook.MatchOrders, Orderbook.insertOrder,
      Order.GetSide, Order.GetPrice, mapIndex, levelRef, mapAt, mapAssign, stdNext, indexInsert,
      Orderbook.outerLoop, Orderbook.ledgerCount, ledgerSize, Orderbook.cancelFrontFillAndKill,
      Orderbook.innerLoop, hab, hne, matchQuantity, Order.Fill, Order.GetRemainingQuantity,
      Memory.write, Order.IsFilled, indexErase, mapErase, Run.map, hm, h2, h3, hgt,
      Orderbook.GetOrderInfos, CreateLevelInfos, h4, bookOneBid]

/-- C3. From the empty book, for identities `a ≠ b`, prices `s ≤ p` and quantities
`q1, q2 > 0` (32-bit): `AddOrder` of the `GoodTillCancel` Buy `(a, p, q1)` returns no
trades and the snapshot is bids = [(p, q1)], asks = []; then `AddOrder` of the
`GoodTillCancel` Sell `(b, s, q2)` returns exactly one trade, whose bid part is
`(a, p, min q1 q2)` and whose ask part is `(b, s, min q1 q2)`; and when `q1 > q2` the
snapshot afterwards is bids = [(p, q1 - q2)], asks = []. -/
theorem C3_buy_then_crossing_sell (h0 : Memory) (a b : OrderId) (p s : Price) (q1 q2 : Nat)
    (hab : a ≠ b) (hsp : s ≤ p) (_hp1 : 0 < q1) (_hp2 : 0 < q2) (hq1 : q1 < 2 ^ 32)
    (hq2 : q2 < 2 ^ 32) :
    Orderbook.AddOrder (h0.make_shared (Order.new OrderType.GoodTillCancel a Side.Buy p q1)).1
        Orderbook.empty (h0.make_shared (Order.new OrderType.GoodTillCancel a Side.Buy p q1)).2 =
      Run.done ((h0.make_shared (Order.new OrderType.GoodTillCancel a Side.Buy p q1)).1,
        bookOneBid a p h0.next, []) ∧
    Orderbook.GetOrderInfos (h0.make_shared (Order.new OrderType.GoodTillCancel a Side.Buy p q1)).1
      (bookOneBid a p h0.next) = { bids_ := [⟨p, q1⟩], asks_ := [] } ∧
    Run.map (fun r => r.2.2) (Orderbook.AddOrder
      ((h0.make_shared (Order.new OrderType.GoodTillCancel a Side.Buy p q1)).1.make_shared
        (Order.new OrderType.GoodTillCancel b Side.Sell s q2)).1
      (bookOneBid a p h0.next)
      ((h0.make_shared (Order.new OrderType.GoodTillCancel a Side.Buy p q1)).1.make_shared
        (Order.new OrderType.GoodTillCancel b Side.Sell s q2)).2) =
      Run.done [{ bidTrade_ := ⟨a, p, min q1 q2⟩, askTrade_ := ⟨b, s, min q1 q2⟩ }] ∧
    (q1 > q2 →
      Run.map (fun r => Orderbook.GetOrderInfos r.1 r.2.1) (Orderbook.AddOrder
        ((h0.make_shared (Order.new OrderType.GoodTillCancel a Side.Buy p q1)).1.make_shared
          (Order.new OrderType.GoodTillCancel b Side.Sell s q2)).1
        (bookOneBid a p h0.next)
        ((h0.make_shared (Order.new OrderType.GoodTillCancel a Side.Buy p q1)).1.make_shared
          (Order.new OrderType.GoodTillCancel b Side.Sell s q2)).2) =
        Run.done { bids_ := [⟨p, q1 - q2⟩], asks_ := [] }) := by
  have s1 := addOrder_first_bid h0 a p q1 hq1
  have s2 := addOrder_crossing_ask h0 a b p s q1 q2 hab hsp hq1 hq2
  refine ⟨s1.1, s1.2, ?_, ?_⟩
  · show Run.map (fun r => r.2.2) (Orderbook.AddOrder _ (bookOneBid a p h0.next) (h0.next + 1)) = _
    cases hr : Orderbook.AddOrder
      ((h0.make_shared (Order.new OrderType.GoodTillCancel a Side.Buy p q1)).1.make_shared
        (Order.new OrderType.GoodTillCancel b Side.Sell s q2)).1
      (bookOneBid a p h0.next) (h0.next + 1) with
    | done r =>
      rw [hr] at s2
      simp only [Run.map, Run.done.injEq, Prod.mk.injEq] at s2 ⊢
      exact s2.1
    | fault => rw [hr] at s2; cases s2
    | outOfFuel => rw [hr] at s2; cases s2
  · intro hgt
    show Run.map (fun r => Orderbook.GetOrderInfos r.1 r.2.1)
      (Orderbook.AddOrder _ (bookOneBid a p h0.next) (h0.next + 1)) = _
    cases hr : Orderbook.AddOrder
      ((h0.make_shared (Order.new OrderType.GoodTillCancel a Side.Buy p q1)).1.make_shared
        (Order.new OrderType.GoodTillCancel b Side.Sell s q2)).1
      (bookOneBid a p h0.next) (h0.next + 1) with
    | done r =>
      rw [hr] at s2
      simp only [Run.map, Run.done.injEq, Prod.mk.injEq] at s2 ⊢
      rw [s2.2]
      have h1 : q2 < q1 := hgt
      have h2 : ¬ q1 < q2 := by omega
      simp [h1, h2]
    | fault => rw [hr] at s2; cases s2
    | outOfFuel => rw [hr] at s2; cases s2

theorem C3_witness :
    ((1 : OrderId) ≠ 2 ∧ (10 : Price) ≤ 10 ∧ 0 < 5 ∧ 0 < 3 ∧ 5 < 2 ^ 32 ∧ 3 < 2 ^ 32) ∧
    (Orderbook.AddOrder (Memory.init.make_shared (Order.new OrderType.GoodTillCancel 1 Side.Buy 10 5)).1
        Orderbook.empty (Memory.init.make_shared (Order.new OrderType.GoodTillCancel 1 Side.Buy 10 5)).2 =
      Run.done ((Memory.init.make_shared (Order.new OrderType.GoodTillCancel 1 Side.Buy 10 5)).1,
        bookOneBid 1 10 Memory.init.next, []) ∧
    Orderbook.GetOrderInfos (Memory.init.make_shared (Order.new OrderType.GoodTillCancel 1 Side.Buy 10 5)).1
      (bookOneBid 1 10 Memory.init.next) = { bids_ := [⟨10, 5⟩], asks_ := [] } ∧
    Run.map (fun r => r.2.2) (Orderbook.AddOrder
      ((Memory.init.make_shared (Order.new OrderType.GoodTillCancel 1 Side.Buy 10 5)).1.make_shared
        (Order.new OrderType.GoodTillCancel 2 Side.Sell 10 3)).1
      (bookOneBid 1 10 Memory.init.next)
      ((Memory.init.make_shared (Order.new OrderType.GoodTillCancel 1 Side.Buy 10 5)).1.make_shared
        (Order.new OrderType.GoodTillCancel 2 Side.Sell 10 3)).2) =
      Run.done [{ bidTrade_ := ⟨1, 10, min 5 3⟩, askTrade_ := ⟨2, 10, min 5 3⟩ }] ∧
    (5 > 3 →
      Run.map (fun r => Orderbook.GetOrderInfos r.1 r.2.1) (Orderbook.AddOrder
        ((Memory.init.make_shared (Order.new OrderType.GoodTillCancel 1 Side.Buy 10 5)).1.make_shared
          (Order.new OrderType.GoodTillCancel 2 Side.Sell 10 3)).1
        (bookOneBid 1 10 Memory.init.next)
        ((Memory.init.make_shared (Order.new OrderType.GoodTillCancel 1 Side.Buy 10 5)).1.make_shared
          (Order.new OrderType.GoodTillCancel 2 Side.Sell 10 3)).2) =
        Run.done { bids_ := [⟨10, 5 - 3⟩], asks_ := [] })) :=
  ⟨⟨by decide, by decide, by decide, by decide, by decide, by decide⟩,
    C3_buy_then_crossing_sell Memory.init 1 2 10 10 5 3 (by decide) (by decide) (by decide)
      (by decide) (by decide) (by decide)⟩

theorem indexContains_of_indexAt {m : OrderIndex} {k : OrderId} {e : OrderEntry}
    (he : indexAt m k = some e) : indexContains m k = true := by
  rw [indexContains_iff]
  exact List.mem_map_of_mem Prod.fst (indexAt_mem he)

/-- `MatchOrder` is `CancelOrder` followed by `AddOrder` on every book whose index entry
for the identity holds an order with that identity. -/
theorem MatchOrder_eq_cancelThenAdd (h : Memory) (b : Orderbook) (orderId : OrderId)
    (entry : OrderEntry) (he : indexAt b.orders_ orderId = some entry)
    (hid : (h.cell entry.order_).GetOrderId = orderId)
    (side : Side) (price : Int) (quantity : Nat)
    (hp1 : -2 ^ 31 ≤ price) (hp2 : price < 2 ^ 31) (hq : quantity < 2 ^ 32) :
    Orderbook.MatchOrder h b
        { orderId_ := orderId, price_ := price, side_ := side, quantity_ := quantity } =
      cancelThenAdd h b (h.cell entry.order_).GetOrderType orderId side price quantity := by
  unfold Orderbook.MatchOrder cancelThenAdd
  simp only [OrderModify.GetOrderId, indexContains_of_indexAt he, Bool.not_true,
    Bool.false_eq_true, if_false, he, hid, OrderModify.ToOrderPointer, OrderModify.GetSide,
    OrderModify.GetPrice, OrderModify.GetQuantity, price_roundtrip price hp1 hp2,
    quantity_roundtrip quantity hq]

/-- With the order's own node as handle, the modification of scenario 4 of the spec
(Buy 1 at 10 for 5 moved to price 9) cancels the order, and the following `AddOrder` ends in
the fault of `front()` on the emptied level at 10 that line 292 leaves in `bids_`. -/
theorem MatchOrder_with_node_handle :
    Run.map (fun r => (r.2.1.bids_, r.2.1.asks_, r.2.2))
      (Orderbook.MatchOrder exMemBuy exBookBuyNode
        { orderId_ := 1, price_ := 9, side_ := Side.Buy, quantity_ := 5 }) =
      Run.fault := by
  decide

/-- What one pass of the loop body does to the two front orders, to the other orders and
to the ledgers. -/
theorem matchFront_account {h : Memory} {b : Orderbook} (v : Base h b) {h2 : Memory}
    {b2 : Orderbook} {t : Trade} (hm : b.matchFront h = some (h2, b2, t)) :
    ∃ bp bid bl brest ap ask al arest,
      b.bids_ = (bp, bid :: bl) :: brest ∧ b.asks_ = (ap, ask :: al) :: arest ∧ bid ≠ ask ∧
      t = { bidTrade_ := ⟨(h.cell bid).orderId_, (h.cell bid).price_,
              min (h.cell bid).remainingQuantity_ (h.cell ask).remainingQuantity_⟩,
            askTrade_ := ⟨(h.cell ask).orderId_, (h.cell ask).price_,
              min (h.cell bid).remainingQuantity_ (h.cell ask).remainingQuantity_⟩ } ∧
      h2.cell bid = (h.cell bid).withRemaining ((h.cell bid).remainingQuantity_ -
        min (h.cell bid).remainingQuantity_ (h.cell ask).remainingQuantity_) ∧
      h2.cell ask = (h.cell ask).withRemaining ((h.cell ask).remainingQuantity_ -
        min (h.cell bid).remainingQuantity_ (h.cell ask).remainingQuantity_) ∧
      (∀ p, p ≠ bid → p ≠ ask → h2.cell p = h.cell p) ∧
      b2.bids_ = (if (h.cell bid).remainingQuantity_ ≤ (h.cell ask).remainingQuantity_
        then popFront b.bids_ else b.bids_) ∧
      b2.asks_ = (if (h.cell ask).remainingQuantity_ ≤ (h.cell bid).remainingQuantity_
        then popFront b.asks_ else b.asks_) := by
  obtain ⟨bp, bid, bl, brest, ap, ask, al, arest, hb, ha, e1, e2, e3⟩ := matchFront_eq hm
  have hne := v.front_ne hb ha
  have hbid : h2.cell bid = (h.cell bid).withRemaining ((h.cell bid).remainingQuantity_ -
      min (h.cell bid).remainingQuantity_ (h.cell ask).remainingQuantity_) := by
    rw [e1, write_cell_other _ _ hne, write_cell_same]; rfl
  have hask : h2.cell ask = (h.cell ask).withRemaining ((h.cell ask).remainingQuantity_ -
      min (h.cell bid).remainingQuantity_ (h.cell ask).remainingQuantity_) := by
    rw [e1, write_cell_same]; rfl
  have fb : (h2.cell bid).IsFilled = true ↔
      (h.cell bid).remainingQuantity_ ≤ (h.cell ask).remainingQuantity_ := by
    rw [hbid]
    simp only [Order.IsFilled, Order.GetRemainingQuantity, Order.withRemaining, beq_iff_eq]
    constructor
    · intro hz
      rcases Nat.le_total (h.cell bid).remainingQuantity_ (h.cell ask).remainingQuantity_ with c | c
      · exact c
      · rw [Nat.min_eq_right c] at hz
        exact Nat.le_of_sub_eq_zero hz
    · intro c
      rw [Nat.min_eq_left c]; exact Nat.sub_self _
  have fa : (h2.cell ask).IsFilled = true ↔
      (h.cell ask).remainingQuantity_ ≤ (h.cell bid).remainingQuantity_ := by
    rw [hask]
    simp only [Order.IsFilled, Order.GetRemainingQuantity, Order.withRemaining, beq_iff_eq]
    constructor
    · intro hz
      rcases Nat.le_total (h.cell bid).remainingQuantity_ (h.cell ask).remainingQuantity_ with c | c
      · rw [Nat.min_eq_left c] at hz
        exact Nat.le_of_sub_eq_zero hz
      · exact c
    · intro c
      rw [Nat.min_eq_right c]; exact Nat.sub_self _
  refine ⟨bp, bid, bl, brest, ap, ask, al, arest, hb, ha, hne, ?_, hbid, hask, ?_, ?_, ?_⟩
  · rw [e3, hbid, hask]
    rfl
  · intro p h1 h2'
    rw [e1, write_cell_other _ _ h2', write_cell_other _ _ h1]
  · rw [e2]
    by_cases c1 : (h2.cell bid).IsFilled = true <;> by_cases c2 : (h2.cell ask).IsFilled = true
    · simp only [c1, c2, if_true, if_pos (fb.mp c1)]
    · simp only [c1, c2, if_true, Bool.false_eq_true, if_false, if_pos (fb.mp c1)]
    · simp only [c1, c2, if_true, Bool.false_eq_true, if_false, if_neg (fun hc => c1 (fb.mpr hc))]
    · simp only [c1, c2, Bool.false_eq_true, if_false, if_neg (fun hc => c1 (fb.mpr hc))]
  · rw [e2]
    by_cases c1 : (h2.cell bid).IsFilled = true <;> by_cases c2 : (h2.cell ask).IsFilled = true
    · simp only [c1, c2, if_true, if_pos (fa.mp c2)]
    · simp only [c1, c2, if_true, Bool.false_eq_true, if_false, if_neg (fun hc => c2 (fa.mpr hc))]
    · simp only [c1, c2, if_true, Bool.false_eq_true, if_false, if_pos (fa.mp c2)]
    · simp only [c1, c2, Bool.false_eq_true, if_false, if_neg (fun hc => c2 (fa.mpr hc))]

theorem tradedQuantity_append (T : Trades) (t : Trade) (side : Side) (orderId : OrderId) :
    tradedQuantity (T ++ [t]) side orderId = tradedQuantity T side orderId + t.quantityFor side orderId := by
  simp [tradedQuantity]

theorem tradedQuantity_append_list (T T' : Trades) (side : Side) (orderId : OrderId) :
    tradedQuantity (T ++ T') side orderId =
      tradedQuantity T side orderId + tradedQuantity T' side orderId := by
  simp [tradedQuantity]

theorem balance_step (x r q i : Nat) (hb : x + r = i) (hq : q ≤ r) : x + q + (r - q) = i := by
  omega

theorem Accounts.after_matchFront {h : Memory} {b : Orderbook} {T : Trades} {A : List OrderPointer}
    (v : Base h b) (c : Accounts h b T A) {h2 : Memory} {b2 : Orderbook} {t : Trade}
    (hm : b.matchFront h = some (h2, b2, t)) : Accounts h2 b2 (T ++ [t]) A := by
  have hs := matchFront_static hm
  obtain ⟨sb, sa⟩ := matchFront_ptrs_subset hm
  obtain ⟨bp, bid, bl, brest, ap, ask, al, arest, hb, ha, hne, ht, hbid, hask, hoth, -, -⟩ :=
    matchFront_account v hm
  have hids : (fun p => (h2.cell p).orderId_) = (fun p => (h.cell p).orderId_) := by
    funext p; exact (hs.2 p).2.1
  have hbidA : bid ∈ A := c.held bid (by simp [Orderbook.ptrs, hb, ledgerPtrs])
  have haskA : ask ∈ A := c.held ask (by simp [Orderbook.ptrs, ha, ledgerPtrs])
  have hsb : (h.cell bid).side_ = Side.Buy := (v.bidsOwn (bp, bid) (by simp [hb, ledgerTagged])).1
  have hsa : (h.cell ask).side_ = Side.Sell := (v.asksOwn (ap, ask) (by simp [ha, ledgerTagged])).1
  have hinj : ∀ o ∈ A, ∀ o' ∈ A, (h.cell o).orderId_ = (h.cell o').orderId_ → o = o' :=
    fun o ho o' ho' e => List.inj_on_of_nodup_map c.distinct ho ho' e
  refine ⟨?_, ?_, ?_, ?_, ?_, ?_, ?_⟩
  · intro p hp
    rcases List.mem_append.mp hp with h1 | h1
    · exact c.held p (List.mem_append.mpr (Or.inl (sb p h1)))
    · exact c.held p (List.mem_append.mpr (Or.inr (sa p h1)))
  · rw [hids]; exact c.distinct
  · intro o ho
    rw [tradedQuantity_append]
    by_cases e1 : o = bid
    · subst e1
      rw [hbid]
      simp only [Order.withRemaining, hsb, ht, Trade.quantityFor, if_true]
      exact balance_step _ _ _ _ (by simpa [hsb] using c.balance o ho) (Nat.min_le_left _ _)
    · by_cases e2 : o = ask
      · subst e2
        rw [hask]
        simp only [Order.withRemaining, hsa, ht, Trade.quantityFor, if_true]
        exact balance_step _ _ _ _ (by simpa [hsa] using c.balance o ho) (Nat.min_le_right _ _)
      · rw [hoth o e1 e2]
        have hz : t.quantityFor (h.cell o).side_ (h.cell o).orderId_ = 0 := by
          rw [ht]
          cases hso : (h.cell o).side_ with
          | Buy =>
            simp only [Trade.quantityFor]
            rw [if_neg]
            exact fun hc => e1 (hinj bid hbidA o ho hc).symm
          | Sell =>
            simp only [Trade.quantityFor]
            rw [if_neg]
            exact fun hc => e2 (hinj ask haskA o ho hc).symm
        rw [hz, Nat.add_zero]
        exact c.balance o ho
  · intro t' ht'
    rw [hids]
    rcases List.mem_append.mp ht' with h1 | h1
    · exact c.named t' h1
    · simp only [List.mem_singleton] at h1
      subst h1
      rw [ht]
      exact ⟨List.mem_map_of_mem _ hbidA, List.mem_map_of_mem _ haskA⟩
  · intro p hp hpA
    rw [hs.1] at hp
    have h1 : p ≠ bid := fun e => hpA (e ▸ hbidA)
    have h2' : p ≠ ask := fun e => hpA (e ▸ haskA)
    rw [hoth p h1 h2']
    exact c.untouched p hp hpA
  · intro p hp
    rw [hs.1] at hp
    rw [(hs.2 p).2.2.2.2]
    exact c.bounded p hp
  · intro o ho
    rw [hs.1]; exact c.allocated o ho

theorem Accounts.after_steps {T : Trades} {A : List OrderPointer} {h : Memory} {b : Orderbook}
    {tr : Trades} {h' : Memory} {b' : Orderbook} {tr' : Trades} (s : Steps h b tr h' b' tr')
    (v : Base h b) (c : Accounts h b (T ++ tr) A) : Accounts h' b' (T ++ tr') A := by
  induction s with
  | refl => exact c
  | step _ hm _ ih =>
    refine ih (v.of_matchFront hm) ?_
    rw [← List.append_assoc]
    exact c.after_matchFront v hm

theorem traded_zero_of_unnamed {T : Trades} {ids : List OrderId} {orderId : OrderId}
    (hn : ∀ t ∈ T, t.bidTrade_.orderId_ ∈ ids ∧ t.askTrade_.orderId_ ∈ ids)
    (hid : orderId ∉ ids) (side : Side) : tradedQuantity T side orderId = 0 := by
  induction T with
  | nil => rfl
  | cons t T ih =>
    have h1 := hn t (List.mem_cons_self _ _)
    have h2 := ih (fun t' ht' => hn t' (List.mem_cons_of_mem _ ht'))
    simp only [tradedQuantity, List.map_cons, List.sum_cons] at h2 ⊢
    rw [h2, Nat.add_zero]
    cases side with
    | Buy =>
      simp only [Trade.quantityFor]
      rw [if_neg]
      exact fun hc => hid (hc ▸ h1.1)
    | Sell =>
      simp only [Trade.quantityFor]
      rw [if_neg]
      exact fun hc => hid (hc ▸ h1.2)

theorem Accounts.after_insertOrder {h : Memory} {b : Orderbook} {T : Trades} {A : List OrderPointer}
    (c : Accounts h b T A) {order : OrderPointer} (ha : order < h.next)
    (hid : (h.cell order).orderId_ ∉ A.map (fun p => (h.cell p).orderId_)) :
    Accounts h (b.insertOrder h order) T (order :: A) := by
  have hnA : order ∉ A := fun hc => hid (List.mem_map_of_mem _ hc)
  refine ⟨?_, ?_, ?_, ?_, ?_, c.bounded, ?_⟩
  · intro p hp
    rcases insertOrder_mem_ptrs hp with e | e
    · exact e ▸ List.mem_cons_self _ _
    · exact List.mem_cons_of_mem _ (c.held p e)
  · simp only [List.map_cons, List.nodup_cons]
    exact ⟨hid, c.distinct⟩
  · intro o ho
    rcases List.mem_cons.mp ho with e | e
    · subst e
      rw [traded_zero_of_unnamed c.named hid, Nat.zero_add]
      exact c.untouched o ha hnA
    · exact c.balance o e
  · intro t ht
    obtain ⟨h1, h2⟩ := c.named t ht
    simp only [List.map_cons, List.mem_cons]
    exact ⟨Or.inr h1, Or.inr h2⟩
  · intro p hp hpA
    exact c.untouched p hp (fun hc => hpA (List.mem_cons_of_mem _ hc))
  · intro o ho
    rcases List.mem_cons.mp ho with e | e
    · exact e ▸ ha
    · exact c.allocated o e

theorem Accounts.after_make_shared {h : Memory} {b : Orderbook} {T : Trades} {A : List OrderPointer}
    (c : Accounts h b T A) (type : OrderType) (orderId : OrderId) (side : Side) (price : Price)
    (quantity : Quantity) (hq : quantity < 2 ^ 32) :
    Accounts (h.make_shared (Order.new type orderId side price quantity)).1 b T A := by
  have hcell : ∀ p, p < h.next →
      (h.make_shared (Order.new type orderId side price quantity)).1.cell p = h.cell p := by
    intro p hp
    simp only [Memory.make_shared]
    rw [if_neg (Nat.ne_of_lt hp)]
  have hids : A.map (fun p => ((h.make_shared (Order.new type orderId side price quantity)).1.cell p).orderId_) =
      A.map (fun p => (h.cell p).orderId_) :=
    List.map_congr_left (fun p hp => by rw [hcell p (c.allocated p hp)])
  refine ⟨c.held, ?_, ?_, ?_, ?_, ?_, ?_⟩
  · rw [hids]; exact c.distinct
  · intro o ho
    rw [hcell o (c.allocated o ho)]
    exact c.balance o ho
  · rw [hids]; exact c.named
  · intro p hp hpA
    simp only [Memory.make_shared] at hp ⊢
    by_cases e : p = h.next
    · rw [if_pos e]; rfl
    · rw [if_neg e]
      exact c.untouched p (Nat.lt_of_le_of_ne (Nat.lt_succ_iff.mp hp) e) hpA
  · intro p hp
    simp only [Memory.make_shared] at hp ⊢
    by_cases e : p = h.next
    · rw [if_pos e]; exact hq
    · rw [if_neg e]
      exact c.bounded p (Nat.lt_of_le_of_ne (Nat.lt_succ_iff.mp hp) e)
  · intro o ho
    simp only [Memory.make_shared]
    exact Nat.lt_succ_of_lt (c.allocated o ho)

theorem Trace.reachable {h : Memory} {b : Orderbook} {T : Trades} {A : List OrderPointer}
    (tc : Trace h b T A) : Reachable h b := by
  induction tc with
  | empty => exact Reachable.empty _
  | make_shared type orderId side price quantity _ _ ih => exact Reachable.make_shared _ ih
  | rejected _ ha _ e ih => exact Reachable.AddOrder ih ha e
  | accepted _ ha _ _ e ih => exact Reachable.AddOrder ih ha e
  | CancelOrder _ e ih => exact Reachable.CancelOrder ih e

theorem Trace.accounts {h : Memory} {b : Orderbook} {T : Trades} {A : List OrderPointer}
    (tc : Trace h b T A) : Accounts h b T A := by
  induction tc with
  | empty =>
    refine ⟨?_, ?_, ?_, ?_, ?_, ?_, ?_⟩ <;>
      simp [Orderbook.empty, Orderbook.ptrs, ledgerPtrs, Memory.init]
  | make_shared type orderId side price quantity _ hq ih =>
    exact ih.after_make_shared type orderId side price quantity hq
  | rejected _ _ hr e ih =>
    rw [AddOrder_rejects hr] at e
    simp only [Run.done.injEq, Prod.mk.injEq] at e
    obtain ⟨rfl, rfl, rfl⟩ := e
    simpa using ih
  | accepted t0 ha hr hid e ih =>
    rename_i h0 b0 T0 A0 order h1 b1 tr
    rw [AddOrder_accepts hr] at e
    have hk : indexContains b0.orders_ (h0.cell order).orderId_ = false := by
      simp only [Orderbook.Rejects, not_or] at hr
      simpa [Order.GetOrderId] using hr.1
    have v0 := t0.reachable.base.1.of_insertOrder hk ha
    obtain ⟨h2, b2, tr2, -, s, -, -, hm⟩ := MatchOrders_total v0
    rcases hm with hm | ⟨hm, -, -⟩
    · rw [hm] at e; cases e
    · rw [hm] at e
      simp only [Run.done.injEq, Prod.mk.injEq] at e
      obtain ⟨rfl, rfl, rfl⟩ := e
      exact Accounts.after_steps s v0 (by simpa using ih.after_insertOrder ha hid)
  | CancelOrder t0 e ih =>
    rw [CancelOrder_of_handles _ _ _ t0.reachable.base.1.handles] at e
    split at e
    · cases e
    · simp only [Run.done.injEq] at e
      subst e
      exact ih

theorem filled_eq (i r : Nat) (hi : i < 4294967296) (hr : r ≤ i) :
    (i + 4294967296 - r % 4294967296) % 4294967296 = i - r := by
  omega

/-- C10. For every sequence of `AddOrder` and `CancelOrder` calls from the empty book in
which no identity is accepted twice, and every order accepted in it, at every point of the
sequence the quantities of the trades returned so far in which the order's identity appears
on the order's own side sum to the order's filled quantity, `initial - remaining`, which is
what `GetFilledQuantity` returns. -/
theorem C10_trades_sum_to_filled_quantity {h : Memory} {b : Orderbook} {T : Trades}
    {A : List OrderPointer} (tc : Trace h b T A) {o : OrderPointer} (ho : o ∈ A) :
    tradedQuantity T (h.cell o).GetSide (h.cell o).GetOrderId =
      (h.cell o).GetInitialQuantity - (h.cell o).GetRemainingQuantity ∧
    (h.cell o).GetRemainingQuantity ≤ (h.cell o).GetInitialQuantity ∧
    tradedQuantity T (h.cell o).GetSide (h.cell o).GetOrderId = (h.cell o).GetFilledQuantity := by
  have c := tc.accounts
  have hb := c.balance o ho
  have hi := c.bounded o (c.allocated o ho)
  simp only [Order.GetSide, Order.GetOrderId, Order.GetInitialQuantity,
    Order.GetRemainingQuantity, Order.GetFilledQuantity]
  have hle : (h.cell o).remainingQuantity_ ≤ (h.cell o).initialQuantity_ := by
    rw [← hb]; exact Nat.le_add_left _ _
  have h1 : tradedQuantity T (h.cell o).side_ (h.cell o).orderId_ =
      (h.cell o).initialQuantity_ - (h.cell o).remainingQuantity_ := by
    rw [← hb]; exact (Nat.add_sub_cancel _ _).symm
  refine ⟨h1, hle, ?_⟩
  rw [h1]
  exact (filled_eq _ _ hi hle).symm

/-- How a call of `AddOrder` that returns went: the order was rejected and nothing changed,
or it was inserted and the loop ran from the book with the order to a book that is not
crossed. -/
theorem AddOrder_done_cases {h : Memory} {b : Orderbook} (v : Base h b) {order : OrderPointer}
    (ha : order < h.next) {h' : Memory} {b' : Orderbook} {tr : Trades}
    (e : Orderbook.AddOrder h b order = Run.done (h', b', tr)) :
    (h' = h ∧ b' = b ∧ tr = []) ∨
    (¬ b.Rejects h order ∧ Base h (b.insertOrder h order) ∧
      Steps h (b.insertOrder h order) [] h' b' tr ∧ b'.NotCrossed) := by
  by_cases hr : b.Rejects h order
  · rw [AddOrder_rejects hr] at e
    simp only [Run.done.injEq, Prod.mk.injEq] at e
    obtain ⟨rfl, rfl, rfl⟩ := e
    exact Or.inl ⟨rfl, rfl, rfl⟩
  · rw [AddOrder_accepts hr] at e
    have hk : indexContains b.orders_ (h.cell order).orderId_ = false := by
      simp only [Orderbook.Rejects, not_or] at hr
      simpa [Order.GetOrderId] using hr.1
    have v0 := v.of_insertOrder hk ha
    obtain ⟨h1, b1, tr1, -, s, hn1, -, hm⟩ := MatchOrders_total v0
    rcases hm with hm | ⟨hm, -, -⟩
    · rw [hm] at e; cases e
    · rw [hm] at e
      simp only [Run.done.injEq, Prod.mk.injEq] at e
      obtain ⟨rfl, rfl, rfl⟩ := e
      exact Or.inr ⟨hr, v0, s, hn1⟩

theorem exTwoBids_reachable : Reachable exMemTwoBids exBookTwoBids := by
  have r1 : Reachable (exMemBuy.make_shared (Order.new OrderType.GoodTillCancel 4 Side.Buy 10 5)).1
      exBookBuy := Reachable.make_shared _ exBuy_reachable
  have r2 : Reachable (exMemBuy.make_shared (Order.new OrderType.GoodTillCancel 4 Side.Buy 10 5)).1
      exBookTwoBids :=
    @Reachable.AddOrder _ exBookBuy 1 _ exBookTwoBids [] r1 (by decide) rfl
  exact Reachable.make_shared _ r2

theorem exTwoBids_add :
    Orderbook.AddOrder exMemTwoBids exBookTwoBids 2 =
      Run.done (exMemTwoBidsAfter, exBookTwoBidsAfter,
        [{ bidTrade_ := ⟨1, 10, 5⟩, askTrade_ := ⟨5, 10, 5⟩ }]) := rfl

theorem exSellKill3_trace :
    Trace exMemSellKill3After exBookSell [{ bidTrade_ := ⟨2, 10, 3⟩, askTrade_ := ⟨1, 10, 3⟩ }]
      [1, 0] := by
  have t1 : Trace (Memory.init.make_shared (Order.new OrderType.GoodTillCancel 1 Side.Sell 10 5)).1
      Orderbook.empty [] [] :=
    Trace.make_shared OrderType.GoodTillCancel 1 Side.Sell 10 5 Trace.empty (by decide)
  have t2 : Trace (Memory.init.make_shared (Order.new OrderType.GoodTillCancel 1 Side.Sell 10 5)).1
      exBookSell [] [0] :=
    @Trace.accepted _ Orderbook.empty [] [] 0 _ exBookSell [] t1 (by decide)
      (by unfold Orderbook.Rejects; decide) (by simp) rfl
  have t3 : Trace exMemSellKill3 exBookSell [] [0] :=
    Trace.make_shared OrderType.FillAndKill 2 Side.Buy 10 3 t2 (by decide)
  exact @Trace.accepted exMemSellKill3 exBookSell [] [0] 1 exMemSellKill3After exBookSell
    [{ bidTrade_ := ⟨2, 10, 3⟩, askTrade_ := ⟨1, 10, 3⟩ }] t3 (by decide)
    (by unfold Orderbook.Rejects; decide) (by decide) rfl

theorem C10_witness :
    (Trace exMemSellKill3After exBookSell [{ bidTrade_ := ⟨2, 10, 3⟩, askTrade_ := ⟨1, 10, 3⟩ }]
        [1, 0] ∧ 0 ∈ [1, 0]) ∧
    (tradedQuantity [{ bidTrade_ := ⟨2, 10, 3⟩, askTrade_ := ⟨1, 10, 3⟩ }]
        (exMemSellKill3After.cell 0).GetSide (exMemSellKill3After.cell 0).GetOrderId =
      (exMemSellKill3After.cell 0).GetInitialQuantity -
        (exMemSellKill3After.cell 0).GetRemainingQuantity ∧
    (exMemSellKill3After.cell 0).GetRemainingQuantity ≤
      (exMemSellKill3After.cell 0).GetInitialQuantity ∧
    tradedQuantity [{ bidTrade_ := ⟨2, 10, 3⟩, askTrade_ := ⟨1, 10, 3⟩ }]
        (exMemSellKill3After.cell 0).GetSide (exMemSellKill3After.cell 0).GetOrderId =
      (exMemSellKill3After.cell 0).GetFilledQuantity) :=
  ⟨⟨exSellKill3_trace, by decide⟩, C10_trades_sum_to_filled_quantity exSellKill3_trace (by decide)⟩

theorem innerLoop_fault_mono (bp ap : Price) :
    ∀ (n : Nat) (h : Memory) (b : Orderbook) (tr : Trades),
      Orderbook.innerLoop n h b bp ap tr = Run.fault →
      Orderbook.innerLoop (n + 1) h b bp ap tr = Run.fault := by
  intro n
  induction n with
  | zero => intro h b tr e; simp [Orderbook.innerLoop] at e
  | succ n ih =>
    intro h b tr e
    rw [Orderbook.innerLoop] at e ⊢
    cases hb : levelRef b.bids_ bp with
    | nil => rw [hb] at e; exact e
    | cons bid bidsRest =>
      cases ha : levelRef b.asks_ ap with
      | nil => rw [hb, ha] at e; exact e
      | cons ask asksRest =>
        rw [hb, ha] at e
        dsimp only at e ⊢
        cases hf1 : (h.cell bid).Fill (matchQuantity (h.cell bid) (h.cell ask)) with
        | none => rfl
        | some bidFilled =>
          rw [hf1] at e
          dsimp only at e ⊢
          cases hf2 : ((h.write bid bidFilled).cell ask).Fill
              (matchQuantity (h.cell bid) (h.cell ask)) with
          | none => rfl
          | some askFilled =>
            rw [hf2] at e
            exact ih _ _ _ e

theorem outerLoop_fault_mono :
    ∀ (n : Nat) (h : Memory) (b : Orderbook) (tr : Trades),
      Orderbook.outerLoop n h b tr = Run.fault → Orderbook.outerLoop (n + 1) h b tr = Run.fault := by
  intro n
  induction n with
  | zero => intro h b tr e; simp [Orderbook.outerLoop] at e
  | succ n ih =>
    intro h b tr e
    rw [Orderbook.outerLoop] at e ⊢
    cases hb : b.bids_ with
    | nil => rw [hb] at e; exact e
    | cons x brest =>
      obtain ⟨bidPrice, bl⟩ := x
      cases ha : b.asks_ with
      | nil => rw [hb, ha] at e; exact e
      | cons y arest =>
        obtain ⟨askPrice, al⟩ := y
        rw [hb, ha] at e
        dsimp only at e ⊢
        by_cases hlt : bidPrice < askPrice
        · rw [if_pos hlt] at e ⊢; exact e
        · rw [if_neg hlt] at e ⊢
          cases hi : Orderbook.innerLoop (n + 1) h b bidPrice askPrice tr with
          | done x =>
            obtain ⟨h1, b1, tr1⟩ := x
            rw [hi] at e
            rw [innerLoop_mono _ _ _ _ _ _ _ hi]
            exact ih _ _ _ e
          | fault => rw [innerLoop_fault_mono _ _ _ _ _ _ hi]
          | outOfFuel => rw [hi] at e; cases e

theorem outerLoop_fault_mono_le {n m : Nat} (hnm : n ≤ m) {h : Memory} {b : Orderbook}
    {tr : Trades} (e : Orderbook.outerLoop n h b tr = Run.fault) :
    Orderbook.outerLoop m h b tr = Run.fault := by
  induction hnm with
  | refl => exact e
  | step _ ih => exact outerLoop_fault_mono _ _ _ _ ih

/-- On a book that satisfies the structural invariant the loop of `MatchOrders` ends in no
fault, whatever the fuel. -/
theorem outerLoop_never_faults {h : Memory} {b : Orderbook} (v : Base h b) (n : Nat) :
    Orderbook.outerLoop n h b [] ≠ Run.fault := by
  intro e
  obtain ⟨h', b', tr, e', -⟩ := outerLoop_total (b.ledgerCount + 1) h b [] v (Nat.lt_succ_self _)
  have e1 := outerLoop_fault_mono_le (Nat.le_max_left n (b.ledgerCount + 1)) e
  have e2 := outerLoop_mono_le (Nat.le_max_right n (b.ledgerCount + 1)) e'
  rw [e1] at e2
  cases e2

/-- On reachable books `MatchOrder` returns at line 298 or ends in the fault of the
`CancelOrder` call of line 302. -/
theorem MatchOrder_of_reachable {h : Memory} {b : Orderbook} (r : Reachable h b)
    (m : OrderModify) :
    (indexContains b.orders_ m.GetOrderId = false ∧
      Orderbook.MatchOrder h b m = Run.done (h, b, [])) ∨
    (indexContains b.orders_ m.GetOrderId = true ∧
      Orderbook.CancelOrder h b m.GetOrderId = Run.fault ∧
      Orderbook.MatchOrder h b m = Run.fault) := by
  by_cases hc : indexContains b.orders_ m.GetOrderId = true
  · right
    have hcancel : Orderbook.CancelOrder h b m.GetOrderId = Run.fault := by
      rw [CancelOrder_of_handles _ _ _ r.base.1.handles, if_pos hc]
    refine ⟨hc, hcancel, ?_⟩
    unfold Orderbook.MatchOrder
    simp only [hc, Bool.not_true, Bool.false_eq_true, if_false]
    cases he : indexAt b.orders_ m.GetOrderId with
    | none => rfl
    | some entry =>
      simp only
      have hl := r.base.1.live _ (indexAt_mem he)
      simp only at hl
      rw [Order.GetOrderId, hl.2, hcancel]
  · left
    have hc' : indexContains b.orders_ m.GetOrderId = false := by simpa using hc
    refine ⟨hc', ?_⟩
    unfold Orderbook.MatchOrder
    simp [hc']

/-- C11. `Order::Fill` never throws in the matching loop. In every reachable state and for
every order object passed to `AddOrder` that is not rejected: the loop of `MatchOrders`,
run on the book with the order inserted, ends in no fault whatever its fuel, and it ends
normally with the fuel `MatchOrders` gives it; and in every state the loop passes through,
the quantity passed to `bid->Fill` is at most the remaining quantity of the front bid and
the quantity passed to `ask->Fill`, after the bid has been filled, is at most the remaining
quantity of the front ask, so both calls return normally.  `MatchOrder` on a reachable
book either returns at line 298 or ends in the `CancelOrder` call of line 302, before any
`Fill`; the `AddOrder` call of line 304 is covered by the first part. -/
theorem C11_Fill_never_throws {h : Memory} {b : Orderbook} (r : Reachable h b)
    {order : OrderPointer} (ha : order < h.next) (hr : ¬ b.Rejects h order) (m : OrderModify) :
    (∀ n, Orderbook.outerLoop n h (b.insertOrder h order) [] ≠ Run.fault) ∧
    (∃ h' b' trades,
      Orderbook.outerLoop ((b.insertOrder h order).ledgerCount + 1) h (b.insertOrder h order) [] =
        Run.done (h', b', trades)) ∧
    (∀ h1 b1 tr1, Steps h (b.insertOrder h order) [] h1 b1 tr1 →
      ∀ bp bid bl brest ap ask al arest,
        b1.bids_ = (bp, bid :: bl) :: brest → b1.asks_ = (ap, ask :: al) :: arest →
        matchQuantity (h1.cell bid) (h1.cell ask) ≤ (h1.cell bid).GetRemainingQuantity ∧
        ∃ bidFilled askFilled,
          (h1.cell bid).Fill (matchQuantity (h1.cell bid) (h1.cell ask)) = some bidFilled ∧
          matchQuantity (h1.cell bid) (h1.cell ask) ≤
            ((h1.write bid bidFilled).cell ask).GetRemainingQuantity ∧
          ((h1.write bid bidFilled).cell ask).Fill (matchQuantity (h1.cell bid) (h1.cell ask)) =
            some askFilled) ∧
    (Orderbook.MatchOrder h b m = Run.done (h, b, []) ∨
      Orderbook.CancelOrder h b m.GetOrderId = Run.fault) := by
  have hk : indexContains b.orders_ (h.cell order).orderId_ = false := by
    simp only [Orderbook.Rejects, not_or] at hr
    simpa [Order.GetOrderId] using hr.1
  have v0 := r.base.1.of_insertOrder hk ha
  refine ⟨fun n => outerLoop_never_faults v0 n, ?_, ?_, ?_⟩
  · obtain ⟨h1, b1, tr1, e1, -⟩ := MatchOrders_total v0
    exact ⟨h1, b1, tr1, e1⟩
  · intro h1 b1 tr1 s bp bid bl brest ap ask al arest hb hk'
    have v1 := (v0.of_steps s).1
    have hne : ask ≠ bid := Ne.symm (v1.front_ne hb hk')
    refine ⟨Nat.min_le_left _ _,
      (h1.cell bid).withRemaining
        ((h1.cell bid).remainingQuantity_ - matchQuantity (h1.cell bid) (h1.cell ask)),
      (h1.cell ask).withRemaining
        ((h1.cell ask).remainingQuantity_ - matchQuantity (h1.cell bid) (h1.cell ask)),
      Fill_min_left _ _, ?_, ?_⟩
    · rw [write_cell_other _ _ hne]
      exact Nat.min_le_right _ _
    · rw [write_cell_other _ _ hne]
      exact Fill_min_right _ _
  · rcases MatchOrder_of_reachable r m with ⟨-, e⟩ | ⟨-, e, -⟩
    · exact Or.inl e
    · exact Or.inr e

theorem C11_witness :
    (Reachable exMemTwoBids exBookTwoBids ∧ 2 < exMemTwoBids.next ∧
      ¬ exBookTwoBids.Rejects exMemTwoBids 2) ∧
    (∀ n, Orderbook.outerLoop n exMemTwoBids (exBookTwoBids.insertOrder exMemTwoBids 2) [] ≠
      Run.fault) :=
  ⟨⟨exTwoBids_reachable, by decide, by unfold Orderbook.Rejects; decide⟩,
    (C11_Fill_never_throws exTwoBids_reachable (show 2 < exMemTwoBids.next by decide)
      (by unfold Orderbook.Rejects; decide) ⟨1, 9, Side.Buy, 5⟩).1⟩

theorem Fill_some {o o' : Order} {q : Quantity} (e : o.Fill q = some o') :
    q ≤ o.remainingQuantity_ ∧ o' = o.withRemaining (o.remainingQuantity_ - q) := by
  unfold Order.Fill at e
  split at e
  · cases e
  · rename_i hq
    simp only [Option.some.injEq] at e
    exact ⟨Nat.not_lt.mp hq, e.symm⟩

/-- A sequence of `Fill` calls changes only the remaining quantity, and lowers it by the sum
of the quantities of the calls that did not throw. -/
theorem Order.fills_account (qs : List Quantity) :
    ∀ o : Order, (o.fills qs).1.orderType_ = o.orderType_ ∧ (o.fills qs).1.orderId_ = o.orderId_ ∧
      (o.fills qs).1.side_ = o.side_ ∧ (o.fills qs).1.price_ = o.price_ ∧
      (o.fills qs).1.initialQuantity_ = o.initialQuantity_ ∧
      (o.fills qs).2 + (o.fills qs).1.remainingQuantity_ = o.remainingQuantity_ := by
  induction qs with
  | nil => intro o; exact ⟨rfl, rfl, rfl, rfl, rfl, Nat.zero_add _⟩
  | cons q qs ih =>
    intro o
    rw [Order.fills]
    cases hf : o.Fill q with
    | none => exact ih o
    | some o' =>
      obtain ⟨hq, rfl⟩ := Fill_some hf
      obtain ⟨i1, i2, i3, i4, i5, i6⟩ := ih (o.withRemaining (o.remainingQuantity_ - q))
      refine ⟨i1, i2, i3, i4, i5, ?_⟩
      simp only [Order.withRemaining] at i6 ⊢
      rw [Nat.add_assoc, i6]
      exact Nat.add_sub_cancel' hq

theorem fills_filled_iff (s r n : Nat) (hs : s + r = n) : r = 0 ↔ s = n := by
  omega

/-- C12. `Order::Fill(q)` throws exactly when `q` exceeds the remaining quantity; otherwise
it lowers the remaining quantity by exactly `q` and changes no other field.  Hence for an
order built with quantity `n` (a `std::uint32_t`), after any sequence of `Fill` calls, whether
they throw or not: `0 ≤ remaining ≤ initial = n`, `GetFilledQuantity` returns
`initial - remaining` with no wrap-around, and `IsFilled` holds exactly when the quantities
of the calls that did not throw sum to `n`. -/
theorem C12_Fill_contract (o : Order) (q : Quantity) (type : OrderType) (orderId : OrderId)
    (side : Side) (price : Price) (n : Quantity) (hn : n < 2 ^ 32) (qs : List Quantity) :
    (o.Fill q = none ↔ q > o.GetRemainingQuantity) ∧
    (∀ o', o.Fill q = some o' →
      o'.GetRemainingQuantity + q = o.GetRemainingQuantity ∧
      o'.orderType_ = o.orderType_ ∧ o'.GetOrderId = o.GetOrderId ∧ o'.GetSide = o.GetSide ∧
      o'.GetPrice = o.GetPrice ∧ o'.GetInitialQuantity = o.GetInitialQuantity) ∧
    (0 ≤ ((Order.new type orderId side price n).fills qs).1.GetRemainingQuantity ∧
      ((Order.new type orderId side price n).fills qs).1.GetRemainingQuantity ≤
        ((Order.new type orderId side price n).fills qs).1.GetInitialQuantity ∧
      ((Order.new type orderId side price n).fills qs).1.GetInitialQuantity = n ∧
      ((Order.new type orderId side price n).fills qs).1.GetFilledQuantity +
          ((Order.new type orderId side price n).fills qs).1.GetRemainingQuantity =
        ((Order.new type orderId side price n).fills qs).1.GetInitialQuantity ∧
      (((Order.new type orderId side price n).fills qs).1.IsFilled = true ↔
        ((Order.new type orderId side price n).fills qs).2 = n)) := by
  refine ⟨?_, ?_, ?_⟩
  · unfold Order.Fill
    split <;> simp_all
  · intro o' e
    obtain ⟨hq, rfl⟩ := Fill_some e
    exact ⟨Nat.sub_add_cancel hq, rfl, rfl, rfl, rfl, rfl⟩
  · obtain ⟨-, -, -, -, i5, i6⟩ := Order.fills_account qs (Order.new type orderId side price n)
    have i5' : ((Order.new type orderId side price n).fills qs).1.initialQuantity_ = n := i5
    have i6' : ((Order.new type orderId side price n).fills qs).2 +
        ((Order.new type orderId side price n).fills qs).1.remainingQuantity_ = n := i6
    have hle : ((Order.new type orderId side price n).fills qs).1.remainingQuantity_ ≤ n := by
      exact Nat.le.intro ((Nat.add_comm _ _).trans i6')
    refine ⟨Nat.zero_le _, ?_, i5', ?_, ?_⟩
    · simp only [Order.GetRemainingQuantity, Order.GetInitialQuantity, i5']
      exact hle
    · simp only [Order.GetFilledQuantity, Order.GetRemainingQuantity, Order.GetInitialQuantity, i5']
      have := filled_eq n _ hn hle
      rw [show (2 : Nat) ^ 32 = 4294967296 by norm_num, this]
      exact Nat.sub_add_cancel hle
    · simp only [Order.IsFilled, Order.GetRemainingQuantity, beq_iff_eq]
      exact fills_filled_iff _ _ _ i6'

theorem C12_witness :
    (5 : Nat) < 2 ^ 32 ∧
    ((Order.new OrderType.GoodTillCancel 1 Side.Buy 10 5).fills [3, 4, 2]).1.GetRemainingQuantity = 0 ∧
    ((Order.new OrderType.GoodTillCancel 1 Side.Buy 10 5).fills [3, 4, 2]).2 = 5 ∧
    (((Order.new OrderType.GoodTillCancel 1 Side.Buy 10 5).fills [3, 4, 2]).1.IsFilled = true ↔
      ((Order.new OrderType.GoodTillCancel 1 Side.Buy 10 5).fills [3, 4, 2]).2 = 5) :=
  ⟨by decide, by decide, by decide,
    (C12_Fill_contract (Order.new OrderType.GoodTillCancel 1 Side.Buy 10 5) 3
      OrderType.GoodTillCancel 1 Side.Buy 10 5 (by decide) [3, 4, 2]).2.2.2.2.2.2⟩

theorem wrap_add (acc r s : Nat) :
    ((acc + r) % 18446744073709551616 % 4294967296 + s) % 4294967296 =
      (acc + (r + s)) % 4294967296 := by
  omega

theorem accumulate_eq (h : Memory) (orders : OrderPointers) :
    ∀ acc : Nat, acc < 4294967296 →
      orders.foldl (fun runningSum order =>
        ((runningSum + (h.cell order).GetRemainingQuantity) % 2 ^ 64) % 2 ^ 32) acc =
      (acc + levelSum h orders) % 4294967296 := by
  induction orders with
  | nil =>
    intro acc ha
    simp only [List.foldl_nil, levelSum, List.map_nil, List.sum_nil, Nat.add_zero]
    exact (Nat.mod_eq_of_lt ha).symm
  | cons p l ih =>
    intro acc ha
    simp only [List.foldl_cons]
    have hlt : (acc + (h.cell p).GetRemainingQuantity) % 2 ^ 64 % 2 ^ 32 < 4294967296 :=
      Nat.mod_lt _ (by norm_num)
    rw [ih _ hlt]
    simp only [levelSum, List.map_cons, List.sum_cons]
    exact wrap_add _ _ _

theorem CreateLevelInfos_eq (h : Memory) (price : Price) (orders : OrderPointers) :
    CreateLevelInfos h price orders =
      { price_ := price, quantity_ := levelSum h orders % 2 ^ 32 } := by
  unfold CreateLevelInfos
  rw [accumulate_eq h orders 0 (by norm_num), Nat.zero_add]
  norm_num

/-- C13, as amended. For every book, `GetOrderInfos` returns one entry per price level of
each ledger, in the ledger's order, with the level's price; each entry's quantity is the sum
of the remaining quantities of all orders in that level reduced modulo `2 ^ 32`, which is the
sum itself whenever the sum is below `2 ^ 32`. -/
theorem C13_GetOrderInfos_sums_modulo (h : Memory) (b : Orderbook) :
    (b.GetOrderInfos h).GetBids.length = b.bids_.length ∧
    (b.GetOrderInfos h).GetAsks.length = b.asks_.length ∧
    (b.GetOrderInfos h).GetBids =
      b.bids_.map (fun l => { price_ := l.1, quantity_ := levelSum h l.2 % 2 ^ 32 }) ∧
    (b.GetOrderInfos h).GetAsks =
      b.asks_.map (fun l => { price_ := l.1, quantity_ := levelSum h l.2 % 2 ^ 32 }) ∧
    (∀ price orders, levelSum h orders < 2 ^ 32 →
      CreateLevelInfos h price orders = { price_ := price, quantity_ := levelSum h orders }) := by
  refine ⟨?_, ?_, ?_, ?_, ?_⟩
  · simp [Orderbook.GetOrderInfos, OrderbookLevelInfos.GetBids]
  · simp [Orderbook.GetOrderInfos, OrderbookLevelInfos.GetAsks]
  · simp only [Orderbook.GetOrderInfos, OrderbookLevelInfos.GetBids, CreateLevelInfos_eq]
  · simp only [Orderbook.GetOrderInfos, OrderbookLevelInfos.GetAsks, CreateLevelInfos_eq]
  · intro price orders hlt
    rw [CreateLevelInfos_eq, Nat.mod_eq_of_lt hlt]

theorem exLarge_reachable : Reachable exMemLarge exBookLarge := by
  have r1 : Reachable
      (Memory.init.make_shared (Order.new OrderType.GoodTillCancel 1 Side.Buy 10 2147483648)).1
      Orderbook.empty := Reachable.make_shared _ (Reachable.empty Memory.init)
  have r2 : Reachable
      (Memory.init.make_shared (Order.new OrderType.GoodTillCancel 1 Side.Buy 10 2147483648)).1
      { bids_ := [(10, [0])], asks_ := [], orders_ := [(1, ⟨0, Iterator.pastEnd⟩)] } :=
    @Reachable.AddOrder _ Orderbook.empty 0 _ _ [] r1 (by decide) rfl
  have r3 : Reachable exMemLarge
      { bids_ := [(10, [0])], asks_ := [], orders_ := [(1, ⟨0, Iterator.pastEnd⟩)] } :=
    Reachable.make_shared _ r2
  exact @Reachable.AddOrder _ _ 1 _ exBookLarge [] r3 (by decide) rfl

/-- C13, as stated, fails. Two `GoodTillCancel` Buy orders at 10 for 2147483648 each rest
in one level; their remaining quantities sum to 4294967296, and `GetOrderInfos` reports the
level with quantity 0. -/
theorem C13_counterexample :
    Reachable exMemLarge exBookLarge ∧
    exBookLarge.bids_ = [(10, [0, 1])] ∧
    levelSum exMemLarge [0, 1] = 4294967296 ∧
    (exBookLarge.GetOrderInfos exMemLarge).GetBids = [{ price_ := 10, quantity_ := 0 }] ∧
    ¬ ((exBookLarge.GetOrderInfos exMemLarge).GetBids.map LevelInfo.quantity_ =
      exBookLarge.bids_.map (fun l => levelSum exMemLarge l.2)) :=
  ⟨exLarge_reachable, rfl, by decide, by decide, by decide⟩

theorem mem_ledgerKeys_of_tagged {m : Ledger} {x : Price × OrderPointer}
    (hx : x ∈ ledgerTagged m) : x.1 ∈ ledgerKeys m := by
  induction m with
  | nil => simp [ledgerTagged] at hx
  | cons y rest ih =>
    obtain ⟨k, l⟩ := y
    simp only [ledgerTagged, List.mem_append, List.mem_map] at hx
    simp only [ledgerKeys, List.map_cons, List.mem_cons]
    rcases hx with ⟨p, -, rfl⟩ | hx
    · exact Or.inl rfl
    · exact Or.inr (ih hx)

theorem snapshot_prices (h : Memory) (m : Ledger) :
    (m.map (fun l => CreateLevelInfos h l.1 l.2)).map LevelInfo.price_ = ledgerKeys m := by
  simp only [List.map_map, ledgerKeys]
  exact List.map_congr_left (fun l _ => rfl)

/-- C14. In every reachable state the bid sequence that `GetOrderInfos` returns is strictly
decreasing in price and the ask sequence strictly increasing in price, so no price occurs
twice on a side; the first bid entry carries the highest price of all bid entries and of all
Buy orders held in the book, and the first ask entry the lowest price of all ask entries and
of all Sell orders held in the book.  Prices are compared as signed integers. -/
theorem C14_snapshot_is_ordered {h : Memory} {b : Orderbook} (r : Reachable h b) :
    ((b.GetOrderInfos h).GetBids.map LevelInfo.price_).Pairwise (fun x y => x > y) ∧
    ((b.GetOrderInfos h).GetAsks.map LevelInfo.price_).Pairwise (fun x y => x < y) ∧
    ((b.GetOrderInfos h).GetBids.map LevelInfo.price_).Nodup ∧
    ((b.GetOrderInfos h).GetAsks.map LevelInfo.price_).Nodup ∧
    (∀ first rest, (b.GetOrderInfos h).GetBids = first :: rest →
      (∀ e ∈ rest, e.price_ < first.price_) ∧
      (∀ p ∈ ledgerPtrs b.bids_, (h.cell p).GetPrice ≤ first.price_)) ∧
    (∀ first rest, (b.GetOrderInfos h).GetAsks = first :: rest →
      (∀ e ∈ rest, first.price_ < e.price_) ∧
      (∀ p ∈ ledgerPtrs b.asks_, first.price_ ≤ (h.cell p).GetPrice)) := by
  have v := r.base.1
  have hb : (b.GetOrderInfos h).GetBids.map LevelInfo.price_ = ledgerKeys b.bids_ :=
    snapshot_prices h b.bids_
  have ha : (b.GetOrderInfos h).GetAsks.map LevelInfo.price_ = ledgerKeys b.asks_ :=
    snapshot_prices h b.asks_
  refine ⟨hb ▸ v.bidsSorted, ha ▸ v.asksSorted, ?_, ?_, ?_, ?_⟩
  · rw [hb]
    exact v.bidsSorted.imp (fun hxy => ne_of_gt hxy)
  · rw [ha]
    exact v.asksSorted.imp (fun hxy => ne_of_lt hxy)
  · intro first rest e
    have hs := v.bidsSorted
    rw [← hb, e] at hs
    simp only [List.map_cons, List.pairwise_cons, List.mem_map] at hs
    refine ⟨fun x hx => hs.1 _ ⟨x, hx, rfl⟩, fun p hp => ?_⟩
    rw [ledgerPtrs_eq_map] at hp
    obtain ⟨x, hx, rfl⟩ := List.mem_map.mp hp
    have hk := mem_ledgerKeys_of_tagged hx
    rw [← hb, e] at hk
    simp only [List.map_cons, List.mem_cons, List.mem_map] at hk
    rw [Order.GetPrice, (v.bidsOwn x hx).2]
    rcases hk with hk | ⟨y, hy, hk⟩
    · exact le_of_eq hk
    · rw [← hk]; exact le_of_lt (hs.1 _ ⟨y, hy, rfl⟩)
  · intro first rest e
    have hs := v.asksSorted
    rw [← ha, e] at hs
    simp only [List.map_cons, List.pairwise_cons, List.mem_map] at hs
    refine ⟨fun x hx => hs.1 _ ⟨x, hx, rfl⟩, fun p hp => ?_⟩
    rw [ledgerPtrs_eq_map] at hp
    obtain ⟨x, hx, rfl⟩ := List.mem_map.mp hp
    have hk := mem_ledgerKeys_of_tagged hx
    rw [← ha, e] at hk
    simp only [List.map_cons, List.mem_cons, List.mem_map] at hk
    rw [Order.GetPrice, (v.asksOwn x hx).2]
    rcases hk with hk | ⟨y, hy, hk⟩
    · exact le_of_eq hk.symm
    · rw [← hk]; exact le_of_lt (hs.1 _ ⟨y, hy, rfl⟩)

theorem exNegative_reachable : Reachable exMemNegative exBookNegative := by
  have r1 : Reachable (Memory.init.make_shared (Order.new OrderType.GoodTillCancel 1 Side.Buy (-5) 5)).1
      Orderbook.empty := Reachable.make_shared _ (Reachable.empty Memory.init)
  have r2 : Reachable (Memory.init.make_shared (Order.new OrderType.GoodTillCancel 1 Side.Buy (-5) 5)).1
      { bids_ := [(-5, [0])], asks_ := [], orders_ := [(1, ⟨0, Iterator.pastEnd⟩)] } :=
    @Reachable.AddOrder _ Orderbook.empty 0 _ _ [] r1 (by decide) rfl
  have r3 : Reachable
      ((Memory.init.make_shared (Order.new OrderType.GoodTillCancel 1 Side.Buy (-5) 5)).1.make_shared
        (Order.new OrderType.GoodTillCancel 2 Side.Buy (-3) 2)).1
      { bids_ := [(-5, [0])], asks_ := [], orders_ := [(1, ⟨0, Iterator.pastEnd⟩)] } :=
    Reachable.make_shared _ r2
  have r4 : Reachable
      ((Memory.init.make_shared (Order.new OrderType.GoodTillCancel 1 Side.Buy (-5) 5)).1.make_shared
        (Order.new OrderType.GoodTillCancel 2 Side.Buy (-3) 2)).1
      { bids_ := [(-3, [1]), (-5, [0])], asks_ := [],
        orders_ := [(1, ⟨0, Iterator.pastEnd⟩), (2, ⟨1, Iterator.pastEnd⟩)] } :=
    @Reachable.AddOrder _ _ 1 _ _ [] r3 (by decide) rfl
  have r5 : Reachable exMemNegative
      { bids_ := [(-3, [1]), (-5, [0])], asks_ := [],
        orders_ := [(1, ⟨0, Iterator.pastEnd⟩), (2, ⟨1, Iterator.pastEnd⟩)] } :=
    Reachable.make_shared _ r4
  exact @Reachable.AddOrder _ _ 2 _ exBookNegative [] r5 (by decide) rfl

theorem C14_witness :
    Reachable exMemNegative exBookNegative ∧
    (exBookNegative.GetOrderInfos exMemNegative).GetBids =
      [{ price_ := -3, quantity_ := 2 }, { price_ := -5, quantity_ := 5 }] ∧
    (exBookNegative.GetOrderInfos exMemNegative).GetAsks = [{ price_ := -1, quantity_ := 4 }] ∧
    ((exBookNegative.GetOrderInfos exMemNegative).GetBids.map LevelInfo.price_).Pairwise
      (fun x y => x > y) :=
  ⟨exNegative_reachable, by decide, by decide, (C14_snapshot_is_ordered exNegative_reachable).1⟩

/-- C15. For every book (a `std::map` iterates its keys in the order of its comparator) and
every price `P`: `CanMatch(Buy, P)` is true exactly when the ask ledger is non-empty and its
lowest price is at most `P`, and `CanMatch(Sell, P)` is true exactly when the bid ledger is
non-empty and its highest price is at least `P`.  `CanMatch` is a function of the book and
returns only the truth value: it changes no state. -/
theorem C15_CanMatch_tests_best_price (b : Orderbook) (P : Price)
    (hbids : (ledgerKeys b.bids_).Pairwise (fun x y => x > y))
    (hasks : (ledgerKeys b.asks_).Pairwise (fun x y => x < y)) :
    (b.CanMatch Side.Buy P = true ↔
      b.asks_ ≠ [] ∧
        ∃ lowest ∈ ledgerKeys b.asks_, (∀ k ∈ ledgerKeys b.asks_, lowest ≤ k) ∧ lowest ≤ P) ∧
    (b.CanMatch Side.Sell P = true ↔
      b.bids_ ≠ [] ∧
        ∃ highest ∈ ledgerKeys b.bids_, (∀ k ∈ ledgerKeys b.bids_, k ≤ highest) ∧ highest ≥ P) := by
  constructor
  · cases ha : b.asks_ with
    | nil => simp [Orderbook.CanMatch, ha]
    | cons x rest =>
      obtain ⟨k0, l0⟩ := x
      rw [ha] at hasks
      simp only [ledgerKeys, List.map_cons, List.pairwise_cons] at hasks
      have hmin : ∀ k ∈ ledgerKeys ((k0, l0) :: rest), k0 ≤ k := by
        intro k hk
        simp only [ledgerKeys, List.map_cons, List.mem_cons] at hk
        rcases hk with rfl | hk
        · exact le_refl _
        · exact le_of_lt (hasks.1 k hk)
      have hmem : k0 ∈ ledgerKeys ((k0, l0) :: rest) := by simp [ledgerKeys]
      simp only [Orderbook.CanMatch, ha, if_true, decide_eq_true_eq, ge_iff_le, ne_eq,
        not_false_eq_true, true_and, reduceCtorEq]
      constructor
      · intro hle
        exact ⟨k0, hmem, hmin, hle⟩
      · rintro ⟨k, hk, hall, hle⟩
        exact le_trans (le_antisymm (hmin k hk) (hall k0 hmem) ▸ le_refl _) hle
  · cases hb : b.bids_ with
    | nil => simp [Orderbook.CanMatch, hb]
    | cons x rest =>
      obtain ⟨k0, l0⟩ := x
      rw [hb] at hbids
      simp only [ledgerKeys, List.map_cons, List.pairwise_cons] at hbids
      have hmax : ∀ k ∈ ledgerKeys ((k0, l0) :: rest), k ≤ k0 := by
        intro k hk
        simp only [ledgerKeys, List.map_cons, List.mem_cons] at hk
        rcases hk with rfl | hk
        · exact le_refl _
        · exact le_of_lt (hbids.1 k hk)
      have hmem : k0 ∈ ledgerKeys ((k0, l0) :: rest) := by simp [ledgerKeys]
      simp only [Orderbook.CanMatch, hb, decide_eq_true_eq, ge_iff_le, ne_eq,
        not_false_eq_true, true_and, reduceCtorEq, if_false]
      constructor
      · intro hle
        exact ⟨k0, hmem, hmax, hle⟩
      · rintro ⟨k, hk, hall, hle⟩
        have : k = k0 := le_antisymm (hmax k hk) (hall k0 hmem)
        rw [← this]; exact hle

theorem C15_witness :
    ((ledgerKeys exBookNegative.bids_).Pairwise (fun x y => x > y) ∧
      (ledgerKeys exBookNegative.asks_).Pairwise (fun x y => x < y)) ∧
    exBookNegative.CanMatch Side.Buy (-1) = true ∧
    exBookNegative.CanMatch Side.Sell (-2) = false ∧
    (exBookNegative.CanMatch Side.Buy (-1) = true ↔
      exBookNegative.asks_ ≠ [] ∧
        ∃ lowest ∈ ledgerKeys exBookNegative.asks_,
          (∀ k ∈ ledgerKeys exBookNegative.asks_, lowest ≤ k) ∧ lowest ≤ -1) :=
  ⟨⟨by decide, by decide⟩, by decide, by decide,
    (C15_CanMatch_tests_best_price exBookNegative (-1) (by decide) (by decide)).1⟩

/-- In a reachable state `CancelOrder` of an identity in the order index ends in the fault
of `erase` at the past-the-end handle. -/
theorem CancelOrder_of_reachable {h : Memory} {b : Orderbook} (r : Reachable h b)
    {orderId : OrderId} (hc : indexContains b.orders_ orderId = true) :
    Orderbook.CancelOrder h b orderId = Run.fault := by
  rw [CancelOrder_of_handles _ _ _ r.base.1.handles, if_pos hc]

theorem exBuySell_reachable : Reachable exMemBuySell exBookBuySell :=
  Reachable.AddOrder (Reachable.make_shared _ exBuy_reachable)
    (show (1 : Nat) < exMemBuySell.next by decide) exBuySell_add

/-- C16 (the code at a failing input). With the Buy order 1 at 10 and the Sell order 2 at
11 resting, `Size()` is 2 and identity 2 is active, and `CancelOrder(2)` does not return:
the handle stored for the order is the past-the-end iterator, and the call ends in the
fault of `erase`. -/
theorem C16_cancel_of_active_order_faults :
    Reachable exMemBuySell exBookBuySell ∧
    indexContains exBookBuySell.orders_ 2 = true ∧
    exBookBuySell.Size = 2 ∧
    Orderbook.CancelOrder exMemBuySell exBookBuySell 2 = Run.fault :=
  ⟨exBuySell_reachable, by decide, by decide, by decide⟩

/-- C17. For every book and every identity that is not in the order index, `CancelOrder`
returns and leaves the bid ledger, the ask ledger and the order index unchanged, and
`MatchOrder` with that identity returns the empty trade list and leaves the ledgers, the
order index and the order objects unchanged. -/
theorem C17_unknown_identity_is_ignored (h : Memory) (b : Orderbook) (order : OrderModify)
    (hc : indexContains b.orders_ order.GetOrderId = false) :
    Orderbook.CancelOrder h b order.GetOrderId = Run.done b ∧
    Orderbook.MatchOrder h b order = Run.done (h, b, []) := by
  constructor
  · unfold Orderbook.CancelOrder
    simp [hc]
  · unfold Orderbook.MatchOrder
    simp [hc]

theorem C17_witness :
    indexContains exBookBuySell.orders_ (OrderModify.mk 7 9 Side.Buy 5).GetOrderId = false ∧
    Orderbook.CancelOrder exMemBuySell exBookBuySell 7 = Run.done exBookBuySell ∧
    Orderbook.MatchOrder exMemBuySell exBookBuySell (OrderModify.mk 7 9 Side.Buy 5) =
      Run.done (exMemBuySell, exBookBuySell, []) :=
  ⟨by decide, C17_unknown_identity_is_ignored exMemBuySell exBookBuySell (OrderModify.mk 7 9 Side.Buy 5)
    (by decide)⟩

theorem indexAt_append_fresh {m : OrderIndex} {k : OrderId} (e : OrderEntry)
    (hk : indexContains m k = false) : indexAt (m ++ [(k, e)]) k = some e := by
  induction m with
  | nil => simp [indexAt]
  | cons x rest ih =>
    obtain ⟨k', e'⟩ := x
    simp only [indexContains, List.any_cons, Bool.or_eq_false_iff, beq_eq_false_iff_ne, ne_eq] at hk
    simp only [List.cons_append, indexAt, hk.1, if_false]
    exact ih (by simpa [indexContains] using hk.2)

/-- The handle that `AddOrder` stores for an order it admits (lines 264, 268 and 271) is
the past-the-end iterator of the order's level, in every book. -/
theorem insertOrder_stores_end (h : Memory) (b : Orderbook) (order : OrderPointer)
    (hk : indexContains b.orders_ (h.cell order).GetOrderId = false) :
    indexAt (b.insertOrder h order).orders_ (h.cell order).GetOrderId =
      some ⟨order, Iterator.pastEnd⟩ := by
  have hk' : indexContains b.orders_ (h.cell order).orderId_ = false := hk
  rw [insertOrder_eq]
  split <;>
    simp only [Order.GetOrderId, indexKeys_indexInsert _ hk'] <;>
    exact indexAt_append_fresh _ hk'

/-- C19 (the code at a failing input). With Buy 1 resting at 10, `AddOrder` of Buy 4 at 10
appends the order to the level and returns with the order in the book; the handle it has
stored for identity 4 is `std::next(orders.begin(), orders.size())` of the level `[0, 1]`,
the past-the-end iterator, which designates no element; and `CancelOrder(4)` does not
remove the order: it ends in the fault of `erase`. -/
theorem C19_stored_handle_is_past_the_end :
    Orderbook.AddOrder exMemTwoBids exBookBuy 1 = Run.done (exMemTwoBids, exBookTwoBids, []) ∧
    exBookTwoBids.bids_ = [(10, [0, 1])] ∧
    stdNext [0, 1] 2 = Iterator.pastEnd ∧
    indexAt exBookTwoBids.orders_ 4 = some ⟨1, Iterator.pastEnd⟩ ∧
    Reachable exMemTwoBids exBookTwoBids ∧
    Orderbook.CancelOrder exMemTwoBids exBookTwoBids 4 = Run.fault :=
  ⟨rfl, rfl, by decide, by decide, exTwoBids_reachable, by decide⟩

/-- What `CancelOrder` does to the ledger of the other side when it returns: the Sell
branch leaves `bids_` alone; the Buy branch leaves `asks_` alone or, when it has emptied the
order's level, erases the order's price from `asks_` (line 292). -/
theorem CancelOrder_opposite_ledger {h : Memory} {b : Orderbook} {orderId : OrderId}
    {entry : OrderEntry} {b' : Orderbook} (he : indexAt b.orders_ orderId = some entry)
    (e : Orderbook.CancelOrder h b orderId = Run.done b') :
    ((h.cell entry.order_).GetSide = Side.Sell → b'.bids_ = b.bids_) ∧
    ((h.cell entry.order_).GetSide ≠ Side.Sell →
      b'.asks_ = b.asks_ ∨ b'.asks_ = mapErase b.asks_ (h.cell entry.order_).GetPrice) := by
  have hc : indexContains b.orders_ orderId = true := indexContains_of_indexAt he
  unfold Orderbook.CancelOrder at e
  simp only [hc, Bool.not_true, Bool.false_eq_true, if_false, he] at e
  constructor
  · intro hs
    rw [if_pos hs] at e
    split at e
    · cases e
    · split at e
      · cases e
      · split at e <;> simp only [Run.done.injEq] at e <;> rw [← e]
  · intro hs
    rw [if_neg hs] at e
    split at e
    · cases e
    · split at e
      · cases e
      · split at e <;> simp only [Run.done.injEq] at e <;> rw [← e]
        · exact Or.inr rfl
        · exact Or.inl rfl

/-- Were the stored handle the order's own node, `CancelOrder` of the only Buy order at a
price at which the ask ledger holds a level would remove that ask level, with its Sell
order still in the order index, and leave the emptied bid level: line 292 erases the price
from `asks_`. -/
theorem CancelOrder_buy_erases_ask_level :
    Orderbook.CancelOrder exMemSellKill exBookCrossedNode 2 =
      Run.done { bids_ := [(10, [])], asks_ := [], orders_ := [(1, ⟨0, Iterator.node 0⟩)] } := by
  decide

theorem mem_ledgerTagged {m : Ledger} {x : Price × OrderPointer} (hx : x ∈ ledgerTagged m) :
    ∃ l, (x.1, l) ∈ m ∧ x.2 ∈ l := by
  induction m with
  | nil => simp [ledgerTagged] at hx
  | cons y rest ih =>
    obtain ⟨k, l⟩ := y
    simp only [ledgerTagged, List.mem_append, List.mem_map] at hx
    rcases hx with ⟨p, hp, rfl⟩ | hx
    · exact ⟨l, List.mem_cons_self _ _, hp⟩
    · obtain ⟨l', h1, h2⟩ := ih hx
      exact ⟨l', List.mem_cons_of_mem _ h1, h2⟩

theorem ledgerPtrs_length (m : Ledger) : (ledgerPtrs m).length = ledgerSize m := by
  induction m with
  | nil => rfl
  | cons y rest ih =>
    obtain ⟨k, l⟩ := y
    simp only [ledgerPtrs, List.length_append, ih, ledgerSize, List.map_cons, List.sum_cons]

/-- In a book that satisfies the structural invariant the order index has as many entries
as the ledgers hold orders. -/
theorem Base.size_eq {h : Memory} {b : Orderbook} (v : Base h b) : b.Size = b.ledgerCount := by
  have hperm : (indexKeys b.orders_).Perm (b.ptrs.map (fun p => (h.cell p).orderId_)) := by
    rw [List.perm_ext_iff_of_nodup v.keysNodup v.idsNodup]
    intro a
    constructor
    · intro ha
      obtain ⟨e, he, rfl⟩ := List.mem_map.mp ha
      obtain ⟨l1, l2⟩ := v.live e he
      exact List.mem_map.mpr ⟨_, l1, l2⟩
    · intro ha
      obtain ⟨p, hp, rfl⟩ := List.mem_map.mp ha
      exact (indexContains_iff _ _).mp (v.indexed p hp)
  have hlen := hperm.length_eq
  simp only [indexKeys, List.length_map, Orderbook.ptrs, List.length_append, ledgerPtrs_length] at hlen
  exact hlen

/-- One pass of the loop body leaves no order at remaining quantity 0 in the ledgers that
was not there at 0 before. -/
theorem zero_of_matchFront {h : Memory} {b : Orderbook} (v : Base h b) {h2 : Memory}
    {b2 : Orderbook} {t : Trade} (hm : b.matchFront h = some (h2, b2, t)) {p : OrderPointer}
    (hp : p ∈ b2.ptrs) (hz : (h2.cell p).remainingQuantity_ = 0) :
    p ∈ b.ptrs ∧ (h.cell p).remainingQuantity_ = 0 := by
  obtain ⟨sb, sa⟩ := matchFront_ptrs_subset hm
  have hnd := v.ptrsNodup
  have hp0 : p ∈ b.ptrs := by
    rcases List.mem_append.mp hp with h1 | h1
    · exact List.mem_append.mpr (Or.inl (sb p h1))
    · exact List.mem_append.mpr (Or.inr (sa p h1))
  refine ⟨hp0, ?_⟩
  obtain ⟨bp, bid, bl, brest, ap, ask, al, arest, hb, ha, e1, e2, -⟩ := matchFront_eq hm
  have hne := v.front_ne hb ha
  have hf : (h2.cell p).IsFilled = true := by
    simp [Order.IsFilled, Order.GetRemainingQuantity, hz]
  simp only [Orderbook.ptrs] at hnd hp
  by_cases c1 : p = bid
  · exfalso
    subst c1
    have hb2 : b2.bids_ = popFront b.bids_ := by
      rw [e2]
      by_cases c : (h2.cell ask).IsFilled = true <;> simp [hf, c]
    rw [hb, ledgerPtrs] at hnd
    simp only [List.cons_append, List.nodup_cons, List.mem_append, not_or] at hnd
    rcases List.mem_append.mp hp with h1 | h1
    · rw [hb2, hb, ledgerPtrs_popFront] at h1
      rcases List.mem_append.mp h1 with h3 | h3
      · exact hnd.1.1.1 h3
      · exact hnd.1.1.2 h3
    · exact hnd.1.2 (sa p h1)
  · by_cases c2 : p = ask
    · exfalso
      subst c2
      have ha2 : b2.asks_ = popFront b.asks_ := by
        rw [e2]
        by_cases c : (h2.cell bid).IsFilled = true <;> simp [hf, c]
      rw [ha, ledgerPtrs] at hnd
      rw [List.nodup_append] at hnd
      obtain ⟨-, hn2, hdis⟩ := hnd
      simp only [List.cons_append, List.nodup_cons, List.mem_append, not_or] at hn2
      rcases List.mem_append.mp hp with h1 | h1
      · exact hdis (sb p h1) (by simp)
      · rw [ha2, ha, ledgerPtrs_popFront] at h1
        rcases List.mem_append.mp h1 with h3 | h3
        · exact hn2.1.1 h3
        · exact hn2.1.2 h3
    · rw [e1, write_cell_other _ _ c2, write_cell_other _ _ c1] at hz
      exact hz

theorem zero_of_steps {h : Memory} {b : Orderbook} {tr : Trades} {h' : Memory} {b' : Orderbook}
    {tr' : Trades} (s : Steps h b tr h' b' tr') (v : Base h b) :
    ∀ p ∈ b'.ptrs, (h'.cell p).remainingQuantity_ = 0 →
      p ∈ b.ptrs ∧ (h.cell p).remainingQuantity_ = 0 := by
  induction s with
  | refl => exact fun p hp hz => ⟨hp, hz⟩
  | step _ hm _ ih =>
    intro p hp hz
    obtain ⟨a, c⟩ := ih (v.of_matchFront hm) p hp hz
    exact zero_of_matchFront v hm a c

/-- C18, as amended. Index and ledgers agree in every reachable state: every identity in
the order index occurs exactly once among the orders held in the ledgers, its entry refers
to an order with that identity, and that order is in the level of its own side and price;
every order in any price level is in the order index; `Size()` equals the total number of
orders held in the two ledgers; and when an `AddOrder` call returns, every order in any
price level has remaining quantity above 0, or is the order just admitted, or already
rested before the call with remaining quantity 0. -/
theorem C18_index_and_ledgers_agree {h : Memory} {b : Orderbook} (r : Reachable h b) :
    (∀ x ∈ b.orders_,
      (b.ptrs.map (fun p => (h.cell p).GetOrderId)).count x.1 = 1 ∧
      (h.cell x.2.order_).GetOrderId = x.1 ∧
      ∃ l, ((h.cell x.2.order_).GetPrice, l) ∈ b.ledger (h.cell x.2.order_).GetSide ∧
        x.2.order_ ∈ l) ∧
    (∀ p ∈ b.ptrs, indexContains b.orders_ (h.cell p).GetOrderId = true) ∧
    b.Size = b.ledgerCount ∧
    (∀ order h' b' trades, order < h.next →
      Orderbook.AddOrder h b order = Run.done (h', b', trades) →
      ∀ p ∈ b'.ptrs, 0 < (h'.cell p).GetRemainingQuantity ∨ p = order ∨
        (p ∈ b.ptrs ∧ (h.cell p).GetRemainingQuantity = 0)) := by
  have v := r.base.1
  refine ⟨?_, v.indexed, v.size_eq, ?_⟩
  · intro x hx
    obtain ⟨l1, l2⟩ := v.live x hx
    refine ⟨List.count_eq_one_of_mem v.idsNodup (List.mem_map.mpr ⟨_, l1, l2⟩), l2, ?_⟩
    rcases List.mem_append.mp l1 with hb | hb
    · rw [ledgerPtrs_eq_map] at hb
      obtain ⟨y, hy, hy2⟩ := List.mem_map.mp hb
      obtain ⟨o1, o2⟩ := v.bidsOwn y hy
      obtain ⟨l, m1, m2⟩ := mem_ledgerTagged hy
      rw [hy2] at o1 o2 m2
      refine ⟨l, ?_, m2⟩
      rw [Order.GetSide, Order.GetPrice, o1, o2]
      exact m1
    · rw [ledgerPtrs_eq_map] at hb
      obtain ⟨y, hy, hy2⟩ := List.mem_map.mp hb
      obtain ⟨o1, o2⟩ := v.asksOwn y hy
      obtain ⟨l, m1, m2⟩ := mem_ledgerTagged hy
      rw [hy2] at o1 o2 m2
      refine ⟨l, ?_, m2⟩
      rw [Order.GetSide, Order.GetPrice, o1, o2]
      exact m1
  · intro order h' b' trades ha e p hp
    rcases Nat.eq_zero_or_pos (h'.cell p).GetRemainingQuantity with hz | hz
    · right
      rcases AddOrder_done_cases v ha e with ⟨rfl, rfl, -⟩ | ⟨-, v0, s, -⟩
      · exact Or.inr ⟨hp, hz⟩
      · obtain ⟨a, c⟩ := zero_of_steps s v0 p hp hz
        rcases insertOrder_mem_ptrs a with e1 | e1
        · exact Or.inl e1
        · exact Or.inr ⟨e1, c⟩
    · exact Or.inl hz

theorem C18_witness :
    (Reachable exMemTwoBids exBookTwoBids ∧ 2 < exMemTwoBids.next ∧
      Orderbook.AddOrder exMemTwoBids exBookTwoBids 2 =
        Run.done (exMemTwoBidsAfter, exBookTwoBidsAfter,
          [{ bidTrade_ := ⟨1, 10, 5⟩, askTrade_ := ⟨5, 10, 5⟩ }])) ∧
    exBookTwoBids.Size = exBookTwoBids.ledgerCount ∧
    (∀ p ∈ exBookTwoBidsAfter.ptrs, 0 < (exMemTwoBidsAfter.cell p).GetRemainingQuantity ∨ p = 2 ∨
      (p ∈ exBookTwoBids.ptrs ∧ (exMemTwoBids.cell p).GetRemainingQuantity = 0)) :=
  ⟨⟨exTwoBids_reachable, by decide, exTwoBids_add⟩,
    (C18_index_and_ledgers_agree exTwoBids_reachable).2.2.1,
    (C18_index_and_ledgers_agree exTwoBids_reachable).2.2.2 2 _ _ _ (by decide) exTwoBids_add⟩

theorem exZero_reachable : Reachable exMemZero exBookZero :=
  Reachable.make_shared _
    (@Reachable.AddOrder (Memory.init.make_shared
        (Order.new OrderType.GoodTillCancel 1 Side.Buy 10 0)).1 Orderbook.empty 0 _ _ []
      (Reachable.make_shared _ (Reachable.empty Memory.init)) (by decide) rfl)

/-- C18, as stated, fails. The `GoodTillCancel` Buy order 1 at 10 for quantity 0 rests
after its `AddOrder`; after the later `AddOrder` of Buy order 2 at 9 for 5 returns, order 1
is still in its level and in the order index with remaining quantity 0, and it is not the
order just admitted. -/
theorem C18_counterexample :
    Reachable exMemZero exBookZero ∧
    Orderbook.AddOrder exMemZero exBookZero 1 = Run.done (exMemZero, exBookZeroNext, []) ∧
    Reachable exMemZero exBookZeroNext ∧
    exBookZeroNext.bids_ = [(10, [0]), (9, [1])] ∧
    indexContains exBookZeroNext.orders_ (exMemZero.cell 0).GetOrderId = true ∧
    ¬ (∀ p ∈ exBookZeroNext.ptrs, 0 < (exMemZero.cell p).GetRemainingQuantity ∨ p = 1) :=
  ⟨exZero_reachable, rfl, Reachable.AddOrder exZero_reachable (show 1 < exMemZero.next by decide) rfl,
    rfl, by decide, by decide⟩

theorem C13_witness :
    (exBookNegative.GetOrderInfos exMemNegative).GetBids =
      [{ price_ := -3, quantity_ := 2 }, { price_ := -5, quantity_ := 5 }] ∧
    (exBookNegative.GetOrderInfos exMemNegative).GetBids =
      exBookNegative.bids_.map
        (fun l => { price_ := l.1, quantity_ := levelSum exMemNegative l.2 % 2 ^ 32 }) :=
  ⟨by decide, (C13_GetOrderInfos_sums_modulo exMemNegative exBookNegative).2.2.1⟩

end OrderbookCpp
